import Mathlib

/-!
# The `nov::memory` heap manager

A shallow embedding of `src/memory.cpp` (the namespaced, signature-checked
allocator) and theorems about it: `minit`, `malloc`, `mfree`,
`mconsolidate` and `mview` one call at a time, then sequences of calls
after `minit`.  Two further models serve single questions: the `malloc` of
`include/memory.h` (namespace `header_only`), and `memory.cpp` over a
memory of bytes (namespace `bytes`).

Conventions of the embedding.

* Pointers and `uint32_t` values are natural numbers; every arithmetic
  operation the source performs on `uint32_t` is reduced modulo `2^32`
  (`add32`, `sub32`).  The source casts pointers to `uint32_t`, so the
  target is a 32-bit one and `sizeof` yields a 32-bit unsigned value as
  well.  The null pointer is `0`.
* `H` stands for `sizeof(nov_memory_frame)`.  The declaration of the frame
  type used by `memory.cpp` (with the two signature fields) is not part of
  the sources at hand, so `H` is a parameter of every operation; the
  concrete heaps below take `H = 9`, the layout of the scenario in the
  specification.
* Memory is a map from frame addresses to frame records.  A field write
  `p->field = v` updates the record stored at address `p` only: records at
  different addresses are independent storage.  This is exact for frames
  that lie at least `H` bytes apart, as the frames of a well-formed chain
  do; payload bytes are not modelled.  Headers that share bytes are the
  subject of the byte-level model.
* Loops carry a fuel argument and return `none` when it runs out; the
  theorems state how much fuel is enough.
-/

namespace nov.memory

/-- The frame header: `next`, `is_free`, `signature`, `signature_end`. -/
structure nov_memory_frame where
  next : Nat
  is_free : Bool
  signature : Nat
  signature_end : Nat
deriving DecidableEq

/-- The `memory_information` record written by `minit`. -/
structure nov_memory_information where
  head : Nat
  size : Nat
deriving DecidableEq

/-- The state the allocator works on: the static `head_frame`, the memory
holding the frames, and the global `memory_information`. -/
structure Heap where
  head_frame : Nat
  mem : Nat → nov_memory_frame
  memory_information : nov_memory_information

/-- Addition on `uint32_t`. -/
def add32 (a b : Nat) : Nat := (a + b) % 2 ^ 32

/-- Subtraction on `uint32_t`. -/
def sub32 (a b : Nat) : Nat := (a % 2 ^ 32 + 2 ^ 32 - b % 2 ^ 32) % 2 ^ 32

/-- The write `p->next = v`. -/
def set_next (mem : Nat → nov_memory_frame) (p v : Nat) : Nat → nov_memory_frame :=
  Function.update mem p { mem p with next := v }

/-- The write `p->is_free = v`. -/
def set_is_free (mem : Nat → nov_memory_frame) (p : Nat) (v : Bool) :
    Nat → nov_memory_frame :=
  Function.update mem p { mem p with is_free := v }

/-- The write `p->signature = v`. -/
def set_signature (mem : Nat → nov_memory_frame) (p v : Nat) : Nat → nov_memory_frame :=
  Function.update mem p { mem p with signature := v }

/-- The write `p->signature_end = v`. -/
def set_signature_end (mem : Nat → nov_memory_frame) (p v : Nat) :
    Nat → nov_memory_frame :=
  Function.update mem p { mem p with signature_end := v }

/-- `minit(block_start, size)`. -/
def minit (H : Nat) (s : Heap) (block_start size : Nat) : Heap :=
  if size < H ∨ block_start = 0 then s
  else
    let head_frame := block_start
    let m1 := set_is_free s.mem head_frame true
    let m2 := set_signature m1 head_frame 0x4a6b
    let m3 := set_signature_end m2 head_frame 0x79
    let m4 := set_next m3 head_frame (sub32 (add32 block_start size) H)
    let m5 := set_next m4 (m4 head_frame).next 0
    let m6 := set_is_free m5 (m5 head_frame).next false
    { head_frame := head_frame
      mem := m6
      memory_information := { head := head_frame, size := size } }

/-- The `while` loop of `malloc`, started at `current_block`. -/
def malloc_loop (H size : Nat) : Nat → Heap → Nat → Option (Heap × Nat)
  | 0, _, _ => none
  | fuel + 1, s, current_block =>
    if current_block = 0 then some (s, 0)
    else if (s.mem current_block).is_free = false then
      malloc_loop H size fuel s (s.mem current_block).next
    else
      let next_block := (s.mem current_block).next
      if next_block = 0 then some (s, 0)
      else
        let block_size := sub32 next_block current_block
        if block_size > add32 (add32 size H) H then
          let new_block := add32 (add32 current_block H) size
          let m1 := set_is_free s.mem new_block true
          let m2 := set_signature m1 new_block 0x4a6b
          let m3 := set_signature_end m2 new_block 0x79
          let m4 := set_next m3 new_block next_block
          let m5 := set_next m4 current_block new_block
          let m6 := set_is_free m5 current_block false
          some ({ s with mem := m6 }, add32 current_block H)
        else malloc_loop H size fuel s next_block

/-- `malloc(size)`: the new state and the returned pointer. -/
def malloc (H fuel : Nat) (s : Heap) (size : Nat) : Option (Heap × Nat) :=
  malloc_loop H size fuel s s.head_frame

/-- What `mfree` sends to the outside: serial output and the abort call. -/
inductive Event where
  | serial_println_hex (value : Nat)
  | panic_call
deriving DecidableEq

/-- The outcome of a call of `mfree`: the heap it leaves, what it emitted,
and whether control came back to the caller. -/
structure MfreeResult where
  heap : Heap
  log : List Event
  returned : Bool

/-- Modelled from the spec: `panic()` is declared in `panic.h`, which is not
among the sources; the spec calls it "a zero-argument, non-returning call".
Execution of the caller stops there: the heap is left as it is and the
call is appended to the log. -/
def panic (s : Heap) (log : List Event) : MfreeResult :=
  { heap := s, log := log ++ [Event.panic_call], returned := false }

/-- `mfree(ptr)`. -/
def mfree (H : Nat) (s : Heap) (ptr : Nat) : MfreeResult :=
  let block := sub32 ptr H
  if (s.mem block).signature ≠ 0x4a6b ∨ (s.mem block).signature_end ≠ 0x79 then
    panic s [Event.serial_println_hex ptr, Event.serial_println_hex (s.mem block).signature]
  else if (s.mem block).is_free = true then { heap := s, log := [], returned := true }
  else
    let m1 := set_is_free s.mem block true
    if (m1 block).next = 0 then { heap := { s with mem := m1 }, log := [], returned := true }
    else if (m1 (m1 block).next).is_free = false then
      { heap := { s with mem := m1 }, log := [], returned := true }
    else
      { heap := { s with mem := set_next m1 block (m1 (m1 block).next).next }
        log := []
        returned := true }

/-- The `while` loop of `mconsolidate`, started at `current_block`. -/
def mconsolidate_loop : Nat → (Nat → nov_memory_frame) → Nat → Option (Nat → nov_memory_frame)
  | 0, _, _ => none
  | fuel + 1, mem, current_block =>
    if current_block = 0 then some mem
    else
      let next_block := (mem current_block).next
      if next_block = 0 then some mem
      else if (mem current_block).is_free = false then mconsolidate_loop fuel mem next_block
      else if (mem next_block).is_free = true then
        mconsolidate_loop fuel (set_next mem current_block (mem next_block).next) current_block
      else mconsolidate_loop fuel mem next_block

/-- `mconsolidate()`. -/
def mconsolidate (fuel : Nat) (s : Heap) : Option Heap :=
  (mconsolidate_loop fuel s.mem s.head_frame).map fun m => { s with mem := m }

/-! ## Frame chains -/

/-- The frames `l`, in this order, form a chain in `mem` that ends at a
sentinel: every frame is non-null, each frame's `next` is the following
element at least `H` bytes further on, and the last frame has `next == 0`,
`is_free == false` and lies within the 32-bit address space. -/
def IsChain (H : Nat) (mem : Nat → nov_memory_frame) : List Nat → Prop
  | [] => False
  | [x] => 0 < x ∧ x + H ≤ 2 ^ 32 ∧ (mem x).next = 0 ∧ (mem x).is_free = false
  | x :: y :: rest => 0 < x ∧ (mem x).next = y ∧ x + H ≤ y ∧ IsChain H mem (y :: rest)

instance IsChain.decide (H : Nat) (mem : Nat → nov_memory_frame) :
    (l : List Nat) → Decidable (IsChain H mem l)
  | [] => isFalse (fun h => h)
  | [_] => by unfold IsChain; infer_instance
  | x :: y :: rest =>
    have := IsChain.decide H mem (y :: rest)
    by unfold IsChain; infer_instance

/-- The heap `s` holds a well-formed frame chain whose frames are `l`:
the header size is positive, the chain starts at `head_frame`, and `l` is
a chain in the sense of `IsChain`. -/
def WellFormed (H : Nat) (s : Heap) (l : List Nat) : Prop :=
  0 < H ∧ l.head? = some s.head_frame ∧ IsChain H s.mem l

instance (H : Nat) (s : Heap) (l : List Nat) : Decidable (WellFormed H s l) := by
  unfold WellFormed; infer_instance

/-- The block size of the frame at `a`: the distance to its `next`. -/
def block_size (mem : Nat → nov_memory_frame) (a : Nat) : Nat :=
  sub32 (mem a).next a

/-- A frame carries both signature constants. -/
def valid_signatures (f : nov_memory_frame) : Prop :=
  f.signature = 0x4a6b ∧ f.signature_end = 0x79

instance (f : nov_memory_frame) : Decidable (valid_signatures f) := by
  unfold valid_signatures; infer_instance

/-- A block as the chain describes it: the address of its frame, its
`block_size` and its `is_free` flag. -/
structure Block where
  addr : Nat
  size : Nat
  is_free : Bool
deriving DecidableEq

/-- The blocks of the frames `l`, one per frame that has a successor in
`l`; the last frame (the sentinel) has none. -/
def blocks (mem : Nat → nov_memory_frame) : List Nat → List Block
  | [] => []
  | [_] => []
  | x :: y :: rest =>
    { addr := x, size := block_size mem x, is_free := (mem x).is_free } ::
      blocks mem (y :: rest)

/-- Reference definition of consolidation, following the spec: adjacent
free blocks are merged until none remain.  The blocks after `b` are
consolidated first; if `b` and the first block that results are both
free, `b` absorbs it.  By `merge_runs_free_cons` this replaces every
maximal run of free blocks by its first block, sized with the sum of the
run, and by `merge_runs_occupied_cons` it keeps occupied blocks as they
are. -/
def merge_runs : List Block → List Block
  | [] => []
  | b :: rest =>
    match merge_runs rest with
    | [] => [b]
    | c :: cs =>
      if b.is_free = true ∧ c.is_free = true then
        { addr := b.addr, size := b.size + c.size, is_free := true } :: cs
      else b :: c :: cs

/-- The all-zero memory, used to build concrete heaps. -/
def zero_mem : Nat → nov_memory_frame := fun _ =>
  { next := 0, is_free := false, signature := 0, signature_end := 0 }

/-- A heap on which `minit` has never run. -/
def fresh_heap : Heap :=
  { head_frame := 0, mem := zero_mem, memory_information := { head := 0, size := 0 } }

/-! ## Concrete heaps and auxiliary definitions -/

/-- The heap of the end-to-end scenario: `H = 9`, a region of 1024 bytes
at address 4096, after `minit`.  Its chain is `[4096, 5111]`. -/
def example_heap : Heap := minit 9 fresh_heap 4096 1024

/-- A heap whose only block has size `118 = 100 + 2 * 9`. -/
def exact_heap : Heap := minit 9 fresh_heap 4096 127

/-- A heap whose only block has size `119 = 100 + 2 * 9 + 1`. -/
def plus_one_heap : Heap := minit 9 fresh_heap 4096 128

/-- The scenario heap after `malloc(100)`: the chain is `[4096, 4205, 5111]`,
the head frame is occupied and the remainder at 4205 is free. -/
def allocated_heap : Heap :=
  match malloc 9 3 example_heap 100 with
  | some r => r.1
  | none => example_heap

/-- The heap reached from `allocated_heap` by two more `malloc(100)` and by
freeing the first two blocks in allocation order: the chain is
`[4096, 4205, 4314, 4423, 5111]` with 4096 and 4205 free next to each
other, 4314 occupied and 4423 free. -/
def fragmented_heap : Heap :=
  let s2 := match malloc 9 4 allocated_heap 100 with
    | some r => r.1
    | none => allocated_heap
  let s3 := match malloc 9 5 s2 100 with
    | some r => r.1
    | none => s2
  (mfree 9 (mfree 9 s3 4105).heap 4214).heap

/-- The heap reached from `allocated_heap` by `malloc(50)` and
`mfree(4105)`: the chain is `[4096, 4205, 4264, 5111]`, with 4096 free
(block size `109 = 91 + 2 * 9`), 4205 occupied and 4264 free (847 bytes). -/
def skip_heap : Heap :=
  let s2 := match malloc 9 4 allocated_heap 50 with
    | some r => r.1
    | none => allocated_heap
  (mfree 9 s2 4105).heap

/-- The scenario heap after `malloc(100)` with the signature of the
allocated block's header overwritten. -/
def corrupted_heap : Heap :=
  { allocated_heap with mem := set_signature allocated_heap.mem 4096 0 }

/-- The frame at `a` is free and its block is larger than `n + 2H`
(compared as natural numbers). -/
def fits (H n : Nat) (mem : Nat → nov_memory_frame) (a : Nat) : Prop :=
  (mem a).is_free = true ∧ n + 2 * H < block_size mem a

instance (H n : Nat) (mem : Nat → nov_memory_frame) (a : Nat) : Decidable (fits H n mem a) := by
  unfold fits; infer_instance

/-- The memory `malloc` leaves when it splits the frame `cur`, whose
successor is `nxt`, placing the new frame at `nb`. -/
def split_mem (mem : Nat → nov_memory_frame) (cur nb nxt : Nat) : Nat → nov_memory_frame :=
  set_is_free (set_next (set_next (set_signature_end (set_signature
    (set_is_free mem nb true) nb 0x4a6b) nb 0x79) nb nxt) cur nb) cur false

/-! ## `mview` -/

/-- A call of one of the serial output functions used by `mview`, with
the value it is given (the port argument is always `COM1`). -/
inductive SerialCall where
  | serial_println (text : String)
  | serial_print (text : String)
  | serial_print_dec (value : Nat)
  | serial_println_dec (value : Nat)
  | serial_println_hex (value : Nat)
deriving DecidableEq

/-- The `while` loop of `mview`, started at `current_block`, together with
the output that follows the loop: the serial calls made, in order. -/
def mview_loop (H : Nat) : Nat → Heap → Nat → Option (List SerialCall)
  | 0, _, _ => none
  | fuel + 1, s, current_block =>
    if current_block = 0 then some [SerialCall.serial_println "=== MMAP END ==="]
    else
      let next_block := (s.mem current_block).next
      if next_block = 0 then
        some [SerialCall.serial_print "end block found at ",
          SerialCall.serial_println_hex current_block,
          SerialCall.serial_println "=== MMAP END ==="]
      else
        let block_size := sub32 next_block current_block
        (mview_loop H fuel s next_block).map fun out =>
          [SerialCall.serial_print "block at     ",
            SerialCall.serial_println_hex current_block,
            SerialCall.serial_print "   size w/h  ",
            SerialCall.serial_print_dec block_size,
            SerialCall.serial_print "/",
            SerialCall.serial_println_hex block_size,
            SerialCall.serial_print "   size wo/h ",
            SerialCall.serial_print_dec (sub32 block_size H),
            SerialCall.serial_print "/",
            SerialCall.serial_println_hex (sub32 block_size H),
            SerialCall.serial_print "   next      ",
            SerialCall.serial_println_hex (s.mem current_block).next,
            SerialCall.serial_print "   is free?  ",
            SerialCall.serial_println_dec (if (s.mem current_block).is_free = true then 1 else 0)]
          ++ out

/-- `mview()`: the heap it leaves and the serial calls it makes. -/
def mview (H fuel : Nat) (s : Heap) : Option (Heap × List SerialCall) :=
  (mview_loop H fuel s s.head_frame).map fun out =>
    (s, SerialCall.serial_println "=== MMAP START ===" :: out)

/-- The block record of the inspector for the block `b`: its address, its
size with the header, its size without the header, the address of the
following frame and its flag, each after the label `mview` prints. -/
def block_record (H : Nat) (b : Block) : List SerialCall :=
  [SerialCall.serial_print "block at     ",
    SerialCall.serial_println_hex b.addr,
    SerialCall.serial_print "   size w/h  ",
    SerialCall.serial_print_dec b.size,
    SerialCall.serial_print "/",
    SerialCall.serial_println_hex b.size,
    SerialCall.serial_print "   size wo/h ",
    SerialCall.serial_print_dec (b.size - H),
    SerialCall.serial_print "/",
    SerialCall.serial_println_hex (b.size - H),
    SerialCall.serial_print "   next      ",
    SerialCall.serial_println_hex (b.addr + b.size),
    SerialCall.serial_print "   is free?  ",
    SerialCall.serial_println_dec (if b.is_free = true then 1 else 0)]

/-- The end record of the inspector: the address of the sentinel, then the
closing line. -/
def end_record (sentinel : Nat) : List SerialCall :=
  [SerialCall.serial_print "end block found at ",
    SerialCall.serial_println_hex sentinel,
    SerialCall.serial_println "=== MMAP END ==="]

/-! ## Sequences of calls -/

/-- A heap together with the outstanding allocations: the pointers
`malloc` has returned and `mfree` has not been called on since, each with
the size that was requested. -/
structure Tracked where
  heap : Heap
  live : List (Nat × Nat)

/-- A call of the allocator after `minit`. -/
inductive Op where
  | malloc (size : Nat)
  | mfree (ptr : Nat)
  | mconsolidate
deriving DecidableEq

/-- How a call, or a sequence of calls, ends: in a new state (`ok`); or
the call is not among those considered (`rejected`: a `malloc` whose
`size + 2H` does not fit in 32 bits, an `mfree` of a pointer that is not
outstanding); or the call does not come back (`stuck`: the fuel ran out,
or `mfree` ended in `panic()`). -/
inductive Outcome where
  | ok (t : Tracked)
  | rejected
  | stuck

/-- One call on a tracked heap.  A non-null result of `malloc` is recorded
as outstanding, the pointer passed to `mfree` is struck off. -/
def step (H fuel : Nat) (t : Tracked) : Op → Outcome
  | Op.malloc n =>
    if n + 2 * H < 2 ^ 32 then
      match malloc H fuel t.heap n with
      | some r =>
        Outcome.ok { heap := r.1, live := if r.2 = 0 then t.live else (r.2, n) :: t.live }
      | none => Outcome.stuck
    else Outcome.rejected
  | Op.mfree p =>
    if p ∈ t.live.map Prod.fst then
      if (mfree H t.heap p).returned = true then
        Outcome.ok { heap := (mfree H t.heap p).heap, live := t.live.filter fun q => q.1 ≠ p }
      else Outcome.stuck
    else Outcome.rejected
  | Op.mconsolidate =>
    match mconsolidate fuel t.heap with
    | some s => Outcome.ok { heap := s, live := t.live }
    | none => Outcome.stuck

/-- A sequence of calls, one after the other. -/
def run (H fuel : Nat) : Tracked → List Op → Outcome
  | t, [] => Outcome.ok t
  | t, op :: ops =>
    match step H fuel t op with
    | Outcome.ok t' => run H fuel t' ops
    | Outcome.rejected => Outcome.rejected
    | Outcome.stuck => Outcome.stuck

/-- The invariant of the sequences of calls on the region of `S` bytes at
`a`: the heap holds a well-formed chain from `a` to the sentinel at
`a + S - H`, whose record is `r0`; every frame of the chain that has a
successor carries both signatures; and every outstanding pointer `p` of
size `n` is `f + H` for an occupied frame `f` of the chain whose `next` is
`p + n`. -/
def Inv (H a S : Nat) (r0 : nov_memory_frame) (t : Tracked) : Prop :=
  ∃ l, WellFormed H t.heap l ∧ t.heap.head_frame = a ∧ l.getLast? = some (a + S - H) ∧
    t.heap.mem (a + S - H) = r0 ∧
    (∀ f ∈ l, (t.heap.mem f).next ≠ 0 → valid_signatures (t.heap.mem f)) ∧
    (∀ q ∈ t.live, ∃ f ∈ l, q.1 = f + H ∧ (t.heap.mem f).is_free = false ∧
      (t.heap.mem f).next = q.1 + q.2)

/-- The freed pointers on which a further `mfree` is known to be
harmless, after one more call.  `mfree(p)` adds `p`.  A `malloc(n)` that
returns a non-null `r` has written and handed out the bytes from the
header of the split frame, at `r - H`, to the end of the header of the new
remainder frame, at `r + n + H`: a freed pointer `q` whose header
`[q - H, q)` meets that range is struck off, `r` itself included, unless
that header is exactly the new remainder frame at `r + n`, which `malloc`
has just written signed and free.  `mconsolidate()` writes no byte of a
header that is not a free frame of the chain, and strikes off nothing. -/
def step_freed (H fuel : Nat) (t : Tracked) (freed : List Nat) : Op → List Nat
  | Op.malloc n =>
    match malloc H fuel t.heap n with
    | some r =>
      if r.2 = 0 then freed
      else freed.filter fun q => r.2 + n + 2 * H ≤ q ∨ q + H ≤ r.2 ∨ q = r.2 + n + H
    | none => freed
  | Op.mfree p => p :: freed
  | Op.mconsolidate => freed

/-- A sequence of calls as in `run`, keeping track of the freed pointers
of `step_freed` as well. -/
def run_freed (H fuel : Nat) : Tracked → List Nat → List Op → Outcome × List Nat
  | t, freed, [] => (Outcome.ok t, freed)
  | t, freed, op :: ops =>
    match step H fuel t op with
    | Outcome.ok t' => run_freed H fuel t' (step_freed H fuel t freed op) ops
    | Outcome.rejected => (Outcome.rejected, freed)
    | Outcome.stuck => (Outcome.stuck, freed)

/-- Where the header of a tracked freed pointer `q = x + H` lies: `x` is a
free frame of the chain `l`, or it lies in the payload of a free frame `y`
of the chain, a header's length before the next frame; and the record at
`x` holds both signatures and `is_free == true`. -/
def FreedOk (H : Nat) (s : Heap) (l : List Nat) (freed : List Nat) : Prop :=
  ∀ q ∈ freed, ∃ x y, q = x + H ∧ y ∈ l ∧ (s.mem y).is_free = true ∧
    (x = y ∨ (y + H ≤ x ∧ x + H ≤ (s.mem y).next)) ∧
    valid_signatures (s.mem x) ∧ (s.mem x).is_free = true

/-- The calls of the scenario in which a freed header is absorbed and not
written again: `p1 = malloc(100)` (4105), `p2 = malloc(100)` (4214),
`mfree(p2)`, `mfree(p1)`, which absorbs the header of `p2` at 4205, and
`malloc(50)`, which returns 4105 again and writes the bytes from 4096 up
to 4164. -/
def absorbed_ops : List Op :=
  [Op.malloc 100, Op.malloc 100, Op.mfree 4214, Op.mfree 4105, Op.malloc 50]

/-- The heap after the calls of `absorbed_ops` on the scenario region: the
chain is `[4096, 4155, 5111]`, and 4205 lies in the free block at 4155. -/
def absorbed_heap : Heap :=
  match run 9 1025 { heap := minit 9 fresh_heap 4096 1024, live := [] } absorbed_ops with
  | Outcome.ok t => t.heap
  | _ => fresh_heap

/-! ## The header-only variant (`include/memory.h`)

The allocator of `include/memory.h`: frames without signatures, and a
split test with one header of margin.  `H` is `sizeof` of its frame (a
pointer and a `bool` under `#pragma pack (1)`, that is 5 on the 32-bit
target; the concrete heap below takes `H = 5`). -/

namespace header_only

/-- The frame of `include/memory.h`: `next` and `is_free`. -/
structure nov_memory_frame where
  next : Nat
  is_free : Bool
deriving DecidableEq

/-- The static `head_frame` and the memory holding the frames. -/
structure Heap where
  head_frame : Nat
  mem : Nat → nov_memory_frame

/-- The write `p->next = v`. -/
def set_next (mem : Nat → nov_memory_frame) (p v : Nat) : Nat → nov_memory_frame :=
  Function.update mem p { mem p with next := v }

/-- The write `p->is_free = v`. -/
def set_is_free (mem : Nat → nov_memory_frame) (p : Nat) (v : Bool) :
    Nat → nov_memory_frame :=
  Function.update mem p { mem p with is_free := v }

/-- `init_memory_manager(block_start, size)`. -/
def init_memory_manager (H : Nat) (s : Heap) (block_start size : Nat) : Heap :=
  if size < H ∨ block_start = 0 then s
  else
    let head_frame := block_start
    let m1 := set_is_free s.mem head_frame true
    let m2 := set_next m1 head_frame (sub32 (add32 block_start size) H)
    let m3 := set_next m2 (m2 head_frame).next 0
    let m4 := set_is_free m3 (m3 head_frame).next false
    { head_frame := head_frame, mem := m4 }

/-- The `while` loop of the header-only `malloc`. -/
def malloc_loop (H size : Nat) : Nat → Heap → Nat → Option (Heap × Nat)
  | 0, _, _ => none
  | fuel + 1, s, current_block =>
    if current_block = 0 then some (s, 0)
    else if (s.mem current_block).is_free = false then
      malloc_loop H size fuel s (s.mem current_block).next
    else
      let next_block := (s.mem current_block).next
      if next_block = 0 then some (s, 0)
      else
        let block_size := sub32 next_block current_block
        if block_size > add32 size H then
          let new_block := add32 (add32 current_block H) size
          let m1 := set_is_free s.mem new_block true
          let m2 := set_next m1 new_block next_block
          let m3 := set_next m2 current_block new_block
          let m4 := set_is_free m3 current_block false
          some ({ s with mem := m4 }, add32 current_block H)
        else malloc_loop H size fuel s next_block

/-- The header-only `malloc(size)`. -/
def malloc (H fuel : Nat) (s : Heap) (size : Nat) : Option (Heap × Nat) :=
  malloc_loop H size fuel s s.head_frame

/-- A chain of header-only frames ending at a sentinel, as `IsChain`. -/
def IsChain (H : Nat) (mem : Nat → nov_memory_frame) : List Nat → Prop
  | [] => False
  | [x] => 0 < x ∧ x + H ≤ 2 ^ 32 ∧ (mem x).next = 0 ∧ (mem x).is_free = false
  | x :: y :: rest => 0 < x ∧ (mem x).next = y ∧ x + H ≤ y ∧ IsChain H mem (y :: rest)

instance IsChain.decide (H : Nat) (mem : Nat → nov_memory_frame) :
    (l : List Nat) → Decidable (IsChain H mem l)
  | [] => isFalse (fun h => h)
  | [_] => by unfold IsChain; infer_instance
  | x :: y :: rest =>
    have := IsChain.decide H mem (y :: rest)
    by unfold IsChain; infer_instance

/-- A header-only heap with a well-formed chain `l`. -/
def WellFormed (H : Nat) (s : Heap) (l : List Nat) : Prop :=
  0 < H ∧ l.head? = some s.head_frame ∧ IsChain H s.mem l

instance (H : Nat) (s : Heap) (l : List Nat) : Decidable (WellFormed H s l) := by
  unfold WellFormed; infer_instance

/-- The header-only heap after `init_memory_manager(4096, 1024)` on zeroed
memory, with `H = 5`: the chain is `[4096, 5115]`. -/
def example_heap : Heap :=
  init_memory_manager 5 { head_frame := 0, mem := fun _ => { next := 0, is_free := false } }
    4096 1024

end header_only

/-! ## A byte-level model of `memory.cpp`

The model above keeps one record per frame address.  Where two headers
lie less than `H` bytes apart they share bytes, and what one write does to
the other header depends on the layout of the frame.  The model of this
section keeps the memory as bytes. -/

namespace bytes

/-- Modelled from the spec: the declaration of the frame of `memory.cpp`
is not among the sources; the spec gives the packed layout "4-byte next +
1-byte flag + 2×2-byte signatures", of 9 bytes.  The fields are taken in
this order: `next` at offset 0, `is_free` at offset 4, `signature` at
offset 5, `signature_end` at offset 7, little-endian as on the x86 target
of the kernel. -/
def H : Nat := 9

/-- The static `head_frame` and the memory, byte by byte. -/
structure Heap where
  head_frame : Nat
  mem : Nat → Nat

/-- One byte read. -/
def read8 (m : Nat → Nat) (a : Nat) : Nat := m a % 256

/-- One byte written. -/
def write8 (m : Nat → Nat) (a v : Nat) : Nat → Nat := Function.update m a (v % 256)

/-- A 16-bit little-endian read. -/
def read16 (m : Nat → Nat) (a : Nat) : Nat := read8 m a + 256 * read8 m (a + 1)

/-- A 16-bit little-endian write. -/
def write16 (m : Nat → Nat) (a v : Nat) : Nat → Nat :=
  write8 (write8 m a v) (a + 1) (v / 256)

/-- A 32-bit little-endian read. -/
def read32 (m : Nat → Nat) (a : Nat) : Nat := read16 m a + 65536 * read16 m (a + 2)

/-- A 32-bit little-endian write. -/
def write32 (m : Nat → Nat) (a v : Nat) : Nat → Nat :=
  write16 (write16 m a v) (a + 2) (v / 65536)

/-- The read `p->next`. -/
def get_next (m : Nat → Nat) (p : Nat) : Nat := read32 m p

/-- The write `p->next = v`. -/
def set_next (m : Nat → Nat) (p v : Nat) : Nat → Nat := write32 m p v

/-- The read `p->is_free`. -/
def get_is_free (m : Nat → Nat) (p : Nat) : Bool := decide (read8 m (p + 4) ≠ 0)

/-- The write `p->is_free = v`. -/
def set_is_free (m : Nat → Nat) (p : Nat) (v : Bool) : Nat → Nat :=
  write8 m (p + 4) (if v = true then 1 else 0)

/-- The read `p->signature`. -/
def get_signature (m : Nat → Nat) (p : Nat) : Nat := read16 m (p + 5)

/-- The write `p->signature = v`. -/
def set_signature (m : Nat → Nat) (p v : Nat) : Nat → Nat := write16 m (p + 5) v

/-- The read `p->signature_end`. -/
def get_signature_end (m : Nat → Nat) (p : Nat) : Nat := read16 m (p + 7)

/-- The write `p->signature_end = v`. -/
def set_signature_end (m : Nat → Nat) (p v : Nat) : Nat → Nat := write16 m (p + 7) v

/-- `minit(block_start, size)`, without the `memory_information` record. -/
def minit (s : Heap) (block_start size : Nat) : Heap :=
  if size < H ∨ block_start = 0 then s
  else
    let head_frame := block_start
    let m1 := set_is_free s.mem head_frame true
    let m2 := set_signature m1 head_frame 0x4a6b
    let m3 := set_signature_end m2 head_frame 0x79
    let m4 := set_next m3 head_frame (sub32 (add32 block_start size) H)
    let m5 := set_next m4 (get_next m4 head_frame) 0
    let m6 := set_is_free m5 (get_next m5 head_frame) false
    { head_frame := head_frame, mem := m6 }

/-- The `while` loop of `malloc`. -/
def malloc_loop (size : Nat) : Nat → Heap → Nat → Option (Heap × Nat)
  | 0, _, _ => none
  | fuel + 1, s, current_block =>
    if current_block = 0 then some (s, 0)
    else if get_is_free s.mem current_block = false then
      malloc_loop size fuel s (get_next s.mem current_block)
    else
      let next_block := get_next s.mem current_block
      if next_block = 0 then some (s, 0)
      else
        let block_size := sub32 next_block current_block
        if block_size > add32 (add32 size H) H then
          let new_block := add32 (add32 current_block H) size
          let m1 := set_is_free s.mem new_block true
          let m2 := set_signature m1 new_block 0x4a6b
          let m3 := set_signature_end m2 new_block 0x79
          let m4 := set_next m3 new_block next_block
          let m5 := set_next m4 current_block new_block
          let m6 := set_is_free m5 current_block false
          some ({ s with mem := m6 }, add32 current_block H)
        else malloc_loop size fuel s next_block

/-- `malloc(size)`. -/
def malloc (fuel : Nat) (s : Heap) (size : Nat) : Option (Heap × Nat) :=
  malloc_loop size fuel s s.head_frame

/-- The outcome of `mfree`: the heap it leaves and whether it ended in
`panic()`. -/
structure MfreeResult where
  heap : Heap
  panicked : Bool

/-- `mfree(ptr)`.  The two diagnostic lines before `panic()` are left out;
`panic()` ends the call, as in the model above. -/
def mfree (s : Heap) (ptr : Nat) : MfreeResult :=
  let block := sub32 ptr H
  if get_signature s.mem block ≠ 0x4a6b ∨ get_signature_end s.mem block ≠ 0x79 then
    { heap := s, panicked := true }
  else if get_is_free s.mem block = true then { heap := s, panicked := false }
  else
    let m1 := set_is_free s.mem block true
    if get_next m1 block = 0 then { heap := { s with mem := m1 }, panicked := false }
    else if get_is_free m1 (get_next m1 block) = false then
      { heap := { s with mem := m1 }, panicked := false }
    else
      { heap := { s with mem := set_next m1 block (get_next m1 (get_next m1 block)) }
        panicked := false }

/-- The heap a `malloc` leaves, or the heap itself when it is out of
fuel. -/
def heap_after_malloc (fuel : Nat) (s : Heap) (size : Nat) : Heap :=
  match malloc fuel s size with
  | some r => r.1
  | none => s

/-- The region of 1024 zero bytes at 4096 after `minit`. -/
def heap0 : Heap := minit { head_frame := 0, mem := fun _ => 0 } 4096 1024

/-- After `p1 = malloc(100)` (4105) and `p2 = malloc(100)` (4214). -/
def heap2 : Heap := heap_after_malloc 4 (heap_after_malloc 3 heap0 100) 100

/-- After `mfree(p2)` and `mfree(p1)`: one free block again; the header of
the block of `p2`, at 4205, is no longer in the chain. -/
def heap4 : Heap := (mfree (mfree heap2 4214).heap 4105).heap

/-- After a further `malloc(101)`, which returns 4105 and places the
remainder frame at 4206. -/
def heap5 : Heap := heap_after_malloc 3 heap4 101

/-- After a further `malloc(50)` on `heap4` instead, which returns 4105 and
places the remainder frame at 4155: the bytes of the absorbed header at
4205 are not written. -/
def heap6 : Heap := heap_after_malloc 3 heap4 50

/-- After a further `malloc(100)` on `heap4` instead, which returns 4105
and places the remainder frame at 4205, exactly over the absorbed
header. -/
def heap7 : Heap := heap_after_malloc 3 heap4 100

end bytes

/-! ## Memory writes and chains: basic facts -/

@[simp] theorem set_next_apply (mem : Nat → nov_memory_frame) (p v q : Nat) :
    set_next mem p v q = if q = p then { mem p with next := v } else mem q := by
  unfold set_next Function.update
  by_cases h : q = p
  · subst h; simp
  · simp [h]

@[simp] theorem set_is_free_apply (mem : Nat → nov_memory_frame) (p : Nat) (v : Bool) (q : Nat) :
    set_is_free mem p v q = if q = p then { mem p with is_free := v } else mem q := by
  unfold set_is_free Function.update
  by_cases h : q = p
  · subst h; simp
  · simp [h]

@[simp] theorem set_signature_apply (mem : Nat → nov_memory_frame) (p v q : Nat) :
    set_signature mem p v q = if q = p then { mem p with signature := v } else mem q := by
  unfold set_signature Function.update
  by_cases h : q = p
  · subst h; simp
  · simp [h]

@[simp] theorem set_signature_end_apply (mem : Nat → nov_memory_frame) (p v q : Nat) :
    set_signature_end mem p v q = if q = p then { mem p with signature_end := v } else mem q := by
  unfold set_signature_end Function.update
  by_cases h : q = p
  · subst h; simp
  · simp [h]

theorem add32_of_lt {a b : Nat} (h : a + b < 2 ^ 32) : add32 a b = a + b := by
  unfold add32; exact Nat.mod_eq_of_lt h

theorem sub32_of_le {a b : Nat} (hab : b ≤ a) (ha : a < 2 ^ 32) : sub32 a b = a - b := by
  unfold sub32
  have hb : b < 2 ^ 32 := lt_of_le_of_lt hab ha
  rw [Nat.mod_eq_of_lt ha, Nat.mod_eq_of_lt hb]
  have : a + 2 ^ 32 - b = (a - b) + 2 ^ 32 := by omega
  rw [this, Nat.add_mod_right]
  exact Nat.mod_eq_of_lt (by omega)

theorem IsChain.ne_nil {H : Nat} {mem : Nat → nov_memory_frame} {l : List Nat}
    (h : IsChain H mem l) : l ≠ [] := by
  intro hl; subst hl; exact h

theorem IsChain.tail {H : Nat} {mem : Nat → nov_memory_frame} {x y : Nat} {rest : List Nat}
    (h : IsChain H mem (x :: y :: rest)) : IsChain H mem (y :: rest) := h.2.2.2

/-- Every frame of a chain is non-null and its header ends inside the
address space. -/
theorem IsChain.bounds {H : Nat} {mem : Nat → nov_memory_frame} :
    ∀ {l : List Nat}, IsChain H mem l → ∀ z ∈ l, 0 < z ∧ z + H ≤ 2 ^ 32
  | [], h, _, _ => absurd h (by simp [IsChain])
  | [x], h, z, hz => by
    simp only [List.mem_singleton] at hz
    subst hz
    exact ⟨h.1, h.2.1⟩
  | x :: y :: rest, h, z, hz => by
    have ih := IsChain.bounds h.tail
    rcases List.mem_cons.mp hz with hzx | hz'
    · subst hzx
      have hy := ih y (List.mem_cons_self _ _)
      have := h.2.2.1
      exact ⟨h.1, by omega⟩
    · exact ih z hz'

/-- The first frame of a chain has the least address. -/
theorem IsChain.head_le {H : Nat} {mem : Nat → nov_memory_frame} :
    ∀ {l : List Nat} {x : Nat}, IsChain H mem (x :: l) → ∀ z ∈ x :: l, x ≤ z
  | [], x, _, z, hz => by
    simp only [List.mem_singleton] at hz
    omega
  | y :: rest, x, h, z, hz => by
    have ih := IsChain.head_le h.tail
    rcases List.mem_cons.mp hz with hzx | hz'
    · omega
    · have := ih z hz'
      have := h.2.2.1
      omega

/-- Frames after the first lie at least `H` bytes beyond it. -/
theorem IsChain.lt_tail {H : Nat} {mem : Nat → nov_memory_frame} {x : Nat} {l : List Nat}
    (h : IsChain H mem (x :: l)) : ∀ z ∈ l, x + H ≤ z := by
  cases l with
  | nil => intro z hz; simp at hz
  | cons y rest =>
    intro z hz
    have := IsChain.head_le h.tail z hz
    have := h.2.2.1
    omega

/-- A chain only depends on the records of its own frames. -/
theorem IsChain.congr {H : Nat} {mem mem' : Nat → nov_memory_frame} :
    ∀ {l : List Nat}, (∀ z ∈ l, mem' z = mem z) → IsChain H mem l → IsChain H mem' l
  | [], _, h => h
  | [x], hm, h => by
    have hx := hm x (List.mem_singleton.mpr rfl)
    unfold IsChain at h ⊢
    rw [hx]; exact h
  | x :: y :: rest, hm, h => by
    have hx := hm x (List.mem_cons_self _ _)
    have ih := IsChain.congr (fun z hz => hm z (List.mem_cons_of_mem _ hz)) h.tail
    unfold IsChain
    rw [hx]
    exact ⟨h.1, h.2.1, h.2.2.1, ih⟩

/-! ## `malloc` -/

theorem split_mem_cur {mem : Nat → nov_memory_frame} {cur nb nxt : Nat} (h : cur ≠ nb) :
    split_mem mem cur nb nxt cur = { mem cur with next := nb, is_free := false } := by
  simp [split_mem, h]

theorem split_mem_new {mem : Nat → nov_memory_frame} {cur nb nxt : Nat} (h : cur ≠ nb) :
    split_mem mem cur nb nxt nb =
      { next := nxt, is_free := true, signature := 0x4a6b, signature_end := 0x79 } := by
  simp [split_mem, Ne.symm h]

theorem split_mem_other {mem : Nat → nov_memory_frame} {cur nb nxt a : Nat}
    (h1 : a ≠ cur) (h2 : a ≠ nb) : split_mem mem cur nb nxt a = mem a := by
  simp [split_mem, h1, h2]

theorem block_size_chain {H : Nat} {mem : Nat → nov_memory_frame} {x y : Nat} {rest : List Nat}
    (hH : 0 < H) (h : IsChain H mem (x :: y :: rest)) : block_size mem x = y - x := by
  have hy := h.bounds y (by simp)
  have := h.2.2.1
  unfold block_size
  rw [h.2.1]
  exact sub32_of_le (by omega) (by omega)

/-- What the scan of `malloc` does on a chain: either no frame fits and the
result is null with the heap untouched, or the first fitting frame is split. -/
theorem malloc_loop_spec {H n : Nat} {s : Heap} (hH : 0 < H) (hn : n + 2 * H < 2 ^ 32) :
    ∀ {l : List Nat} {x fuel : Nat}, IsChain H s.mem (x :: l) → (x :: l).length < fuel →
      (malloc_loop H n fuel s x = some (s, 0) ∧ ∀ a ∈ x :: l, ¬ fits H n s.mem a) ∨
      (∃ pre f g post, x :: l = pre ++ f :: g :: post ∧ (∀ a ∈ pre, ¬ fits H n s.mem a) ∧
        fits H n s.mem f ∧
        malloc_loop H n fuel s x =
          some ({ s with mem := split_mem s.mem f (f + H + n) g }, f + H) ∧
        IsChain H (split_mem s.mem f (f + H + n) g) (pre ++ f :: (f + H + n) :: g :: post))
  | [], x, fuel, hc, hf => by
    left
    obtain ⟨hx0, -, hnext, hfree⟩ := hc
    obtain ⟨k, rfl⟩ : ∃ k, fuel = k + 2 := ⟨fuel - 2, by simp at hf; omega⟩
    refine ⟨?_, ?_⟩
    · simp [malloc_loop, hfree, hnext, Nat.pos_iff_ne_zero.mp hx0]
    · intro a ha
      simp only [List.mem_singleton] at ha
      subst ha
      simp [fits, hfree]
  | y :: rest, x, fuel, hc, hf => by
    obtain ⟨k, rfl⟩ : ∃ k, fuel = k + 1 := ⟨fuel - 1, by simp at hf; omega⟩
    have hx0 : x ≠ 0 := Nat.pos_iff_ne_zero.mp hc.1
    have hnext : (s.mem x).next = y := hc.2.1
    have hxy : x + H ≤ y := hc.2.2.1
    have hyb := hc.bounds y (by simp)
    have hy0 : y ≠ 0 := Nat.pos_iff_ne_zero.mp hyb.1
    have hbs : block_size s.mem x = y - x := block_size_chain hH hc
    have hs : sub32 y x = y - x := by rw [← hbs, block_size, hnext]
    have hthr : add32 (add32 n H) H = n + 2 * H := by
      rw [add32_of_lt (by omega : n + H < 2 ^ 32), add32_of_lt (by omega)]; omega
    by_cases hfit : fits H n s.mem x
    · -- the first frame fits: it is split
      right
      have hfree : (s.mem x).is_free = true := hfit.1
      have hbig : n + 2 * H < y - x := by rw [← hbs]; exact hfit.2
      refine ⟨[], x, y, rest, rfl, by simp, hfit, ?_, ?_⟩
      · have h1 : add32 x H = x + H := add32_of_lt (by omega)
        have h2 : add32 (x + H) n = x + H + n := add32_of_lt (by omega)
        simp [malloc_loop, hx0, hfree, hnext, hy0, hs, hthr, hbig, h1, h2, split_mem]
      · have hne : x ≠ x + H + n := by omega
        show IsChain H _ (x :: (x + H + n) :: y :: rest)
        refine ⟨hc.1, by rw [split_mem_cur hne], by omega, ?_⟩
        have htail : IsChain H (split_mem s.mem x (x + H + n) y) (y :: rest) := by
          refine IsChain.congr (fun z hz => ?_) hc.tail
          have := IsChain.head_le hc.tail z hz
          exact split_mem_other (by omega) (by omega)
        exact ⟨by omega, by rw [split_mem_new hne], by omega, htail⟩
    · -- the first frame does not fit: the scan goes on at `y`
      have heq : malloc_loop H n (k + 1) s x = malloc_loop H n k s y := by
        by_cases hfree : (s.mem x).is_free = false
        · simp [malloc_loop, hx0, hfree, hnext]
        · have hfree' : (s.mem x).is_free = true := by simpa using hfree
          have hsmall : ¬ n + 2 * H < y - x := by
            intro hb; exact hfit ⟨hfree', by rw [hbs]; exact hb⟩
          simp [malloc_loop, hx0, hfree', hnext, hy0, hs, hthr, hsmall]
      rw [heq]
      have hlen : (y :: rest).length < k := by simp at hf ⊢; omega
      rcases malloc_loop_spec hH hn hc.tail hlen with
        ⟨hres, hno⟩ | ⟨pre, f, g, post, hl, hpre, hfit', hres, hch⟩
      · refine Or.inl ⟨hres, ?_⟩
        intro a ha
        rcases List.mem_cons.mp ha with rfl | ha'
        · exact hfit
        · exact hno a ha'
      · refine Or.inr ⟨x :: pre, f, g, post, by rw [hl]; rfl, ?_, hfit', hres, ?_⟩
        · intro a ha
          rcases List.mem_cons.mp ha with rfl | ha'
          · exact hfit
          · exact hpre a ha'
        · have hfmem : f ∈ y :: rest := by rw [hl]; simp
          have hyf : y ≤ f := IsChain.head_le hc.tail f hfmem
          have hxm : split_mem s.mem f (f + H + n) g x = s.mem x :=
            split_mem_other (by omega) (by omega)
          obtain ⟨tl, htl⟩ : ∃ tl, pre ++ f :: (f + H + n) :: g :: post = y :: tl := by
            cases pre with
            | nil =>
              simp only [List.nil_append, List.cons.injEq] at hl
              exact ⟨(f + H + n) :: g :: post, by rw [hl.1]; rfl⟩
            | cons p ps =>
              simp only [List.cons_append, List.cons.injEq] at hl
              exact ⟨ps ++ f :: (f + H + n) :: g :: post, by rw [hl.1]; rfl⟩
          show IsChain H _ (x :: (pre ++ f :: (f + H + n) :: g :: post))
          rw [htl] at hch ⊢
          exact ⟨hc.1, by rw [hxm]; exact hnext, hxy, hch⟩


/-- Around two consecutive frames `f`, `g` of a chain: `f` points to `g`,
everything before `f` lies below it and everything after `g` above it. -/
theorem IsChain.split_bounds {H : Nat} {mem : Nat → nov_memory_frame} {f g : Nat}
    {post : List Nat} :
    ∀ {pre : List Nat}, IsChain H mem (pre ++ f :: g :: post) →
      (mem f).next = g ∧ f + H ≤ g ∧ (∀ z ∈ pre, z + H ≤ f) ∧ (∀ z ∈ post, g + H ≤ z) ∧
        IsChain H mem (f :: g :: post)
  | [], h => ⟨h.2.1, h.2.2.1, by simp, IsChain.lt_tail h.tail, h⟩
  | [p], h => by
    have ht : IsChain H mem ([] ++ f :: g :: post) := h.tail
    have ih := IsChain.split_bounds ht
    refine ⟨ih.1, ih.2.1, ?_, ih.2.2.2.1, ih.2.2.2.2⟩
    intro z hz
    simp only [List.mem_singleton] at hz
    subst hz
    exact h.2.2.1
  | p :: q :: ps, h => by
    have h' : IsChain H mem (p :: q :: (ps ++ f :: g :: post)) := h
    have ht : IsChain H mem ((q :: ps) ++ f :: g :: post) := h'.tail
    have ih := IsChain.split_bounds ht
    refine ⟨ih.1, ih.2.1, ?_, ih.2.2.2.1, ih.2.2.2.2⟩
    intro z hz
    rcases List.mem_cons.mp hz with rfl | hz'
    · have := ih.2.2.1 q (List.mem_cons_self _ _)
      have := h'.2.2.1
      omega
    · exact ih.2.2.1 z hz'

theorem WellFormed.eq_cons {H : Nat} {s : Heap} {l : List Nat} (h : WellFormed H s l) :
    ∃ t, l = s.head_frame :: t := by
  obtain ⟨-, hhead, -⟩ := h
  cases l with
  | nil => simp at hhead
  | cons x t =>
    simp only [List.head?_cons, Option.some.injEq] at hhead
    exact ⟨t, by rw [hhead]⟩

/-- The scan lemma for `malloc` itself, on a well-formed heap. -/
theorem malloc_spec {H n fuel : Nat} {s : Heap} {l : List Nat} (hwf : WellFormed H s l)
    (hn : n + 2 * H < 2 ^ 32) (hfuel : l.length < fuel) :
    (malloc H fuel s n = some (s, 0) ∧ ∀ a ∈ l, ¬ fits H n s.mem a) ∨
    (∃ pre f g post, l = pre ++ f :: g :: post ∧ (∀ a ∈ pre, ¬ fits H n s.mem a) ∧
      fits H n s.mem f ∧
      malloc H fuel s n = some ({ s with mem := split_mem s.mem f (f + H + n) g }, f + H) ∧
      WellFormed H { s with mem := split_mem s.mem f (f + H + n) g }
        (pre ++ f :: (f + H + n) :: g :: post)) := by
  obtain ⟨t, rfl⟩ := hwf.eq_cons
  rcases malloc_loop_spec hwf.1 hn hwf.2.2 hfuel with h | ⟨pre, f, g, post, hl, hpre, hfit, hres, hch⟩
  · exact Or.inl h
  · refine Or.inr ⟨pre, f, g, post, hl, hpre, hfit, hres, hwf.1, ?_, hch⟩
    cases pre with
    | nil =>
      simp only [List.nil_append, List.cons.injEq] at hl
      simp [hl.1]
    | cons p ps =>
      simp only [List.cons_append, List.cons.injEq] at hl
      simp [hl.1]

/-- Claim C1 (allocation postcondition).  On a well-formed chain and for a
request `n` with `n + 2H < 2^32`, `malloc(n)` returns; when the returned
pointer `p` is not null, `p = address(f) + H` for a frame `f` of the chain
that is still in the (well-formed) chain after the call and is occupied
there, and the payload span `[p, p + n)` ends at or before the frame that
follows `f`, which is not the null pointer. -/
theorem C1_malloc_postcondition (H n fuel : Nat) (s : Heap) (l : List Nat)
    (hwf : WellFormed H s l) (hn : n + 2 * H < 2 ^ 32) (hfuel : l.length < fuel) :
    ∃ s' p, malloc H fuel s n = some (s', p) ∧
      (p ≠ 0 → ∃ l' f, WellFormed H s' l' ∧ f ∈ l ∧ f ∈ l' ∧ p = f + H ∧
        (s'.mem f).is_free = false ∧ (s'.mem f).next ≠ 0 ∧ (s'.mem f).next ∈ l' ∧
        p + n ≤ (s'.mem f).next) := by
  rcases malloc_spec hwf hn hfuel with ⟨hres, -⟩ | ⟨pre, f, g, post, hl, -, -, hres, hwf'⟩
  · exact ⟨s, 0, hres, fun h => absurd rfl h⟩
  · refine ⟨_, _, hres, fun _ => ⟨_, f, hwf', by rw [hl]; simp, by simp, rfl, ?_⟩⟩
    have hH := hwf.1
    have hne : f ≠ f + H + n := by omega
    have hcur := @split_mem_cur s.mem f (f + H + n) g hne
    dsimp only
    rw [hcur]
    dsimp only
    exact ⟨rfl, by omega, by simp, le_rfl⟩


/-- The address `f + H + n` at which a fitting frame `f` is split is not
the address of any frame of the chain. -/
theorem split_addr_not_mem {H n : Nat} {mem : Nat → nov_memory_frame} {pre post : List Nat}
    {f g : Nat} (hH : 0 < H) (hc : IsChain H mem (pre ++ f :: g :: post))
    (hfit : fits H n mem f) : f + H + n ∉ pre ++ f :: g :: post := by
  obtain ⟨-, -, hpre, hpost, hfg⟩ := hc.split_bounds
  have hbs : block_size mem f = g - f := block_size_chain hH hfg
  have hbig : n + 2 * H < g - f := by rw [← hbs]; exact hfit.2
  intro hmem
  rcases List.mem_append.mp hmem with hz | hz
  · have := hpre _ hz; omega
  · rcases List.mem_cons.mp hz with hz | hz
    · omega
    · rcases List.mem_cons.mp hz with hz | hz
      · omega
      · have := hpost _ hz; omega

/-- Claim C4 (first fit).  On a well-formed chain and for `n + 2H < 2^32`, if
some frame is free with `block_size > n + 2H`, then `malloc(n)` returns
`address(f) + H` for the first such frame `f` in chain order; afterwards
`f` is occupied and points to a new frame at `address(f) + H + n`, which is
free, carries both signatures and points to the former successor of `f`;
no other record of the memory changes, and the chain is well formed with
the new frame inserted after `f`. -/
theorem C4_first_fit (H n fuel : Nat) (s : Heap) (l : List Nat)
    (hwf : WellFormed H s l) (hn : n + 2 * H < 2 ^ 32) (hfuel : l.length < fuel)
    (hex : ∃ a ∈ l, fits H n s.mem a) :
    ∃ pre f g post s', l = pre ++ f :: g :: post ∧ (∀ a ∈ pre, ¬ fits H n s.mem a) ∧
      fits H n s.mem f ∧ (s.mem f).next = g ∧
      malloc H fuel s n = some (s', f + H) ∧
      s'.mem f = { s.mem f with next := f + H + n, is_free := false } ∧
      s'.mem (f + H + n) =
        { next := g, is_free := true, signature := 0x4a6b, signature_end := 0x79 } ∧
      (∀ a, a ≠ f → a ≠ f + H + n → s'.mem a = s.mem a) ∧
      (∀ a ∈ l, a ≠ f → s'.mem a = s.mem a) ∧
      s'.head_frame = s.head_frame ∧
      WellFormed H s' (pre ++ f :: (f + H + n) :: g :: post) := by
  rcases malloc_spec hwf hn hfuel with ⟨-, hno⟩ | ⟨pre, f, g, post, hl, hpre, hfit, hres, hwf'⟩
  · obtain ⟨a, ha, hfa⟩ := hex
    exact absurd hfa (hno a ha)
  · have hH := hwf.1
    have hc : IsChain H s.mem (pre ++ f :: g :: post) := hl ▸ hwf.2.2
    have hne : f ≠ f + H + n := by omega
    have hnotin := split_addr_not_mem hH hc hfit
    refine ⟨pre, f, g, post, _, hl, hpre, hfit, hc.split_bounds.1, hres, split_mem_cur hne,
      split_mem_new hne, fun a h1 h2 => split_mem_other h1 h2, ?_, rfl, hwf'⟩
    intro a ha h1
    refine split_mem_other h1 ?_
    rintro rfl
    exact hnotin (hl ▸ ha)

/-- A list has at most one decomposition around its first element with a
given property. -/
theorem first_decomp_unique {P : Nat → Prop} :
    ∀ {pre pre' : List Nat} {f f' : Nat} {r r' : List Nat},
      pre ++ f :: r = pre' ++ f' :: r' → (∀ a ∈ pre, ¬ P a) → P f →
      (∀ a ∈ pre', ¬ P a) → P f' → pre = pre' ∧ f = f' ∧ r = r'
  | [], [], _, _, _, _, h, _, _, _, _ => by
    simp only [List.nil_append, List.cons.injEq] at h
    exact ⟨rfl, h.1, h.2⟩
  | [], p :: ps, f, _, _, _, h, _, hf, hpre', _ => by
    simp only [List.nil_append, List.cons_append, List.cons.injEq] at h
    exact absurd (h.1 ▸ hf) (hpre' p (List.mem_cons_self _ _))
  | p :: ps, [], _, f', _, _, h, hpre, _, _, hf' => by
    simp only [List.nil_append, List.cons_append, List.cons.injEq] at h
    exact absurd (h.1 ▸ hf') (hpre p (List.mem_cons_self _ _))
  | p :: ps, q :: qs, _, _, _, _, h, hpre, hf, hpre', hf' => by
    simp only [List.cons_append, List.cons.injEq] at h
    obtain ⟨h1, h2, h3⟩ := first_decomp_unique h.2
      (fun a ha => hpre a (List.mem_cons_of_mem _ ha)) hf
      (fun a ha => hpre' a (List.mem_cons_of_mem _ ha)) hf'
    exact ⟨by rw [h.1, h1], h2, h3⟩

/-- Claim C2, as the code has it.  Let `f` be the first free frame of a
well-formed chain and `g` its successor.  If `block_size(f) = n + 2H`
exactly, `malloc(n)` neither splits nor returns `f`: the returned pointer
is not `address(f) + H`, the record of `f` is unchanged (still free), and
the scan moves on to the frames after `f`: when none of them fits the
result is null with the heap untouched, and otherwise the first of them
that fits, `f'`, is split, exactly as first fit does on the frames after
`f` (result `address(f') + H`, `f'` occupied and pointing to the new free
frame at `address(f') + H + n`, nothing else changed).
If `block_size(f) = n + 2H + 1`, `malloc(n)` splits `f`: it returns
`address(f) + H`, `f` is occupied and points to the new free frame at
`address(f) + H + n`, which points to `g`. -/
theorem C2_split_threshold (H n fuel : Nat) (s : Heap) (pre post : List Nat) (f g : Nat)
    (hwf : WellFormed H s (pre ++ f :: g :: post))
    (hfuel : (pre ++ f :: g :: post).length < fuel)
    (hpre : ∀ a ∈ pre, (s.mem a).is_free = false) (hfree : (s.mem f).is_free = true) :
    (block_size s.mem f = n + 2 * H →
      (∃ s' p, malloc H fuel s n = some (s', p) ∧ p ≠ f + H ∧ s'.mem f = s.mem f ∧
        ((∀ a ∈ g :: post, ¬ fits H n s.mem a) → p = 0 ∧ s' = s)) ∧
      (∀ mid f' g' post', g :: post = mid ++ f' :: g' :: post' →
        (∀ a ∈ mid, ¬ fits H n s.mem a) → fits H n s.mem f' →
        ∃ s', malloc H fuel s n = some (s', f' + H) ∧
          s'.mem f' = { s.mem f' with next := f' + H + n, is_free := false } ∧
          s'.mem (f' + H + n) =
            { next := g', is_free := true, signature := 0x4a6b, signature_end := 0x79 } ∧
          (∀ a, a ≠ f' → a ≠ f' + H + n → s'.mem a = s.mem a) ∧
          s'.head_frame = s.head_frame ∧
          WellFormed H s' (pre ++ f :: (mid ++ f' :: (f' + H + n) :: g' :: post')))) ∧
    (block_size s.mem f = n + 2 * H + 1 →
      ∃ s', malloc H fuel s n = some (s', f + H) ∧
        s'.mem f = { s.mem f with next := f + H + n, is_free := false } ∧
        s'.mem (f + H + n) =
          { next := g, is_free := true, signature := 0x4a6b, signature_end := 0x79 } ∧
        WellFormed H s' (pre ++ f :: (f + H + n) :: g :: post)) := by
  have hH := hwf.1
  have hc : IsChain H s.mem (pre ++ f :: g :: post) := hwf.2.2
  obtain ⟨hnext, hfg, hprelt, hpostlt, hfgc⟩ := hc.split_bounds
  have hbs : block_size s.mem f = g - f := block_size_chain hH hfgc
  have hgb := hfgc.bounds g (by simp)
  have hprefit : ∀ a ∈ pre, ¬ fits H n s.mem a := fun a ha hfa => by
    have := hpre a ha
    rw [hfa.1] at this
    exact Bool.noConfusion this
  constructor
  · intro hsize
    have hn : n + 2 * H < 2 ^ 32 := by omega
    have hffit : ¬ fits H n s.mem f := fun hfa => by
      have := hfa.2
      omega
    refine ⟨?_, ?_⟩
    rotate_left
    · -- a later frame fits: the first such frame is split
      intro mid f2 g2 post2 hdec hmid hfit2
      have hl2 : pre ++ f :: g :: post = (pre ++ f :: mid) ++ f2 :: g2 :: post2 := by
        rw [hdec]; simp
      have hprefix : ∀ a ∈ pre ++ f :: mid, ¬ fits H n s.mem a := by
        intro a ha
        rcases List.mem_append.mp ha with hz | hz
        · exact hprefit a hz
        · rcases List.mem_cons.mp hz with hz | hz
          · rw [hz]; exact hffit
          · exact hmid a hz
      rcases malloc_spec hwf hn hfuel with
        ⟨-, hno⟩ | ⟨pre', f', g', post', hl, hpre', hfit', hres, hwf'⟩
      · exact absurd hfit2 (hno f2 (by rw [hl2]; simp))
      · obtain ⟨h1, h2, h3⟩ :=
          first_decomp_unique (hl2.symm.trans hl) hprefix hfit2 hpre' hfit'
        simp only [List.cons.injEq] at h3
        obtain ⟨h3, h4⟩ := h3
        subst h1 h2 h3 h4
        have hne : f2 ≠ f2 + H + n := by omega
        refine ⟨_, hres, split_mem_cur hne, split_mem_new hne,
          fun a h1 h2 => split_mem_other h1 h2, rfl, ?_⟩
        have e : pre ++ f :: (mid ++ f2 :: (f2 + H + n) :: g2 :: post2) =
            (pre ++ f :: mid) ++ f2 :: (f2 + H + n) :: g2 :: post2 := by simp
        rw [e]
        exact hwf'
    rcases malloc_spec hwf hn hfuel with
      ⟨hres, -⟩ | ⟨pre', f', g', post', hl, hpre', hfit', hres, hwf'⟩
    · exact ⟨s, 0, hres, by omega, rfl, fun _ => ⟨rfl, rfl⟩⟩
    · have hf'mem : f' ∈ pre ++ f :: g :: post := by rw [hl]; simp
      have hff' : f ≠ f' := fun h => hffit (h ▸ hfit')
      have hfmem : f ∈ pre' ++ f' :: g' :: post' := by rw [← hl]; simp
      have hnotin := split_addr_not_mem hH (hl ▸ hc) hfit'
      have hfnb : f ≠ f' + H + n := fun h => hnotin (h ▸ hfmem)
      refine ⟨_, _, hres, by omega, split_mem_other hff' hfnb, ?_⟩
      intro hpost
      exfalso
      rcases List.mem_append.mp hf'mem with hz | hz
      · exact hprefit _ hz hfit'
      · rcases List.mem_cons.mp hz with hz | hz
        · exact hff' hz.symm
        · exact hpost _ hz hfit'
  · intro hsize
    have hn : n + 2 * H < 2 ^ 32 := by omega
    have hffit : fits H n s.mem f := ⟨hfree, by omega⟩
    rcases malloc_spec hwf hn hfuel with
      ⟨-, hno⟩ | ⟨pre', f', g', post', hl, hpre', hfit', hres, hwf'⟩
    · exact absurd hffit (hno f (by simp))
    · obtain ⟨h1, h2, h3⟩ := first_decomp_unique hl hprefit hffit hpre' hfit'
      simp only [List.cons.injEq] at h3
      obtain ⟨h3, h4⟩ := h3
      subst h1 h2 h3 h4
      have hne : f ≠ f + H + n := by omega
      exact ⟨_, hres, split_mem_cur hne, split_mem_new hne, hwf'⟩


/-- Witness for C1: the scenario heap and a request of 100 bytes. -/
theorem C1_malloc_postcondition_witness :
    WellFormed 9 example_heap [4096, 5111] ∧
    ∃ s' p, malloc 9 3 example_heap 100 = some (s', p) ∧
      (p ≠ 0 → ∃ l' f, WellFormed 9 s' l' ∧ f ∈ [4096, 5111] ∧ f ∈ l' ∧ p = f + 9 ∧
        (s'.mem f).is_free = false ∧ (s'.mem f).next ≠ 0 ∧ (s'.mem f).next ∈ l' ∧
        p + 100 ≤ (s'.mem f).next) :=
  ⟨by decide,
    C1_malloc_postcondition 9 100 3 example_heap [4096, 5111] (by decide) (by decide)
      (by decide)⟩

/-- Witness for C4: on the scenario heap the head frame is the first fit. -/
theorem C4_first_fit_witness :
    ∃ pre f g post s', [4096, 5111] = pre ++ f :: g :: post ∧
      (∀ a ∈ pre, ¬ fits 9 100 example_heap.mem a) ∧
      fits 9 100 example_heap.mem f ∧ (example_heap.mem f).next = g ∧
      malloc 9 3 example_heap 100 = some (s', f + 9) ∧
      s'.mem f = { example_heap.mem f with next := f + 9 + 100, is_free := false } ∧
      s'.mem (f + 9 + 100) =
        { next := g, is_free := true, signature := 0x4a6b, signature_end := 0x79 } ∧
      (∀ a, a ≠ f → a ≠ f + 9 + 100 → s'.mem a = example_heap.mem a) ∧
      (∀ a ∈ [4096, 5111], a ≠ f → s'.mem a = example_heap.mem a) ∧
      s'.head_frame = example_heap.head_frame ∧
      WellFormed 9 s' (pre ++ f :: (f + 9 + 100) :: g :: post) :=
  C4_first_fit 9 100 3 example_heap [4096, 5111] (by decide) (by decide) (by decide)
    ⟨4096, by decide, by decide⟩

/-- Counterexample to C2 as stated: the only block of `exact_heap` is free
and has size exactly `100 + 2 * 9`, yet `malloc(100)` returns null and
leaves the heap as it was; it does not hand out the block. -/
theorem C2_counterexample :
    WellFormed 9 exact_heap [4096, 4214] ∧ (exact_heap.mem 4096).is_free = true ∧
    block_size exact_heap.mem 4096 = 100 + 2 * 9 ∧
    malloc 9 3 exact_heap 100 = some (exact_heap, 0) ∧
    ¬ ∃ s', malloc 9 3 exact_heap 100 = some (s', 4096 + 9) ∧
      (s'.mem 4096).is_free = false := by
  have hres : malloc 9 3 exact_heap 100 = some (exact_heap, 0) := rfl
  refine ⟨by decide, by decide, by decide, hres, ?_⟩
  rintro ⟨s', h, -⟩
  rw [hres] at h
  simp only [Option.some.injEq, Prod.mk.injEq] at h
  exact absurd h.2 (by decide)

/-- Witness for the amended C2: the exact-size heap, where nothing after
the block fits; `skip_heap`, where the exact-size block 4096 is passed over
and the later block 4264 is split; and the heap with one byte more. -/
theorem C2_split_threshold_witness :
    (WellFormed 9 exact_heap [4096, 4214] ∧
      ∃ s' p, malloc 9 3 exact_heap 100 = some (s', p) ∧ p ≠ 4096 + 9 ∧
        s'.mem 4096 = exact_heap.mem 4096 ∧
        ((∀ a ∈ [4214], ¬ fits 9 100 exact_heap.mem a) → p = 0 ∧ s' = exact_heap)) ∧
    (WellFormed 9 skip_heap [4096, 4205, 4264, 5111] ∧
      block_size skip_heap.mem 4096 = 91 + 2 * 9 ∧
      ∃ s', malloc 9 5 skip_heap 91 = some (s', 4264 + 9) ∧
        s'.mem 4264 = { skip_heap.mem 4264 with next := 4264 + 9 + 91, is_free := false } ∧
        s'.mem (4264 + 9 + 91) =
          { next := 5111, is_free := true, signature := 0x4a6b, signature_end := 0x79 } ∧
        (∀ a, a ≠ 4264 → a ≠ 4264 + 9 + 91 → s'.mem a = skip_heap.mem a) ∧
        s'.head_frame = skip_heap.head_frame ∧
        WellFormed 9 s' ([] ++ 4096 :: ([4205] ++ 4264 :: (4264 + 9 + 91) :: 5111 :: []))) ∧
    (WellFormed 9 plus_one_heap [4096, 4215] ∧
      ∃ s', malloc 9 3 plus_one_heap 100 = some (s', 4096 + 9) ∧
        s'.mem 4096 = { plus_one_heap.mem 4096 with next := 4096 + 9 + 100, is_free := false } ∧
        s'.mem (4096 + 9 + 100) =
          { next := 4215, is_free := true, signature := 0x4a6b, signature_end := 0x79 } ∧
        WellFormed 9 s' ([] ++ 4096 :: (4096 + 9 + 100) :: 4215 :: [])) :=
  ⟨⟨by decide,
    ((C2_split_threshold 9 100 3 exact_heap [] [] 4096 4214 (by decide) (by decide)
      (by simp) (by decide)).1 (by decide)).1⟩,
   ⟨by decide, by decide,
    ((C2_split_threshold 9 91 5 skip_heap [] [4264, 5111] 4096 4205 (by decide) (by decide)
      (by simp) (by decide)).1 (by decide)).2 [4205] 4264 5111 [] rfl (by decide)
        (by decide)⟩,
   ⟨by decide,
    (C2_split_threshold 9 100 3 plus_one_heap [] [] 4096 4215 (by decide) (by decide)
      (by simp) (by decide)).2 (by decide)⟩⟩

/-- Claim C3, at a failing input.  On the scenario heap no frame has
`block_size > n + 2H` for `n = 2^32 - 18` (as natural numbers), yet
`malloc(n)` returns the non-null pointer 4105 and rewrites the head
frame: the sum `n + 2H` wraps around to `0` in `uint32_t`, so the size test
succeeds, and the new frame lands at address 4087, below the region. -/
theorem C3_overflow_allocates :
    WellFormed 9 example_heap [4096, 5111] ∧
    (∀ a ∈ [4096, 5111], ¬ fits 9 (2 ^ 32 - 18) example_heap.mem a) ∧
    (malloc 9 3 example_heap (2 ^ 32 - 18)).map Prod.snd = some 4105 ∧
    (malloc 9 3 example_heap (2 ^ 32 - 18)).map (fun r => (r.1.mem 4096).next) = some 4087 ∧
    (malloc 9 3 example_heap (2 ^ 32 - 18)).map (fun r => (r.1.mem 4096).is_free) =
      some false := by
  refine ⟨by decide, by decide, by decide, by decide, by decide⟩


/-- Exhaustion without overflow: when `n + 2H` fits in 32 bits and no frame
of a well-formed chain fits, `malloc(n)` returns null and changes nothing. -/
theorem malloc_exhausted {H n fuel : Nat} {s : Heap} {l : List Nat} (hwf : WellFormed H s l)
    (hn : n + 2 * H < 2 ^ 32) (hfuel : l.length < fuel)
    (hno : ∀ a ∈ l, ¬ fits H n s.mem a) : malloc H fuel s n = some (s, 0) := by
  rcases malloc_spec hwf hn hfuel with ⟨hres, -⟩ | ⟨pre, f, g, post, hl, -, hfit, -, -⟩
  · exact hres
  · exact absurd hfit (hno f (by rw [hl]; simp))


/-- The overflow of C3 for any header size: on a well-formed chain whose
head frame is free, the request `n = 2^32 - 2H` makes `n + 2H` wrap to `0`
in `uint32_t`, and `malloc(n)` hands out the head block. -/
theorem malloc_overflow_any_header {H fuel y : Nat} {s : Heap} {rest : List Nat}
    (hwf : WellFormed H s (s.head_frame :: y :: rest))
    (hfree : (s.mem s.head_frame).is_free = true) (hfuel : 0 < fuel) :
    (malloc H fuel s (2 ^ 32 - 2 * H)).map Prod.snd = some (s.head_frame + H) := by
  obtain ⟨hH, -, hc⟩ := hwf
  obtain ⟨k, rfl⟩ : ∃ k, fuel = k + 1 := ⟨fuel - 1, by omega⟩
  have hx0 : s.head_frame ≠ 0 := Nat.pos_iff_ne_zero.mp hc.1
  have hnext : (s.mem s.head_frame).next = y := hc.2.1
  have hxy : s.head_frame + H ≤ y := hc.2.2.1
  have hyb := hc.bounds y (by simp)
  have hy0 : y ≠ 0 := by omega
  have hs : sub32 y s.head_frame = y - s.head_frame := sub32_of_le (by omega) (by omega)
  have e1 : add32 (2 ^ 32 - 2 * H) H = 2 ^ 32 - H := by
    unfold add32
    have h1 : 2 ^ 32 - 2 * H + H = 2 ^ 32 - H := by omega
    rw [h1]
    exact Nat.mod_eq_of_lt (by omega)
  have hthr : add32 (add32 (2 ^ 32 - 2 * H) H) H = 0 := by
    rw [e1]
    unfold add32
    have h2 : 2 ^ 32 - H + H = 2 ^ 32 := by omega
    rw [h2]
    exact Nat.mod_self _
  have h1 : add32 s.head_frame H = s.head_frame + H := add32_of_lt (by omega)
  have hpos : 0 < y - s.head_frame := by omega
  have hthr' : add32 (add32 (4294967296 - 2 * H) H) H = 0 := by
    norm_num at hthr
    exact hthr
  simp [malloc, malloc_loop, hx0, hfree, hnext, hy0, hs, hthr', hpos, h1]

/-! ## `mfree` -/

/-- The frames of a chain are determined by its first frame. -/
theorem IsChain.frames_unique {H : Nat} {mem : Nat → nov_memory_frame} :
    ∀ {l l' : List Nat}, IsChain H mem l → IsChain H mem l' → l.head? = l'.head? → l = l'
  | [], _, h, _, _ => absurd h (by simp [IsChain])
  | _ :: _, [], _, h', _ => absurd h' (by simp [IsChain])
  | [x], [y], _, _, hh => by simpa using hh
  | [x], y :: z :: t, h, h', hh => by
    simp only [List.head?_cons, Option.some.injEq] at hh
    subst hh
    have h1 := h.2.2.1
    have h2 := h'.2.1
    have h3 := (h'.tail.bounds z (List.mem_cons_self _ _)).1
    omega
  | x :: z :: t, [y], h, h', hh => by
    simp only [List.head?_cons, Option.some.injEq] at hh
    subst hh
    have h1 := h'.2.2.1
    have h2 := h.2.1
    have h3 := (h.tail.bounds z (List.mem_cons_self _ _)).1
    omega
  | x :: z :: t, y :: w :: u, h, h', hh => by
    simp only [List.head?_cons, Option.some.injEq] at hh
    subst hh
    have hzw : z = w := by rw [← h.2.1, ← h'.2.1]
    subst hzw
    rw [IsChain.frames_unique h.tail h'.tail rfl]

theorem WellFormed.chain_unique {H : Nat} {s : Heap} {l l' : List Nat} (h : WellFormed H s l)
    (h' : WellFormed H s l') : l = l' :=
  IsChain.frames_unique h.2.2 h'.2.2 (by rw [h.2.1, h'.2.1])

/-- Replacing what follows a frame `f` of a chain: if the frames before
`f` keep their records and `f` heads a chain in the new memory, the whole
list is a chain again. -/
theorem IsChain.replace_tail {H : Nat} {mem mem' : Nat → nov_memory_frame} {f : Nat}
    {t t' : List Nat} :
    ∀ {pre : List Nat}, IsChain H mem (pre ++ f :: t) → IsChain H mem' (f :: t') →
      (∀ z ∈ pre, mem' z = mem z) → IsChain H mem' (pre ++ f :: t')
  | [], _, h', _ => h'
  | [p], h, h', hm => by
    have hp := hm p (List.mem_singleton.mpr rfl)
    have h1 : IsChain H mem (p :: f :: t) := h
    show IsChain H mem' (p :: f :: t')
    exact ⟨h1.1, by rw [hp]; exact h1.2.1, h1.2.2.1, h'⟩
  | p :: q :: ps, h, h', hm => by
    have hp := hm p (List.mem_cons_self _ _)
    have h1 : IsChain H mem (p :: q :: (ps ++ f :: t)) := h
    have ih : IsChain H mem' (q :: ps ++ f :: t') :=
      let ht : IsChain H mem ((q :: ps) ++ f :: t) := h1.tail
      IsChain.replace_tail ht h'
        (fun z hz => hm z (List.mem_cons_of_mem _ hz))
    show IsChain H mem' (p :: q :: (ps ++ f :: t'))
    exact ⟨h1.1, by rw [hp]; exact h1.2.1, h1.2.2.1, ih⟩

theorem head?_append_cons {α : Type} (pre : List α) (f : α) (t t' : List α) :
    (pre ++ f :: t).head? = (pre ++ f :: t').head? := by
  cases pre <;> rfl

/-- Claim C5 (free with forward merge).  Let `f`, `g` be consecutive frames
of a well-formed chain, `f` occupied with valid signatures, `g` free, and
`p` a pointer with `p - H = address(f)`.  Then `mfree(p)` returns without
output, `g` is a non-sentinel frame and is spliced out (the chain has one
frame fewer), `f` is free, `f.next` is the former `g.next`, the new
block size of `f` is the sum of the former block sizes of `f` and `g`, and
no record other than that of `f` changes. -/
theorem C5_free_forward_merge (H p f g : Nat) (s : Heap) (pre rest : List Nat)
    (hwf : WellFormed H s (pre ++ f :: g :: rest)) (hp : sub32 p H = f)
    (hocc : (s.mem f).is_free = false) (hsig : valid_signatures (s.mem f))
    (hg : (s.mem g).is_free = true) :
    (mfree H s p).returned = true ∧ (mfree H s p).log = [] ∧
    rest ≠ [] ∧
    WellFormed H (mfree H s p).heap (pre ++ f :: rest) ∧
    (pre ++ f :: rest).length + 1 = (pre ++ f :: g :: rest).length ∧
    g ∉ pre ++ f :: rest ∧
    ((mfree H s p).heap.mem f).is_free = true ∧
    ((mfree H s p).heap.mem f).next = (s.mem g).next ∧
    block_size (mfree H s p).heap.mem f = block_size s.mem f + block_size s.mem g ∧
    (∀ a, a ≠ f → (mfree H s p).heap.mem a = s.mem a) := by
  have hH := hwf.1
  have hc : IsChain H s.mem (pre ++ f :: g :: rest) := hwf.2.2
  obtain ⟨hnext, hfg, hprelt, hpostlt, hfgc⟩ := hc.split_bounds
  cases rest with
  | nil =>
    have := hfgc.tail.2.2.2
    rw [hg] at this
    exact Bool.noConfusion this
  | cons k post =>
    have hgk : (s.mem g).next = k := hfgc.tail.2.1
    have hgk' : g + H ≤ k := hfgc.tail.2.2.1
    have hkb := hfgc.tail.tail.bounds k (List.mem_cons_self _ _)
    have hg0 : g ≠ 0 := by omega
    have hgf : g ≠ f := by omega
    -- the heap `mfree` leaves
    have hres : mfree H s p =
        { heap := { s with mem := set_next (set_is_free s.mem f true) f k }
          log := []
          returned := true } := by
      simp [mfree, hp, hsig.1, hsig.2, hocc, hnext, hg0, hgf, hg, hgk]
    rw [hres]
    have hmf : set_next (set_is_free s.mem f true) f k f =
        { s.mem f with is_free := true, next := k } := by simp
    have hmo : ∀ a, a ≠ f → set_next (set_is_free s.mem f true) f k a = s.mem a := by
      intro a ha; simp [ha]
    have hktail : IsChain H (set_next (set_is_free s.mem f true) f k) (k :: post) := by
      refine IsChain.congr (fun z hz => hmo z ?_) hfgc.tail.tail
      have := IsChain.head_le hfgc.tail.tail z hz
      omega
    have hfk : IsChain H (set_next (set_is_free s.mem f true) f k) (f :: k :: post) :=
      ⟨hfgc.1, by rw [hmf], by omega, hktail⟩
    dsimp only
    refine ⟨rfl, rfl, by simp, ⟨hH, ?_, ?_⟩,
      by simp only [List.length_append, List.length_cons]; omega,
      ?_, by rw [hmf], by rw [hmf, hgk], ?_, hmo⟩
    · show (pre ++ f :: k :: post).head? = some s.head_frame
      rw [← hwf.2.1]
      exact head?_append_cons pre f _ _
    · exact IsChain.replace_tail hc hfk (fun z hz => hmo z (by have := hprelt z hz; omega))
    · intro hmem
      rcases List.mem_append.mp hmem with hz | hz
      · have := hprelt g hz; omega
      · rcases List.mem_cons.mp hz with hz | hz
        · exact hgf hz
        · have := hpostlt g hz; omega
    · have h1 : block_size s.mem f = g - f := block_size_chain hH hfgc
      have h2 : block_size s.mem g = k - g := block_size_chain hH hfgc.tail
      have h3 : block_size (set_next (set_is_free s.mem f true) f k) f = k - f :=
        block_size_chain hH hfk
      show block_size (set_next (set_is_free s.mem f true) f k) f = _
      rw [h1, h2, h3]
      omega


/-- Witness for C5: freeing the 100-byte block of the scenario heap, whose
successor is the free remainder. -/
theorem C5_free_forward_merge_witness :
    WellFormed 9 allocated_heap ([] ++ 4096 :: 4205 :: [5111]) ∧
    ((mfree 9 allocated_heap 4105).returned = true ∧ (mfree 9 allocated_heap 4105).log = [] ∧
      [5111] ≠ [] ∧
      WellFormed 9 (mfree 9 allocated_heap 4105).heap ([] ++ 4096 :: [5111]) ∧
      ([] ++ 4096 :: [5111]).length + 1 = ([] ++ 4096 :: 4205 :: [5111]).length ∧
      4205 ∉ [] ++ 4096 :: [5111] ∧
      ((mfree 9 allocated_heap 4105).heap.mem 4096).is_free = true ∧
      ((mfree 9 allocated_heap 4105).heap.mem 4096).next = (allocated_heap.mem 4205).next ∧
      block_size (mfree 9 allocated_heap 4105).heap.mem 4096 =
        block_size allocated_heap.mem 4096 + block_size allocated_heap.mem 4205 ∧
      (∀ a, a ≠ 4096 → (mfree 9 allocated_heap 4105).heap.mem a = allocated_heap.mem a)) :=
  ⟨by decide,
    C5_free_forward_merge 9 4105 4096 4205 allocated_heap [] [5111] (by decide) (by decide)
      (by decide) (by decide) (by decide)⟩


/-! ## `mconsolidate` -/

/-- An occupied block is kept and the blocks after it are consolidated. -/
theorem merge_runs_occupied_cons (b : Block) (rest : List Block) (hb : b.is_free = false) :
    merge_runs (b :: rest) = b :: merge_runs rest := by
  rw [merge_runs]
  cases merge_runs rest with
  | nil => rfl
  | cons c cs => simp [hb]

/-- A free block absorbs the whole run of free blocks that follows it. -/
theorem merge_runs_free_cons (b : Block) (hb : b.is_free = true) :
    ∀ rest : List Block, merge_runs (b :: rest) =
      { addr := b.addr
        size := b.size + ((rest.takeWhile fun c => c.is_free).map fun c => c.size).sum
        is_free := true } :: merge_runs (rest.dropWhile fun c => c.is_free)
  | [] => by
    obtain ⟨a, sz, fr⟩ := b
    simp only at hb
    subst hb
    simp [merge_runs]
  | c :: cs => by
    by_cases hc : c.is_free = true
    · have ih := merge_runs_free_cons c hc cs
      rw [merge_runs, ih]
      simp [hb, hc, Nat.add_assoc]
    · have hc' : c.is_free = false := by simpa using hc
      rw [merge_runs, merge_runs_occupied_cons c cs hc']
      obtain ⟨a, sz, fr⟩ := b
      simp only at hb
      subst hb
      simp [hc', merge_runs_occupied_cons c cs hc']

/-- Merging the first two blocks of a run by hand does not change the
consolidated list. -/
theorem merge_runs_absorb (a s1 b s2 : Nat) (rest : List Block) :
    merge_runs ({ addr := a, size := s1, is_free := true } ::
      { addr := b, size := s2, is_free := true } :: rest) =
    merge_runs ({ addr := a, size := s1 + s2, is_free := true } :: rest) := by
  rw [merge_runs_free_cons _ rfl, merge_runs_free_cons _ rfl]
  simp [Nat.add_assoc]

/-- A free block whose successor is not free is kept as it is. -/
theorem merge_runs_free_alone (b c : Block) (rest : List Block) (hc : c.is_free = false) :
    merge_runs (b :: c :: rest) = b :: merge_runs (c :: rest) := by
  rw [merge_runs, merge_runs_occupied_cons c rest hc]
  simp [hc]


theorem blocks_congr {mem mem' : Nat → nov_memory_frame} :
    ∀ {l : List Nat}, (∀ z ∈ l, mem' z = mem z) → blocks mem' l = blocks mem l
  | [], _ => rfl
  | [_], _ => rfl
  | x :: y :: rest, hm => by
    have hx := hm x (List.mem_cons_self _ _)
    have ih := blocks_congr (l := y :: rest) (fun z hz => hm z (List.mem_cons_of_mem _ hz))
    simp only [blocks, block_size, hx, ih]

/-- What the sweep of `mconsolidate` does on a chain starting at `x`: with
fuel for every frame it returns a memory in which the chain from `x` is
the consolidated one. -/
theorem mconsolidate_loop_spec {H : Nat} (hH : 0 < H) :
    ∀ (fuel : Nat) {mem : Nat → nov_memory_frame} {x : Nat} {l : List Nat},
      IsChain H mem (x :: l) → (x :: l).length ≤ fuel →
      ∃ mem' l', mconsolidate_loop fuel mem x = some mem' ∧ IsChain H mem' (x :: l') ∧
        blocks mem' (x :: l') = merge_runs (blocks mem (x :: l)) ∧
        (x :: l').getLast? = (x :: l).getLast? ∧
        (∀ f ∈ x :: l', (mem' f).is_free = true → (mem' (mem' f).next).is_free = false) ∧
        (∀ a, (mem' a).is_free = (mem a).is_free ∧ (mem' a).signature = (mem a).signature ∧
          (mem' a).signature_end = (mem a).signature_end) ∧
        (∀ a, (mem a).is_free = false → mem' a = mem a) ∧
        (∀ a, a ∉ x :: l → mem' a = mem a) ∧
        l'.Sublist l ∧
        (∀ a ∈ x :: l, (mem a).is_free = false → a ∈ x :: l') ∧
        (∀ a ∈ x :: l, (mem a).is_free = true →
          ∃ c ∈ x :: l', (mem' c).is_free = true ∧ (c = a ∨ c + H ≤ a) ∧
            (mem a).next ≤ (mem' c).next)
  | 0, _, _, _, _, hf => by simp at hf
  | fuel + 1, mem, x, [], hc, _ => by
    obtain ⟨hx0, hxb, hnext, hfree⟩ := hc
    refine ⟨mem, [], ?_, ⟨hx0, hxb, hnext, hfree⟩, rfl, rfl, ?_, fun a => ⟨rfl, rfl, rfl⟩,
      fun a _ => rfl, fun a _ => rfl, List.Sublist.refl _, fun a ha _ => ha, ?_⟩
    rotate_right
    · intro a ha hfa
      simp only [List.mem_singleton] at ha
      subst ha
      rw [hfree] at hfa
      exact Bool.noConfusion hfa
    · simp [mconsolidate_loop, hnext]
    · intro f hf hff
      simp only [List.mem_singleton] at hf
      subst hf
      rw [hfree] at hff
      exact Bool.noConfusion hff
  | fuel + 1, mem, x, y :: rest, hc, hf => by
    have hx0 : x ≠ 0 := Nat.pos_iff_ne_zero.mp hc.1
    have hnext : (mem x).next = y := hc.2.1
    have hxy : x + H ≤ y := hc.2.2.1
    have hyb := hc.bounds y (by simp)
    have hy0 : y ≠ 0 := Nat.pos_iff_ne_zero.mp hyb.1
    have hxnot : x ∉ y :: rest := fun hm => by
      have := IsChain.head_le hc.tail x hm
      omega
    have hlen : (y :: rest).length ≤ fuel := by simp at hf ⊢; omega
    by_cases hmerge : (mem x).is_free = true ∧ (mem y).is_free = true
    · -- both free: `y` is absorbed and `x` is examined again
      obtain ⟨hxf, hyf⟩ := hmerge
      cases rest with
      | nil =>
        have := hc.tail.2.2.2
        rw [hyf] at this
        exact Bool.noConfusion this
      | cons z rest' =>
        have hyz : (mem y).next = z := hc.tail.2.1
        have hyz' : y + H ≤ z := hc.tail.2.2.1
        have hzc : IsChain H mem (z :: rest') := hc.tail.tail
        have hm1o : ∀ a, a ≠ x → set_next mem x z a = mem a := fun a ha => by simp [ha]
        have hm1x : set_next mem x z x = { mem x with next := z } := by simp
        have hxz : ∀ a ∈ z :: rest', a ≠ x := fun a ha => by
          have := IsChain.head_le hzc a ha
          omega
        have hc1 : IsChain H (set_next mem x z) (x :: z :: rest') :=
          ⟨hc.1, by rw [hm1x], by omega,
            IsChain.congr (fun a ha => hm1o a (hxz a ha)) hzc⟩
        obtain ⟨mem', l', hres, hch, hbl, hlast, hadj, hflag, hocc, hout, hsub, hkeep, hcov⟩ :=
          mconsolidate_loop_spec hH fuel hc1 (by simp at hf ⊢; omega)
        refine ⟨mem', l', ?_, hch, ?_, ?_, hadj, ?_, ?_, ?_, List.Sublist.cons y hsub, ?_, ?_⟩
        rotate_right
        · -- every free frame is covered by a free frame of the new chain
          have hx1 : (set_next mem x z x).is_free = true := by rw [hm1x]; exact hxf
          obtain ⟨c, hcl, hcf, hcx, hcn⟩ := hcov x (List.mem_cons_self _ _) hx1
          have hcn' : z ≤ (mem' c).next := by
            have e : (set_next mem x z x).next = z := by rw [hm1x]
            rw [e] at hcn
            exact hcn
          intro a ha hfa
          rcases List.mem_cons.mp ha with hax | ha'
          · refine ⟨c, hcl, hcf, by rw [hax]; exact hcx, ?_⟩
            rw [hax, hnext]
            omega
          · rcases List.mem_cons.mp ha' with hay | ha''
            · refine ⟨c, hcl, hcf, Or.inr (by rw [hay]; omega), ?_⟩
              rw [hay, hyz]
              exact hcn'
            · have := hcov a (List.mem_cons_of_mem _ ha'') (by rw [hm1o a (hxz a ha'')]; exact hfa)
              rw [hm1o a (hxz a ha'')] at this
              exact this
        rotate_right
        · intro a ha hocca
          rcases List.mem_cons.mp ha with hax | ha'
          · rw [hax]; exact List.mem_cons_self _ _
          · rcases List.mem_cons.mp ha' with hay | ha''
            · rw [hay, hyf] at hocca
              exact Bool.noConfusion hocca
            · exact hkeep a (List.mem_cons_of_mem _ ha'')
                (by rw [hm1o a (hxz a ha'')]; exact hocca)
        · simp [mconsolidate_loop, hx0, hnext, hy0, hxf, hyf, hyz, hres]
        · rw [hbl]
          have e1 : blocks (set_next mem x z) (x :: z :: rest') =
              { addr := x, size := z - x, is_free := true } :: blocks mem (z :: rest') := by
            have := blocks_congr (l := z :: rest') (fun a ha => hm1o a (hxz a ha))
            simp only [blocks] at this ⊢
            rw [block_size_chain hH hc1, hm1x, this]
            simp [hxf]
          have e2 : blocks mem (x :: y :: z :: rest') =
              { addr := x, size := y - x, is_free := true } ::
                { addr := y, size := z - y, is_free := true } :: blocks mem (z :: rest') := by
            simp only [blocks]
            rw [block_size_chain hH hc, block_size_chain hH hc.tail, hxf, hyf]
          rw [e1, e2, merge_runs_absorb]
          have : y - x + (z - y) = z - x := by omega
          rw [this]
        · rw [hlast]; simp [List.getLast?_cons_cons]
        · intro a
          by_cases ha : a = x
          · subst ha
            have := hflag a
            rw [hm1x] at this
            exact this
          · have := hflag a
            rw [hm1o a ha] at this
            exact this
        · intro a ha
          have hax : a ≠ x := fun h => by
            rw [h, hxf] at ha
            exact Bool.noConfusion ha
          rw [hocc a (by rw [hm1o a hax]; exact ha), hm1o a hax]
        · intro a ha
          have hax : a ≠ x := fun h => ha (h ▸ List.mem_cons_self _ _)
          rw [hout a (fun hm => ha (by
            rcases List.mem_cons.mp hm with h | h
            · exact absurd h hax
            · exact List.mem_cons_of_mem _ (List.mem_cons_of_mem _ h))), hm1o a hax]
    · -- otherwise the sweep advances to `y`
      have hstep : mconsolidate_loop (fuel + 1) mem x = mconsolidate_loop fuel mem y := by
        by_cases hxf : (mem x).is_free = false
        · simp [mconsolidate_loop, hx0, hnext, hy0, hxf]
        · have hxf' : (mem x).is_free = true := by simpa using hxf
          have hyf : (mem y).is_free = false := by
            by_cases h : (mem y).is_free = true
            · exact absurd ⟨hxf', h⟩ hmerge
            · simpa using h
          simp [mconsolidate_loop, hx0, hnext, hy0, hxf', hyf]
      obtain ⟨mem', l', hres, hch, hbl, hlast, hadj, hflag, hocc, hout, hsub, hkeep, hcov⟩ :=
        mconsolidate_loop_spec hH fuel hc.tail hlen
      have hmx : mem' x = mem x := hout x hxnot
      refine ⟨mem', y :: l', by rw [hstep]; exact hres, ?_, ?_, ?_, ?_, hflag, hocc, ?_,
        hsub.cons₂ y, ?_, ?_⟩
      rotate_right
      · intro a ha hfa
        rcases List.mem_cons.mp ha with hax | ha'
        · refine ⟨x, List.mem_cons_self _ _, ?_, Or.inl hax.symm, ?_⟩
          · rw [hmx, ← hax]; exact hfa
          · rw [hmx, hax]
        · obtain ⟨c, hcl, hrest⟩ := hcov a ha' hfa
          exact ⟨c, List.mem_cons_of_mem _ hcl, hrest⟩
      rotate_right
      · intro a ha hocca
        rcases List.mem_cons.mp ha with hax | ha'
        · rw [hax]; exact List.mem_cons_self _ _
        · exact List.mem_cons_of_mem _ (hkeep a ha' hocca)
      · exact ⟨hc.1, by rw [hmx]; exact hnext, hxy, hch⟩
      · have e1 : blocks mem' (x :: y :: l') =
            { addr := x, size := block_size mem x, is_free := (mem x).is_free } ::
              merge_runs (blocks mem (y :: rest)) := by
          simp only [blocks, block_size, hmx]
          rw [← hbl]
        rw [e1]
        by_cases hxf : (mem x).is_free = false
        · exact (merge_runs_occupied_cons _ _ hxf).symm
        · have hxf' : (mem x).is_free = true := by simpa using hxf
          have hyf : (mem y).is_free = false := by
            by_cases h : (mem y).is_free = true
            · exact absurd ⟨hxf', h⟩ hmerge
            · simpa using h
          cases rest with
          | nil => simp [blocks, merge_runs]
          | cons z rest' =>
            show _ = merge_runs (_ :: _ :: blocks mem (z :: rest'))
            rw [merge_runs_free_alone _ _ _ hyf]
            rfl
      · simp only [List.getLast?_cons_cons]; exact hlast
      · intro f hfm hff
        rcases List.mem_cons.mp hfm with rfl | hfm'
        · rw [hmx] at hff ⊢
          rw [hnext, (hflag y).1]
          by_cases h : (mem y).is_free = true
          · exact absurd ⟨hff, h⟩ hmerge
          · simpa using h
        · exact hadj f hfm' hff
      · intro a ha
        exact hout a (fun hm => ha (List.mem_cons_of_mem _ hm))


/-- Claim C6 (consolidation postcondition).  On a well-formed chain
`mconsolidate()` returns, the chain is well formed afterwards, and no
frame of it is free together with the frame its `next` points to. -/
theorem C6_no_adjacent_free (H fuel : Nat) (s : Heap) (l : List Nat)
    (hwf : WellFormed H s l) (hfuel : l.length ≤ fuel) :
    ∃ s' l', mconsolidate fuel s = some s' ∧ WellFormed H s' l' ∧
      ∀ f ∈ l', ¬ ((s'.mem f).is_free = true ∧ (s'.mem (s'.mem f).next).is_free = true) := by
  obtain ⟨t, rfl⟩ := hwf.eq_cons
  obtain ⟨mem', l', hres, hch, -, -, hadj, -, -, -⟩ :=
    mconsolidate_loop_spec hwf.1 fuel hwf.2.2 hfuel
  refine ⟨{ s with mem := mem' }, s.head_frame :: l', by simp [mconsolidate, hres],
    ⟨hwf.1, rfl, hch⟩, ?_⟩
  rintro f hf ⟨h1, h2⟩
  have := hadj f hf h1
  rw [h2] at this
  exact Bool.noConfusion this

/-- Claim C7 (consolidation equals its reference definition).  On a
well-formed chain `mconsolidate()` returns with fuel for one step per
frame; the resulting chain is well formed, its blocks are `merge_runs` of
the former blocks (each maximal run of free blocks replaced by its first
block, sized with the sum of the run; occupied blocks kept), it ends at
the same sentinel, the record of every occupied frame, the sentinel
included, and of every address outside the chain is unchanged, and only
`next` fields change at all. -/
theorem C7_consolidate_reference (H fuel : Nat) (s : Heap) (l : List Nat)
    (hwf : WellFormed H s l) (hfuel : l.length ≤ fuel) :
    ∃ s' l', mconsolidate fuel s = some s' ∧ WellFormed H s' l' ∧
      blocks s'.mem l' = merge_runs (blocks s.mem l) ∧
      l'.getLast? = l.getLast? ∧
      (∀ a, (s.mem a).is_free = false → s'.mem a = s.mem a) ∧
      (∀ a, a ∉ l → s'.mem a = s.mem a) ∧
      (∀ a, (s'.mem a).is_free = (s.mem a).is_free ∧
        (s'.mem a).signature = (s.mem a).signature ∧
        (s'.mem a).signature_end = (s.mem a).signature_end) ∧
      s'.head_frame = s.head_frame ∧ s'.memory_information = s.memory_information := by
  obtain ⟨t, rfl⟩ := hwf.eq_cons
  obtain ⟨mem', l', hres, hch, hbl, hlast, -, hflag, hocc, hout, -, -⟩ :=
    mconsolidate_loop_spec hwf.1 fuel hwf.2.2 hfuel
  exact ⟨{ s with mem := mem' }, s.head_frame :: l', by simp [mconsolidate, hres],
    ⟨hwf.1, rfl, hch⟩, hbl, hlast, hocc, hout, hflag, rfl, rfl⟩

/-- Witness for C6: the fragmented heap, with two adjacent free frames. -/
theorem C6_no_adjacent_free_witness :
    WellFormed 9 fragmented_heap [4096, 4205, 4314, 4423, 5111] ∧
    ∃ s' l', mconsolidate 5 fragmented_heap = some s' ∧ WellFormed 9 s' l' ∧
      ∀ f ∈ l', ¬ ((s'.mem f).is_free = true ∧ (s'.mem (s'.mem f).next).is_free = true) :=
  ⟨by decide,
    C6_no_adjacent_free 9 5 fragmented_heap [4096, 4205, 4314, 4423, 5111] (by decide)
      (by decide)⟩

/-- Witness for C7: the fragmented heap. -/
theorem C7_consolidate_reference_witness :
    WellFormed 9 fragmented_heap [4096, 4205, 4314, 4423, 5111] ∧
    ∃ s' l', mconsolidate 5 fragmented_heap = some s' ∧ WellFormed 9 s' l' ∧
      blocks s'.mem l' =
        merge_runs (blocks fragmented_heap.mem [4096, 4205, 4314, 4423, 5111]) ∧
      l'.getLast? = [4096, 4205, 4314, 4423, 5111].getLast? ∧
      (∀ a, (fragmented_heap.mem a).is_free = false → s'.mem a = fragmented_heap.mem a) ∧
      (∀ a, a ∉ [4096, 4205, 4314, 4423, 5111] → s'.mem a = fragmented_heap.mem a) ∧
      (∀ a, (s'.mem a).is_free = (fragmented_heap.mem a).is_free ∧
        (s'.mem a).signature = (fragmented_heap.mem a).signature ∧
        (s'.mem a).signature_end = (fragmented_heap.mem a).signature_end) ∧
      s'.head_frame = fragmented_heap.head_frame ∧
      s'.memory_information = fragmented_heap.memory_information :=
  ⟨by decide,
    C7_consolidate_reference 9 5 fragmented_heap [4096, 4205, 4314, 4423, 5111] (by decide)
      (by decide)⟩

/-- The sweep on the fragmented heap, evaluated: the run `4096, 4205`
collapses into one block of 218 bytes, the occupied block and the free
block after it stay. -/
theorem mconsolidate_fragmented_heap :
    blocks fragmented_heap.mem [4096, 4205, 4314, 4423, 5111] =
      [⟨4096, 109, true⟩, ⟨4205, 109, true⟩, ⟨4314, 109, false⟩, ⟨4423, 688, true⟩] ∧
    (mconsolidate 5 fragmented_heap).map (fun s' => blocks s'.mem [4096, 4314, 4423, 5111]) =
      some [⟨4096, 218, true⟩, ⟨4314, 109, false⟩, ⟨4423, 688, true⟩] := by
  constructor <;> decide


/-! ## `minit` -/

/-- The address `minit` computes for the sentinel, when the region ends
within the address space. -/
theorem sentinel_addr {H a S : Nat} (hH : 0 < H) (hS : H ≤ S) (hend : a + S ≤ 2 ^ 32) :
    sub32 (add32 a S) H = a + S - H := by
  unfold sub32 add32
  rcases Nat.lt_or_ge (a + S) (2 ^ 32) with h | h
  · have hHlt : H < 2 ^ 32 := by omega
    rw [Nat.mod_eq_of_lt h, Nat.mod_eq_of_lt h, Nat.mod_eq_of_lt hHlt]
    have : a + S + 2 ^ 32 - H = (a + S - H) + 2 ^ 32 := by omega
    rw [this, Nat.add_mod_right]
    exact Nat.mod_eq_of_lt (by omega)
  · have heq : a + S = 2 ^ 32 := by omega
    rw [heq, Nat.mod_self, Nat.zero_mod, Nat.zero_add]
    rcases Nat.lt_or_ge H (2 ^ 32) with hlt | hge
    · rw [Nat.mod_eq_of_lt hlt]
      exact Nat.mod_eq_of_lt (by omega)
    · have : H = 2 ^ 32 := by omega
      rw [this]
      simp

/-- Claim C8, as the code has it.  For a non-null `region_start` and a region
of size `S ≥ 2H` ending within the address space, one call of `minit`
yields a well-formed chain of exactly two frames: the head at
`region_start`, free, with both signatures and `next` pointing to the
sentinel, and the sentinel at `region_start + S - H` with `next == null`
and `is_free == false`.  The head block has size `S - H`, hence payload
`S - 2H`; `memory_information` records the head and the size, and no other
record of the memory changes. -/
theorem C8_minit_result (H region_start S : Nat) (s : Heap) (hH : 0 < H)
    (h0 : region_start ≠ 0) (hS : 2 * H ≤ S) (hend : region_start + S ≤ 2 ^ 32) :
    WellFormed H (minit H s region_start S) [region_start, region_start + S - H] ∧
    (minit H s region_start S).head_frame = region_start ∧
    (minit H s region_start S).mem region_start =
      { next := region_start + S - H, is_free := true, signature := 0x4a6b,
        signature_end := 0x79 } ∧
    ((minit H s region_start S).mem (region_start + S - H)).next = 0 ∧
    ((minit H s region_start S).mem (region_start + S - H)).is_free = false ∧
    block_size (minit H s region_start S).mem region_start = S - H ∧
    block_size (minit H s region_start S).mem region_start - H = S - 2 * H ∧
    (minit H s region_start S).memory_information = { head := region_start, size := S } ∧
    (∀ a, a ≠ region_start → a ≠ region_start + S - H →
      (minit H s region_start S).mem a = s.mem a) := by
  have hsen : sub32 (add32 region_start S) H = region_start + S - H :=
    sentinel_addr hH (by omega) hend
  have hne : region_start + S - H ≠ region_start := by omega
  have hne' : region_start ≠ region_start + S - H := fun h => hne h.symm
  have hguard : ¬ (S < H ∨ region_start = 0) := by
    rintro (h | h)
    · omega
    · exact h0 h
  have hhead : (minit H s region_start S).mem region_start =
      { next := region_start + S - H, is_free := true, signature := 0x4a6b,
        signature_end := 0x79 } := by
    simp [minit, hguard, hsen, hne, hne']
  have hsent : (minit H s region_start S).mem (region_start + S - H) =
      { s.mem (region_start + S - H) with next := 0, is_free := false } := by
    simp [minit, hguard, hsen, hne, hne']
  have hother : ∀ a, a ≠ region_start → a ≠ region_start + S - H →
      (minit H s region_start S).mem a = s.mem a := by
    intro a h1 h2
    simp [minit, hguard, hsen, hne, hne', h1, h2]
  have hhf : (minit H s region_start S).head_frame = region_start := by
    simp [minit, hguard]
  have hbs : block_size (minit H s region_start S).mem region_start = S - H := by
    unfold block_size
    rw [hhead]
    show sub32 (region_start + S - H) region_start = S - H
    rw [sub32_of_le (by omega) (by omega)]
    omega
  refine ⟨⟨hH, by rw [hhf]; rfl, ?_⟩, hhf, hhead, by rw [hsent], by rw [hsent], hbs,
    by rw [hbs]; omega, by simp [minit, hguard], hother⟩
  show _ ∧ _ ∧ _ ∧ _ ∧ _ ∧ _ ∧ _
  rw [hhead, hsent]
  exact ⟨by omega, rfl, by omega, by omega, by omega, rfl, rfl⟩

/-- Witness for the amended C8: the scenario region. -/
theorem C8_minit_result_witness :
    WellFormed 9 (minit 9 fresh_heap 4096 1024) [4096, 4096 + 1024 - 9] ∧
    (minit 9 fresh_heap 4096 1024).head_frame = 4096 ∧
    (minit 9 fresh_heap 4096 1024).mem 4096 =
      { next := 4096 + 1024 - 9, is_free := true, signature := 0x4a6b,
        signature_end := 0x79 } ∧
    ((minit 9 fresh_heap 4096 1024).mem (4096 + 1024 - 9)).next = 0 ∧
    ((minit 9 fresh_heap 4096 1024).mem (4096 + 1024 - 9)).is_free = false ∧
    block_size (minit 9 fresh_heap 4096 1024).mem 4096 = 1024 - 9 ∧
    block_size (minit 9 fresh_heap 4096 1024).mem 4096 - 9 = 1024 - 2 * 9 ∧
    (minit 9 fresh_heap 4096 1024).memory_information = { head := 4096, size := 1024 } ∧
    (∀ a, a ≠ 4096 → a ≠ 4096 + 1024 - 9 →
      (minit 9 fresh_heap 4096 1024).mem a = fresh_heap.mem a) :=
  C8_minit_result 9 4096 1024 fresh_heap (by decide) (by decide) (by decide) (by decide)

/-- Counterexample to C8 as stated: with `H = 9` and a region of exactly
`S = H = 9` bytes at the non-null address 4096, `minit` passes its guard,
but the sentinel address `region_start + S - H` is the head address
itself; the head ends up free with `next == null`, there is no frame with
`is_free == false` at the sentinel address, and the chain is not the
two-frame chain. -/
theorem C8_counterexample :
    (4096 ≠ 0 ∧ 9 ≤ 9 ∧ 4096 + 9 ≤ 2 ^ 32) ∧
    (minit 9 fresh_heap 4096 9).head_frame = 4096 ∧
    ¬ WellFormed 9 (minit 9 fresh_heap 4096 9) [4096, 4096 + 9 - 9] ∧
    ((minit 9 fresh_heap 4096 9).mem 4096).next = 0 ∧
    ((minit 9 fresh_heap 4096 9).mem (4096 + 9 - 9)).is_free = true := by
  refine ⟨by decide, by decide, by decide, by decide, by decide⟩


/-- Claim C9 (rejected init, uninitialised heap).  A call of `minit` with
`size < H` or a null `region_start` leaves the whole state as it was: head
pointer, memory and `memory_information`.  While the head pointer is null,
`malloc(n)` returns null for every `n` and changes nothing. -/
theorem C9_rejected_init_uninitialised (H : Nat) (s : Heap) :
    (∀ region_start size, size < H ∨ region_start = 0 →
      minit H s region_start size = s) ∧
    (s.head_frame = 0 → ∀ n fuel, 0 < fuel → malloc H fuel s n = some (s, 0)) := by
  constructor
  · intro region_start size h
    simp [minit, h]
  · intro hnull n fuel hfuel
    obtain ⟨k, rfl⟩ : ∃ k, fuel = k + 1 := ⟨fuel - 1, by omega⟩
    simp [malloc, malloc_loop, hnull]

/-- Witness for C9: an undersized region and a null region on the fresh
heap, then an allocation. -/
theorem C9_rejected_init_uninitialised_witness :
    minit 9 fresh_heap 4096 8 = fresh_heap ∧ minit 9 fresh_heap 0 1024 = fresh_heap ∧
    malloc 9 1 (minit 9 fresh_heap 4096 8) 100 = some (minit 9 fresh_heap 4096 8, 0) :=
  ⟨(C9_rejected_init_uninitialised 9 fresh_heap).1 4096 8 (Or.inl (by decide)),
    (C9_rejected_init_uninitialised 9 fresh_heap).1 0 1024 (Or.inr rfl),
    (C9_rejected_init_uninitialised 9 (minit 9 fresh_heap 4096 8)).2 (by decide) 100 1
      (by decide)⟩

/-! ## Corruption detection in `mfree` -/

/-- Claim C10 (corruption detection).  `mfree(p)` calls `panic()` exactly
when the frame at `p - H` has `signature != 0x4a6b` or
`signature_end != 0x79`.  When it does, the call occurs once, after the
two diagnostic lines (the pointer and the signature read), control does
not come back from `mfree`, and the heap is exactly the one `mfree` was
called on.  When it does not, `mfree` returns and emits nothing. -/
theorem C10_corruption_detection (H : Nat) (s : Heap) (p : Nat) :
    (Event.panic_call ∈ (mfree H s p).log ↔
      ((s.mem (sub32 p H)).signature ≠ 0x4a6b ∨ (s.mem (sub32 p H)).signature_end ≠ 0x79)) ∧
    (Event.panic_call ∈ (mfree H s p).log →
      (mfree H s p).log.count Event.panic_call = 1 ∧
      (mfree H s p).log =
        [Event.serial_println_hex p, Event.serial_println_hex (s.mem (sub32 p H)).signature,
          Event.panic_call] ∧
      (mfree H s p).returned = false ∧ (mfree H s p).heap = s) ∧
    (Event.panic_call ∉ (mfree H s p).log →
      (mfree H s p).returned = true ∧ (mfree H s p).log = []) := by
  by_cases hbad : (s.mem (sub32 p H)).signature ≠ 0x4a6b ∨
      (s.mem (sub32 p H)).signature_end ≠ 0x79
  · have hres : mfree H s p = panic s [Event.serial_println_hex p,
        Event.serial_println_hex (s.mem (sub32 p H)).signature] := by
      unfold mfree
      simp only [if_pos hbad]
    have hmem : Event.panic_call ∈ (mfree H s p).log := by
      rw [hres]; simp [panic]
    refine ⟨⟨fun _ => hbad, fun _ => hmem⟩, fun _ => ?_, fun h => absurd hmem h⟩
    rw [hres]
    refine ⟨?_, rfl, rfl, rfl⟩
    simp [panic, List.count_cons]
  · have hlog : (mfree H s p).returned = true ∧ (mfree H s p).log = [] := by
      unfold mfree
      simp only [if_neg hbad]
      split
      · exact ⟨rfl, rfl⟩
      · split
        · exact ⟨rfl, rfl⟩
        · split <;> exact ⟨rfl, rfl⟩
    have hnot : Event.panic_call ∉ (mfree H s p).log := by
      rw [hlog.2]; simp
    exact ⟨⟨fun h => absurd h hnot, fun h => absurd h hbad⟩, fun h => absurd h hnot,
      fun _ => hlog⟩

/-- Witness for C10: freeing the block of `corrupted_heap`, whose header
signature was overwritten, and freeing the intact block of
`allocated_heap`. -/
theorem C10_corruption_detection_witness :
    ((mfree 9 corrupted_heap 4105).log.count Event.panic_call = 1 ∧
      (mfree 9 corrupted_heap 4105).log =
        [Event.serial_println_hex 4105,
          Event.serial_println_hex (corrupted_heap.mem (sub32 4105 9)).signature,
          Event.panic_call] ∧
      (mfree 9 corrupted_heap 4105).returned = false ∧
      (mfree 9 corrupted_heap 4105).heap = corrupted_heap) ∧
    ((mfree 9 allocated_heap 4105).returned = true ∧ (mfree 9 allocated_heap 4105).log = []) :=
  ⟨(C10_corruption_detection 9 corrupted_heap 4105).2.1
      ((C10_corruption_detection 9 corrupted_heap 4105).1.mpr (Or.inl (by decide))),
    (C10_corruption_detection 9 allocated_heap 4105).2.2
      (fun h => absurd ((C10_corruption_detection 9 allocated_heap 4105).1.mp h) (by decide))⟩


/-! ## Double free and the effect of `mfree` -/

/-- On a frame with both signatures that is already free, `mfree` does
nothing at all. -/
theorem mfree_of_free {H p : Nat} {s : Heap} (hsig : valid_signatures (s.mem (sub32 p H)))
    (hfree : (s.mem (sub32 p H)).is_free = true) :
    mfree H s p = { heap := s, log := [], returned := true } := by
  simp [mfree, hsig.1, hsig.2, hfree]

/-- After `mfree` has returned from a frame with valid signatures, that
frame is free and still carries both signatures. -/
theorem mfree_leaves_free {H p : Nat} {s : Heap}
    (hsig : valid_signatures (s.mem (sub32 p H))) :
    valid_signatures ((mfree H s p).heap.mem (sub32 p H)) ∧
      ((mfree H s p).heap.mem (sub32 p H)).is_free = true ∧
      (mfree H s p).returned = true ∧ (mfree H s p).log = [] := by
  have h1 := hsig.1
  have h2 := hsig.2
  unfold mfree
  simp only [h1, h2, ne_eq, not_true_eq_false, or_self, if_false]
  split
  · rename_i hfree
    exact ⟨hsig, hfree, rfl, rfl⟩
  · split
    · refine ⟨?_, ?_, rfl, rfl⟩ <;> simp [valid_signatures, h1, h2]
    · split
      · refine ⟨?_, ?_, rfl, rfl⟩ <;> simp [valid_signatures, h1, h2]
      · refine ⟨?_, ?_, rfl, rfl⟩ <;> simp [valid_signatures, h1, h2]

/-- Claim C11 (immediate double free).  If the frame at `p - H` has valid
signatures and `is_free == true`, `mfree(p)` returns without output and
leaves the heap exactly as it was.  Consequently, for every heap and every
pointer `p`, a second `mfree(p)` right after the first leaves the heap the
first call left, and when the frame at `p - H` has valid signatures (as the
occupied blocks of a chain have) both calls return without output. -/
theorem C11_double_free_noop (H : Nat) (s : Heap) (p : Nat) :
    (valid_signatures (s.mem (sub32 p H)) → (s.mem (sub32 p H)).is_free = true →
      (mfree H s p).heap = s ∧ (mfree H s p).returned = true ∧ (mfree H s p).log = []) ∧
    (mfree H (mfree H s p).heap p).heap = (mfree H s p).heap ∧
    (valid_signatures (s.mem (sub32 p H)) →
      (mfree H s p).returned = true ∧ (mfree H s p).log = [] ∧
      (mfree H (mfree H s p).heap p).returned = true ∧
      (mfree H (mfree H s p).heap p).log = []) := by
  refine ⟨fun hsig hfree => ?_, ?_, fun hsig => ?_⟩
  · rw [mfree_of_free hsig hfree]
    exact ⟨rfl, rfl, rfl⟩
  · by_cases hsig : valid_signatures (s.mem (sub32 p H))
    · obtain ⟨h1, h2, -, -⟩ := mfree_leaves_free hsig
      rw [mfree_of_free h1 h2]
    · have hbad : (s.mem (sub32 p H)).signature ≠ 0x4a6b ∨
          (s.mem (sub32 p H)).signature_end ≠ 0x79 := by
        by_contra hcon
        push_neg at hcon
        exact hsig hcon
      have hres : mfree H s p = panic s [Event.serial_println_hex p,
          Event.serial_println_hex (s.mem (sub32 p H)).signature] := by
        unfold mfree
        simp only [if_pos hbad]
      have hheap : (mfree H s p).heap = s := by rw [hres]; rfl
      rw [hheap, hheap]
  · obtain ⟨h1, h2, h3, h4⟩ := mfree_leaves_free hsig
    rw [mfree_of_free h1 h2]
    exact ⟨h3, h4, rfl, rfl⟩

/-- Witness for C11: the free head frame of the scenario heap, and the
occupied block of `allocated_heap` freed twice. -/
theorem C11_double_free_noop_witness :
    ((mfree 9 example_heap 4105).heap = example_heap ∧
      (mfree 9 example_heap 4105).returned = true ∧ (mfree 9 example_heap 4105).log = []) ∧
    (mfree 9 (mfree 9 allocated_heap 4105).heap 4105).heap =
      (mfree 9 allocated_heap 4105).heap ∧
    ((mfree 9 allocated_heap 4105).returned = true ∧ (mfree 9 allocated_heap 4105).log = [] ∧
      (mfree 9 (mfree 9 allocated_heap 4105).heap 4105).returned = true ∧
      (mfree 9 (mfree 9 allocated_heap 4105).heap 4105).log = []) :=
  ⟨(C11_double_free_noop 9 example_heap 4105).1 (by decide) (by decide),
    (C11_double_free_noop 9 allocated_heap 4105).2.1,
    (C11_double_free_noop 9 allocated_heap 4105).2.2 (by decide)⟩


theorem getLast?_append_cons_cons {α : Type} (pre : List α) (f g : α) (t : List α) (x : α) :
    (pre ++ f :: x :: g :: t).getLast? = (pre ++ f :: g :: t).getLast? := by
  simp [List.getLast?_append, List.getLast?_cons_cons]

theorem getLast?_append_skip {α : Type} (pre : List α) (f g k : α) (t : List α) :
    (pre ++ f :: k :: t).getLast? = (pre ++ f :: g :: k :: t).getLast? := by
  simp [List.getLast?_append, List.getLast?_cons_cons]

/-- What `mfree(p)` does on an occupied, signed frame `f = p - H` of a
well-formed chain with successor `g`: it returns without output; if `g` is
free, `f` becomes free and takes over `g.next`, and `g` leaves the chain;
otherwise only the flag of `f` changes. -/
theorem mfree_occupied_spec {H p f g : Nat} {s : Heap} {pre rest : List Nat}
    (hwf : WellFormed H s (pre ++ f :: g :: rest)) (hp : sub32 p H = f)
    (hocc : (s.mem f).is_free = false) (hsig : valid_signatures (s.mem f)) :
    ((s.mem g).is_free = true ∧ rest ≠ [] ∧
      mfree H s p =
        { heap := { s with mem := set_next (set_is_free s.mem f true) f (s.mem g).next }
          log := [], returned := true } ∧
      WellFormed H { s with mem := set_next (set_is_free s.mem f true) f (s.mem g).next }
        (pre ++ f :: rest)) ∨
    ((s.mem g).is_free = false ∧
      mfree H s p = { heap := { s with mem := set_is_free s.mem f true }
                      log := [], returned := true } ∧
      WellFormed H { s with mem := set_is_free s.mem f true } (pre ++ f :: g :: rest)) := by
  have hH := hwf.1
  have hc : IsChain H s.mem (pre ++ f :: g :: rest) := hwf.2.2
  obtain ⟨hnext, hfg, hprelt, hpostlt, hfgc⟩ := hc.split_bounds
  have hgb := hfgc.tail.bounds g (List.mem_cons_self _ _)
  have hg0 : g ≠ 0 := by omega
  have hgf : g ≠ f := by omega
  by_cases hg : (s.mem g).is_free = true
  · left
    cases rest with
    | nil =>
      have := hfgc.tail.2.2.2
      rw [hg] at this
      exact Bool.noConfusion this
    | cons k post =>
      have hgk : (s.mem g).next = k := hfgc.tail.2.1
      have hgk' : g + H ≤ k := hfgc.tail.2.2.1
      rw [hgk]
      have hmf : set_next (set_is_free s.mem f true) f k f =
          { s.mem f with is_free := true, next := k } := by simp
      have hmo : ∀ a, a ≠ f → set_next (set_is_free s.mem f true) f k a = s.mem a := by
        intro a ha; simp [ha]
      have hktail : IsChain H (set_next (set_is_free s.mem f true) f k) (k :: post) := by
        refine IsChain.congr (fun z hz => hmo z ?_) hfgc.tail.tail
        have := IsChain.head_le hfgc.tail.tail z hz
        omega
      have hfk : IsChain H (set_next (set_is_free s.mem f true) f k) (f :: k :: post) :=
        ⟨hfgc.1, by rw [hmf], by omega, hktail⟩
      refine ⟨hg, by simp, ?_, hH, ?_, ?_⟩
      · simp [mfree, hp, hsig.1, hsig.2, hocc, hnext, hg0, hgf, hg, hgk]
      · show (pre ++ f :: k :: post).head? = some s.head_frame
        rw [← hwf.2.1]
        exact head?_append_cons pre f _ _
      · exact IsChain.replace_tail hc hfk (fun z hz => hmo z (by have := hprelt z hz; omega))
  · right
    have hg' : (s.mem g).is_free = false := by simpa using hg
    have hmf : set_is_free s.mem f true f = { s.mem f with is_free := true } := by simp
    have hmo : ∀ a, a ≠ f → set_is_free s.mem f true a = s.mem a := by
      intro a ha; simp [ha]
    have hgtail : IsChain H (set_is_free s.mem f true) (g :: rest) := by
      refine IsChain.congr (fun z hz => hmo z ?_) hfgc.tail
      have := IsChain.head_le hfgc.tail z hz
      omega
    have hfgc' : IsChain H (set_is_free s.mem f true) (f :: g :: rest) :=
      ⟨hfgc.1, by rw [hmf]; exact hnext, hfg, hgtail⟩
    refine ⟨hg', ?_, hH, hwf.2.1, ?_⟩
    · simp [mfree, hp, hsig.1, hsig.2, hocc, hnext, hg0, hgf, hg']
    · exact IsChain.replace_tail hc hfgc' (fun z hz => hmo z (by have := hprelt z hz; omega))


/-! ## Idempotence of `mconsolidate` -/

/-- On a chain without two adjacent free frames the sweep changes
nothing. -/
theorem mconsolidate_loop_fixed {H : Nat} :
    ∀ (fuel : Nat) {mem : Nat → nov_memory_frame} {x : Nat} {l : List Nat},
      IsChain H mem (x :: l) → (x :: l).length ≤ fuel →
      (∀ f ∈ x :: l, (mem f).is_free = true → (mem (mem f).next).is_free = false) →
      mconsolidate_loop fuel mem x = some mem
  | 0, _, _, _, _, hf, _ => by simp at hf
  | fuel + 1, mem, x, [], hc, _, _ => by
    simp [mconsolidate_loop, hc.2.2.1]
  | fuel + 1, mem, x, y :: rest, hc, hf, hadj => by
    have hx0 : x ≠ 0 := Nat.pos_iff_ne_zero.mp hc.1
    have hnext : (mem x).next = y := hc.2.1
    have hy0 : y ≠ 0 := Nat.pos_iff_ne_zero.mp (hc.bounds y (by simp)).1
    have ih := mconsolidate_loop_fixed fuel hc.tail (by simp at hf ⊢; omega)
      (fun f hfm => hadj f (List.mem_cons_of_mem _ hfm))
    by_cases hxf : (mem x).is_free = false
    · simp [mconsolidate_loop, hx0, hnext, hy0, hxf, ih]
    · have hxf' : (mem x).is_free = true := by simpa using hxf
      have hyf : (mem y).is_free = false := by
        have := hadj x (List.mem_cons_self _ _) hxf'
        rw [hnext] at this
        exact this
      simp [mconsolidate_loop, hx0, hnext, hy0, hxf', hyf, ih]

/-- Claim C16 (consolidation is idempotent).  On a well-formed chain a
second `mconsolidate()` right after the first returns the heap the first
one left; and on a well-formed chain in which no frame is free together
with the frame its `next` points to, `mconsolidate()` is the identity. -/
theorem C16_consolidate_idempotent (H fuel : Nat) (s : Heap) (l : List Nat)
    (hwf : WellFormed H s l) (hfuel : l.length ≤ fuel) :
    (∃ s', mconsolidate fuel s = some s' ∧ mconsolidate fuel s' = some s' ∧
      (mconsolidate fuel s).bind (mconsolidate fuel) = mconsolidate fuel s) ∧
    ((∀ f ∈ l, ¬ ((s.mem f).is_free = true ∧ (s.mem (s.mem f).next).is_free = true)) →
      mconsolidate fuel s = some s) := by
  obtain ⟨t, rfl⟩ := hwf.eq_cons
  constructor
  · obtain ⟨mem', l', hres, hch, -, -, hadj, -, -, -, hsub, -⟩ :=
      mconsolidate_loop_spec hwf.1 fuel hwf.2.2 hfuel
    have hlen : (s.head_frame :: l').length ≤ fuel := by
      have := hsub.length_le
      simp only [List.length_cons] at hfuel ⊢
      omega
    have hfix := mconsolidate_loop_fixed fuel hch hlen hadj
    have h1 : mconsolidate fuel s = some { s with mem := mem' } := by
      simp [mconsolidate, hres]
    have h2 : mconsolidate fuel { s with mem := mem' } = some { s with mem := mem' } := by
      simp [mconsolidate, hfix]
    exact ⟨_, h1, h2, by rw [h1]; exact h2⟩
  · intro hadj
    have hfix := mconsolidate_loop_fixed fuel hwf.2.2 hfuel (fun f hf hff => by
      by_cases h : (s.mem (s.mem f).next).is_free = true
      · exact absurd ⟨hff, h⟩ (hadj f hf)
      · simpa using h)
    simp [mconsolidate, hfix]

/-- Witness for C16: the fragmented heap, and the scenario heap, which has
no two adjacent free frames. -/
theorem C16_consolidate_idempotent_witness :
    (∃ s', mconsolidate 5 fragmented_heap = some s' ∧ mconsolidate 5 s' = some s' ∧
      (mconsolidate 5 fragmented_heap).bind (mconsolidate 5) =
        mconsolidate 5 fragmented_heap) ∧
    mconsolidate 3 allocated_heap = some allocated_heap :=
  ⟨(C16_consolidate_idempotent 9 5 fragmented_heap [4096, 4205, 4314, 4423, 5111]
      (by decide) (by decide)).1,
    (C16_consolidate_idempotent 9 3 allocated_heap [4096, 4205, 5111] (by decide)
      (by decide)).2 (by decide)⟩


/-! ## The invariant of sequences of calls -/

/-- The last frame of a chain is the sentinel: `next == null` and
`is_free == false`. -/
theorem IsChain.last_sentinel {H : Nat} {mem : Nat → nov_memory_frame} :
    ∀ {l : List Nat} {e : Nat}, IsChain H mem l → l.getLast? = some e →
      (mem e).next = 0 ∧ (mem e).is_free = false
  | [], _, h, _ => absurd h (by simp [IsChain])
  | [x], e, h, he => by
    simp only [List.getLast?_singleton, Option.some.injEq] at he
    subst he
    exact ⟨h.2.2.1, h.2.2.2⟩
  | x :: y :: rest, e, h, he => by
    rw [List.getLast?_cons_cons] at he
    exact IsChain.last_sentinel h.tail he

/-- A frame of a chain whose `next` is null is the last one. -/
theorem IsChain.last_of_next_zero {H : Nat} {mem : Nat → nov_memory_frame} :
    ∀ {l : List Nat} {f : Nat}, IsChain H mem l → f ∈ l → (mem f).next = 0 →
      l.getLast? = some f
  | [], _, h, _, _ => absurd h (by simp [IsChain])
  | [x], f, _, hf, _ => by
    simp only [List.mem_singleton] at hf
    subst hf
    rfl
  | x :: y :: rest, f, h, hf, hz => by
    rw [List.getLast?_cons_cons]
    rcases List.mem_cons.mp hf with rfl | hf'
    · have h1 := h.2.1
      have h2 := (h.tail.bounds y (List.mem_cons_self _ _)).1
      omega
    · exact IsChain.last_of_next_zero h.tail hf' hz

/-- A frame of a chain whose `next` is not null has a successor in the
chain. -/
theorem IsChain.decompose {H : Nat} {mem : Nat → nov_memory_frame} :
    ∀ {l : List Nat} {f : Nat}, IsChain H mem l → f ∈ l → (mem f).next ≠ 0 →
      ∃ pre g rest, l = pre ++ f :: g :: rest
  | [], _, h, _, _ => absurd h (by simp [IsChain])
  | [x], f, h, hf, hz => by
    simp only [List.mem_singleton] at hf
    subst hf
    exact absurd h.2.2.1 hz
  | x :: y :: rest, f, h, hf, hz => by
    rcases List.mem_cons.mp hf with rfl | hf'
    · exact ⟨[], y, rest, rfl⟩
    · obtain ⟨pre, g, r, hl⟩ := IsChain.decompose h.tail hf' hz
      exact ⟨x :: pre, g, r, by rw [hl]; rfl⟩

/-- The chain from `x` to its last frame `e` has at most `e - x` further
frames. -/
theorem IsChain.length_le {H : Nat} {mem : Nat → nov_memory_frame} (hH : 0 < H) :
    ∀ {l : List Nat} {x e : Nat}, IsChain H mem (x :: l) → (x :: l).getLast? = some e →
      x + l.length ≤ e
  | [], x, e, _, he => by
    simp only [List.getLast?_singleton, Option.some.injEq] at he
    simp [he]
  | y :: rest, x, e, h, he => by
    rw [List.getLast?_cons_cons] at he
    have ih := IsChain.length_le hH h.tail he
    have := h.2.2.1
    simp only [List.length_cons]
    omega

/-- The addresses of a chain increase strictly. -/
theorem IsChain.pairwise_lt {H : Nat} {mem : Nat → nov_memory_frame} (hH : 0 < H) :
    ∀ {l : List Nat}, IsChain H mem l → l.Pairwise (· < ·)
  | [], _ => List.Pairwise.nil
  | [x], _ => List.pairwise_singleton _ _
  | x :: y :: rest, h => by
    refine List.Pairwise.cons (fun z hz => ?_) (IsChain.pairwise_lt hH h.tail)
    have := h.lt_tail z hz
    omega

/-- Every block of a chain has at least the size of a header, and the
sizes add up to the distance from the first frame to the last. -/
theorem IsChain.blocks_sizes {H : Nat} {mem : Nat → nov_memory_frame} (hH : 0 < H) :
    ∀ {l : List Nat} {x e : Nat}, IsChain H mem (x :: l) → (x :: l).getLast? = some e →
      (∀ b ∈ blocks mem (x :: l), H ≤ b.size) ∧
      ((blocks mem (x :: l)).map fun b => b.size).sum = e - x ∧ x ≤ e
  | [], x, e, _, he => by
    simp only [List.getLast?_singleton, Option.some.injEq] at he
    simp [blocks, he]
  | y :: rest, x, e, h, he => by
    rw [List.getLast?_cons_cons] at he
    obtain ⟨ih1, ih2, ih3⟩ := IsChain.blocks_sizes hH h.tail he
    have hxy := h.2.2.1
    have hbs := block_size_chain hH h
    refine ⟨?_, ?_, by omega⟩
    · intro b hb
      simp only [blocks, List.mem_cons] at hb
      rcases hb with rfl | hb
      · show H ≤ block_size mem x
        rw [hbs]; omega
      · exact ih1 b hb
    · simp only [blocks, List.map_cons, List.sum_cons]
      rw [hbs, ih2]
      omega

theorem getLast?_mem_tail {α : Type} (pre : List α) (f g : α) (t : List α) {e : α}
    (h : (pre ++ f :: g :: t).getLast? = some e) : e ∈ g :: t := by
  have h' : (g :: t).getLast? = some e := by
    simpa [List.getLast?_append, List.getLast?_cons_cons] using h
  exact List.mem_of_getLast?_eq_some h'


/-- The state `minit` leaves on a region of at least two headers. -/
theorem minit_spec {H a S : Nat} (s : Heap) (hH : 0 < H) (h0 : a ≠ 0) (hS : 2 * H ≤ S)
    (hend : a + S ≤ 2 ^ 32) :
    (minit H s a S).head_frame = a ∧
    (minit H s a S).mem a =
      { next := a + S - H, is_free := true, signature := 0x4a6b, signature_end := 0x79 } ∧
    (minit H s a S).mem (a + S - H) = { s.mem (a + S - H) with next := 0, is_free := false } ∧
    WellFormed H (minit H s a S) [a, a + S - H] := by
  have hsen : sub32 (add32 a S) H = a + S - H := sentinel_addr hH (by omega) hend
  have hne : a + S - H ≠ a := by omega
  have hne' : a ≠ a + S - H := fun h => hne h.symm
  have hguard : ¬ (S < H ∨ a = 0) := by
    rintro (h | h)
    · omega
    · exact h0 h
  have hhead : (minit H s a S).mem a =
      { next := a + S - H, is_free := true, signature := 0x4a6b, signature_end := 0x79 } := by
    simp [minit, hguard, hsen, hne, hne']
  have hsent : (minit H s a S).mem (a + S - H) =
      { s.mem (a + S - H) with next := 0, is_free := false } := by
    simp [minit, hguard, hsen, hne, hne']
  have hhf : (minit H s a S).head_frame = a := by
    simp [minit, hguard]
  refine ⟨hhf, hhead, hsent, hH, by rw [hhf]; rfl, ?_⟩
  show _ ∧ _ ∧ _ ∧ _ ∧ _ ∧ _ ∧ _
  rw [hhead, hsent]
  exact ⟨by omega, rfl, by omega, by omega, by omega, rfl, rfl⟩

/-- The invariant holds right after `minit`. -/
theorem Inv_minit {H a S : Nat} (s : Heap) (hH : 0 < H) (h0 : a ≠ 0) (hS : 2 * H ≤ S)
    (hend : a + S ≤ 2 ^ 32) :
    Inv H a S { s.mem (a + S - H) with next := 0, is_free := false }
      { heap := minit H s a S, live := [] } := by
  obtain ⟨hhf, hhead, hsent, hwf⟩ := minit_spec s hH h0 hS hend
  refine ⟨[a, a + S - H], hwf, hhf, rfl, hsent, ?_, ?_⟩
  · intro f hf hnz
    simp only [List.mem_cons, List.mem_singleton, List.not_mem_nil, or_false] at hf
    rcases hf with rfl | rfl
    · show valid_signatures ((minit H s f S).mem f)
      rw [hhead]
      exact ⟨rfl, rfl⟩
    · exfalso
      apply hnz
      show ((minit H s a S).mem (a + S - H)).next = 0
      rw [hsent]
  · intro q hq
    simp at hq

/-- The invariant survives a `malloc` with `n + 2H < 2^32`, which
returns when the fuel exceeds the length of the chain. -/
theorem Inv_malloc {H a S n fuel : Nat} {r0 : nov_memory_frame} {t : Tracked}
    (hinv : Inv H a S r0 t) (hn : n + 2 * H < 2 ^ 32) (hS : H ≤ S) (hfuel : S < fuel) :
    ∃ t', step H fuel t (Op.malloc n) = Outcome.ok t' ∧ Inv H a S r0 t' := by
  obtain ⟨l, hwf, hhead, hlast, hsen, hsig, hlive⟩ := hinv
  have hH := hwf.1
  have hlen : l.length < fuel := by
    obtain ⟨tl, rfl⟩ := hwf.eq_cons
    have := IsChain.length_le hH hwf.2.2 hlast
    simp only [List.length_cons]
    omega
  rcases malloc_spec hwf hn hlen with ⟨hres, -⟩ | ⟨pre, f, g, post, hl, -, hfit, hres, hwf'⟩
  · refine ⟨t, ?_, l, hwf, hhead, hlast, hsen, hsig, hlive⟩
    rw [step, if_pos hn, hres]
    simp
  · subst hl
    have hc : IsChain H t.heap.mem (pre ++ f :: g :: post) := hwf.2.2
    obtain ⟨hnext, hfg, hprelt, hpostlt, hfgc⟩ := hc.split_bounds
    have hnotin := split_addr_not_mem hH hc hfit
    have hne : f ≠ f + H + n := by omega
    have hgb := hfgc.tail.bounds g (List.mem_cons_self _ _)
    have hp0 : f + H ≠ 0 := by omega
    have hsub : ∀ x ∈ pre ++ f :: g :: post, x ∈ pre ++ f :: (f + H + n) :: g :: post := by
      intro x hx
      simp only [List.mem_append, List.mem_cons] at hx ⊢
      tauto
    have hother : ∀ x ∈ pre ++ f :: g :: post, x ≠ f →
        split_mem t.heap.mem f (f + H + n) g x = t.heap.mem x := fun x hx hxf =>
      split_mem_other hxf (fun h => hnotin (h ▸ hx))
    refine ⟨{ heap := { t.heap with mem := split_mem t.heap.mem f (f + H + n) g },
              live := (f + H, n) :: t.live }, ?_, pre ++ f :: (f + H + n) :: g :: post,
      hwf', hhead, ?_, ?_, ?_, ?_⟩
    · rw [step, if_pos hn, hres]
      simp [hp0]
    · rw [getLast?_append_cons_cons]; exact hlast
    · have hmem := getLast?_mem_tail pre f g post hlast
      have hge := IsChain.head_le hfgc.tail _ hmem
      show split_mem t.heap.mem f (f + H + n) g (a + S - H) = r0
      rw [split_mem_other (by omega) (fun h => hnotin (by
        rw [← h]; simp only [List.mem_append, List.mem_cons] at hmem ⊢; tauto))]
      exact hsen
    · intro x hx hnz
      show valid_signatures (split_mem t.heap.mem f (f + H + n) g x)
      by_cases hxn : x = f + H + n
      · rw [hxn, split_mem_new hne]
        exact ⟨rfl, rfl⟩
      · by_cases hxf : x = f
        · rw [hxf, split_mem_cur hne]
          have := hsig f (by simp) (by rw [hnext]; omega)
          exact ⟨this.1, this.2⟩
        · have hxl : x ∈ pre ++ f :: g :: post := by
            simp only [List.mem_append, List.mem_cons] at hx ⊢
            tauto
          have hnz' : (split_mem t.heap.mem f (f + H + n) g x).next ≠ 0 := hnz
          rw [hother x hxl hxf] at hnz' ⊢
          exact hsig x hxl hnz'
    · intro q hq
      rcases List.mem_cons.mp hq with rfl | hq'
      · refine ⟨f, by simp, rfl, ?_, ?_⟩
        · show (split_mem t.heap.mem f (f + H + n) g f).is_free = false
          rw [split_mem_cur hne]
        · show (split_mem t.heap.mem f (f + H + n) g f).next = f + H + n
          rw [split_mem_cur hne]
      · obtain ⟨fq, hfq, hq1, hq2, hq3⟩ := hlive q hq'
        have hfqf : fq ≠ f := fun h => by
          rw [h, hfit.1] at hq2
          exact Bool.noConfusion hq2
        refine ⟨fq, hsub fq hfq, hq1, ?_, ?_⟩
        · show (split_mem t.heap.mem f (f + H + n) g fq).is_free = false
          rw [hother fq hfq hfqf]; exact hq2
        · show (split_mem t.heap.mem f (f + H + n) g fq).next = _
          rw [hother fq hfq hfqf]; exact hq3


/-- The invariant survives `mfree` of an outstanding pointer, which
returns. -/
theorem Inv_mfree {H a S p fuel : Nat} {r0 : nov_memory_frame} {t : Tracked}
    (hinv : Inv H a S r0 t) (hp : p ∈ t.live.map Prod.fst) :
    ∃ t', step H fuel t (Op.mfree p) = Outcome.ok t' ∧ Inv H a S r0 t' := by
  obtain ⟨l, hwf, hhead, hlast, hsen, hsig, hlive⟩ := hinv
  have hH := hwf.1
  obtain ⟨q, hq, hqp⟩ := List.mem_map.mp hp
  obtain ⟨f, hfl, hq1, hocc, hnx⟩ := hlive q hq
  have hpf : p = f + H := by rw [← hqp, hq1]
  have hnz : (t.heap.mem f).next ≠ 0 := by rw [hnx, hq1]; omega
  obtain ⟨pre, g, rest, hl⟩ := IsChain.decompose hwf.2.2 hfl hnz
  subst hl
  have hc : IsChain H t.heap.mem (pre ++ f :: g :: rest) := hwf.2.2
  obtain ⟨hnext, hfg, hprelt, hpostlt, hfgc⟩ := hc.split_bounds
  have hgb := hfgc.tail.bounds g (List.mem_cons_self _ _)
  have hsub32 : sub32 p H = f := by
    rw [hpf, sub32_of_le (by omega) (by omega)]
    omega
  have hfsig := hsig f hfl hnz
  have hsenmem := getLast?_mem_tail pre f g rest hlast
  have hsenge := IsChain.head_le hfgc.tail _ hsenmem
  have hsenf : a + S - H ≠ f := by omega
  -- the entries that stay outstanding belong to frames other than `f`
  have hstay : ∀ q' ∈ t.live.filter (fun q => q.1 ≠ p),
      ∃ f' ∈ pre ++ f :: g :: rest, f' ≠ f ∧ q'.1 = f' + H ∧
        (t.heap.mem f').is_free = false ∧ (t.heap.mem f').next = q'.1 + q'.2 := by
    intro q' hq'
    obtain ⟨hq'l, hq'p⟩ := List.mem_filter.mp hq'
    have hq'p' : q'.1 ≠ p := by simpa using hq'p
    obtain ⟨f', hf'l, h1, h2, h3⟩ := hlive q' hq'l
    exact ⟨f', hf'l, fun h => hq'p' (by rw [h1, h, hpf]), h1, h2, h3⟩
  rcases mfree_occupied_spec hwf hsub32 hocc hfsig with
    ⟨hgfree, hrest, hres, hwf'⟩ | ⟨hgocc, hres, hwf'⟩
  · -- forward merge: `g` leaves the chain
    have hmo : ∀ x, x ≠ f →
        set_next (set_is_free t.heap.mem f true) f (t.heap.mem g).next x = t.heap.mem x := by
      intro x hx; simp [hx]
    have hmf : set_next (set_is_free t.heap.mem f true) f (t.heap.mem g).next f =
        { t.heap.mem f with is_free := true, next := (t.heap.mem g).next } := by simp
    obtain ⟨k, post, rfl⟩ : ∃ k post, rest = k :: post := by
      cases rest with
      | nil => exact absurd rfl hrest
      | cons k post => exact ⟨k, post, rfl⟩
    refine ⟨{ heap := { t.heap with
                mem := set_next (set_is_free t.heap.mem f true) f (t.heap.mem g).next },
              live := t.live.filter fun q => q.1 ≠ p }, ?_, pre ++ f :: k :: post, hwf', hhead,
      ?_, ?_, ?_, ?_⟩
    · rw [step, if_pos hp, hres]
      simp
    · rw [getLast?_append_skip pre f g k post]; exact hlast
    · show set_next (set_is_free t.heap.mem f true) f (t.heap.mem g).next (a + S - H) = r0
      rw [hmo _ hsenf]; exact hsen
    · intro x hx hxnz
      show valid_signatures (set_next (set_is_free t.heap.mem f true) f (t.heap.mem g).next x)
      by_cases hxf : x = f
      · rw [hxf, hmf]
        exact ⟨hfsig.1, hfsig.2⟩
      · have hxnz' : (set_next (set_is_free t.heap.mem f true) f
            (t.heap.mem g).next x).next ≠ 0 := hxnz
        rw [hmo x hxf] at hxnz' ⊢
        refine hsig x ?_ hxnz'
        simp only [List.mem_append, List.mem_cons] at hx ⊢
        tauto
    · intro q' hq'
      obtain ⟨f', hf'l, hf'f, h1, h2, h3⟩ := hstay q' hq'
      have hf'g : f' ≠ g := fun h => by
        rw [h, hgfree] at h2
        exact Bool.noConfusion h2
      refine ⟨f', ?_, h1, ?_, ?_⟩
      · simp only [List.mem_append, List.mem_cons] at hf'l ⊢
        tauto
      · show (set_next (set_is_free t.heap.mem f true) f (t.heap.mem g).next f').is_free = _
        rw [hmo f' hf'f]; exact h2
      · show (set_next (set_is_free t.heap.mem f true) f (t.heap.mem g).next f').next = _
        rw [hmo f' hf'f]; exact h3
  · -- no merge: only the flag of `f` changes
    have hmo : ∀ x, x ≠ f → set_is_free t.heap.mem f true x = t.heap.mem x := by
      intro x hx; simp [hx]
    have hmf : set_is_free t.heap.mem f true f = { t.heap.mem f with is_free := true } := by
      simp
    refine ⟨{ heap := { t.heap with mem := set_is_free t.heap.mem f true },
              live := t.live.filter fun q => q.1 ≠ p }, ?_, pre ++ f :: g :: rest, hwf', hhead,
      hlast, ?_, ?_, ?_⟩
    · rw [step, if_pos hp, hres]
      simp
    · show set_is_free t.heap.mem f true (a + S - H) = r0
      rw [hmo _ hsenf]; exact hsen
    · intro x hx hxnz
      show valid_signatures (set_is_free t.heap.mem f true x)
      by_cases hxf : x = f
      · rw [hxf, hmf]
        exact ⟨hfsig.1, hfsig.2⟩
      · have hxnz' : (set_is_free t.heap.mem f true x).next ≠ 0 := hxnz
        rw [hmo x hxf] at hxnz' ⊢
        exact hsig x hx hxnz'
    · intro q' hq'
      obtain ⟨f', hf'l, hf'f, h1, h2, h3⟩ := hstay q' hq'
      refine ⟨f', hf'l, h1, ?_, ?_⟩
      · show (set_is_free t.heap.mem f true f').is_free = _
        rw [hmo f' hf'f]; exact h2
      · show (set_is_free t.heap.mem f true f').next = _
        rw [hmo f' hf'f]; exact h3

/-- The invariant survives `mconsolidate`, which returns when the fuel
exceeds the length of the chain. -/
theorem Inv_mconsolidate {H a S fuel : Nat} {r0 : nov_memory_frame} {t : Tracked}
    (hinv : Inv H a S r0 t) (hS : H ≤ S) (hfuel : S < fuel) :
    ∃ t', step H fuel t Op.mconsolidate = Outcome.ok t' ∧ Inv H a S r0 t' := by
  obtain ⟨l, hwf, hhead, hlast, hsen, hsig, hlive⟩ := hinv
  have hH := hwf.1
  obtain ⟨tl, rfl⟩ := hwf.eq_cons
  have hlen : (t.heap.head_frame :: tl).length ≤ fuel := by
    have := IsChain.length_le hH hwf.2.2 hlast
    simp only [List.length_cons]
    omega
  obtain ⟨mem', l', hres, hch, -, hlast', -, hflag, hocc, -, hsub, hkeep, -⟩ :=
    mconsolidate_loop_spec hH fuel hwf.2.2 hlen
  have hsenocc := (IsChain.last_sentinel hwf.2.2 hlast).2
  refine ⟨{ heap := { t.heap with mem := mem' }, live := t.live }, ?_,
    t.heap.head_frame :: l', ⟨hH, rfl, hch⟩, hhead, by rw [hlast', hlast], ?_, ?_, ?_⟩
  · simp [step, mconsolidate, hres]
  · show mem' (a + S - H) = r0
    rw [hocc _ hsenocc]; exact hsen
  · intro x hx hxnz
    have hxl : x ∈ t.heap.head_frame :: tl := (hsub.cons₂ _).subset hx
    have hxnz' : (mem' x).next ≠ 0 := hxnz
    have hnz : (t.heap.mem x).next ≠ 0 := by
      intro hz
      have hxlast := IsChain.last_of_next_zero hwf.2.2 hxl hz
      have hxocc := (IsChain.last_sentinel hwf.2.2 hxlast).2
      rw [hocc x hxocc] at hxnz'
      exact hxnz' hz
    have := hsig x hxl hnz
    obtain ⟨-, h2, h3⟩ := hflag x
    exact ⟨by show (mem' x).signature = _; rw [h2]; exact this.1,
      by show (mem' x).signature_end = _; rw [h3]; exact this.2⟩
  · intro q hq
    obtain ⟨f, hfl, h1, h2, h3⟩ := hlive q hq
    refine ⟨f, hkeep f hfl h2, h1, ?_, ?_⟩
    · show (mem' f).is_free = false
      rw [hocc f h2]; exact h2
    · show (mem' f).next = _
      rw [hocc f h2]; exact h3

/-- One call: with `S < fuel` it comes back, and the invariant is kept. -/
theorem step_Inv {H a S fuel : Nat} {r0 : nov_memory_frame} {t : Tracked}
    (hinv : Inv H a S r0 t) (hS : H ≤ S) (hfuel : S < fuel) (op : Op) :
    step H fuel t op ≠ Outcome.stuck ∧
      ∀ t', step H fuel t op = Outcome.ok t' → Inv H a S r0 t' := by
  cases op with
  | malloc n =>
    by_cases hn : n + 2 * H < 2 ^ 32
    · obtain ⟨t1, h1, h2⟩ := Inv_malloc hinv hn hS hfuel
      rw [h1]
      exact ⟨fun h => Outcome.noConfusion h, fun t' ht' => by
        injection ht' with ht'; rw [← ht']; exact h2⟩
    · rw [step, if_neg hn]
      exact ⟨fun h => Outcome.noConfusion h, fun t' ht' => Outcome.noConfusion ht'⟩
  | mfree p =>
    by_cases hp : p ∈ t.live.map Prod.fst
    · obtain ⟨t1, h1, h2⟩ := @Inv_mfree H a S p fuel r0 t hinv hp
      rw [h1]
      exact ⟨fun h => Outcome.noConfusion h, fun t' ht' => by
        injection ht' with ht'; rw [← ht']; exact h2⟩
    · rw [step, if_neg hp]
      exact ⟨fun h => Outcome.noConfusion h, fun t' ht' => Outcome.noConfusion ht'⟩
  | mconsolidate =>
    obtain ⟨t1, h1, h2⟩ := Inv_mconsolidate hinv hS hfuel
    rw [h1]
    exact ⟨fun h => Outcome.noConfusion h, fun t' ht' => by
      injection ht' with ht'; rw [← ht']; exact h2⟩

/-- A sequence of calls: with `S < fuel` every call comes back, and the
invariant holds at the end. -/
theorem run_Inv {H a S fuel : Nat} {r0 : nov_memory_frame} (hS : H ≤ S) (hfuel : S < fuel) :
    ∀ (ops : List Op) {t : Tracked}, Inv H a S r0 t →
      run H fuel t ops ≠ Outcome.stuck ∧
        ∀ t', run H fuel t ops = Outcome.ok t' → Inv H a S r0 t'
  | [], t, hinv => ⟨fun h => Outcome.noConfusion h, fun t' ht' => by
      injection ht' with ht'; rw [← ht']; exact hinv⟩
  | op :: ops, t, hinv => by
    obtain ⟨hns, hok⟩ := step_Inv hinv hS hfuel op
    rw [run]
    cases hstep : step H fuel t op with
    | ok t1 => exact run_Inv hS hfuel ops (hok t1 hstep)
    | rejected => exact ⟨fun h => Outcome.noConfusion h, fun t' ht' => Outcome.noConfusion ht'⟩
    | stuck => exact absurd hstep hns


/-- Claim C12 (chain well-formedness is an invariant).  After a `minit`
on a region of `S ≥ 2H` bytes at a non-null address `a`, every sequence
of `malloc(n)` with `n + 2H < 2^32`, `mfree` of outstanding pointers and
`mconsolidate()` comes back from each call (with fuel above `S`), and at
the end the frames reachable from the head form a well-formed chain from
`a` to the sentinel at `a + S - H`: strictly increasing addresses, no
repetition, the sentinel with `is_free == false` and `next == null`, every
block of size at least `H`, and the block sizes adding up to `S - H`. -/
theorem C12_chain_invariant (H a S fuel : Nat) (s0 : Heap) (ops : List Op) (hH : 0 < H)
    (ha : a ≠ 0) (hS : 2 * H ≤ S) (hend : a + S ≤ 2 ^ 32) (hfuel : S < fuel) :
    run H fuel { heap := minit H s0 a S, live := [] } ops ≠ Outcome.stuck ∧
    ∀ t, run H fuel { heap := minit H s0 a S, live := [] } ops = Outcome.ok t →
      ∃ l, WellFormed H t.heap l ∧ l.head? = some a ∧ l.getLast? = some (a + S - H) ∧
        l.Pairwise (fun x y => x < y) ∧ l.Nodup ∧
        (t.heap.mem (a + S - H)).is_free = false ∧ (t.heap.mem (a + S - H)).next = 0 ∧
        (∀ b ∈ blocks t.heap.mem l, H ≤ b.size) ∧
        ((blocks t.heap.mem l).map fun b => b.size).sum = S - H := by
  obtain ⟨hns, hok⟩ := run_Inv (by omega : H ≤ S) hfuel ops (Inv_minit s0 hH ha hS hend)
  refine ⟨hns, fun t ht => ?_⟩
  obtain ⟨l, hwf, hhead, hlast, -, -, -⟩ := hok t ht
  obtain ⟨tl, rfl⟩ := hwf.eq_cons
  have hpw := IsChain.pairwise_lt hH hwf.2.2
  obtain ⟨hsen1, hsen2⟩ := IsChain.last_sentinel hwf.2.2 hlast
  obtain ⟨hb1, hb2, -⟩ := IsChain.blocks_sizes hH hwf.2.2 hlast
  refine ⟨_, hwf, by rw [← hhead]; rfl, hlast, hpw, ?_, hsen2, hsen1, hb1, ?_⟩
  · exact hpw.imp (fun h => Nat.ne_of_lt h)
  · rw [hb2, hhead]
    omega

/-- Claim C13 (outstanding allocations never overlap).  After a `minit`
on a region of `S ≥ 2H` bytes at `a`, every sequence of `malloc(n)` with
`n + 2H < 2^32`, `mfree` of outstanding pointers and `mconsolidate()` comes
back from each call, and at the end: every outstanding span `[p, p + n)`
lies inside `[a + H, a + S - H)`; the spans of two outstanding pointers
`p1 ≠ p2` are disjoint; and no span meets the header `[g, g + H)` of any
frame `g` of the chain. -/
theorem C13_allocations_disjoint (H a S fuel : Nat) (s0 : Heap) (ops : List Op) (hH : 0 < H)
    (ha : a ≠ 0) (hS : 2 * H ≤ S) (hend : a + S ≤ 2 ^ 32) (hfuel : S < fuel) :
    run H fuel { heap := minit H s0 a S, live := [] } ops ≠ Outcome.stuck ∧
    ∀ t, run H fuel { heap := minit H s0 a S, live := [] } ops = Outcome.ok t →
      (∀ q ∈ t.live, a + H ≤ q.1 ∧ q.1 + q.2 ≤ a + S - H) ∧
      (∀ q1 ∈ t.live, ∀ q2 ∈ t.live, q1.1 ≠ q2.1 →
        q1.1 + q1.2 ≤ q2.1 ∨ q2.1 + q2.2 ≤ q1.1) ∧
      ∃ l, WellFormed H t.heap l ∧
        ∀ q ∈ t.live, ∀ g ∈ l, g + H ≤ q.1 ∨ q.1 + q.2 ≤ g := by
  obtain ⟨hns, hok⟩ := run_Inv (by omega : H ≤ S) hfuel ops (Inv_minit s0 hH ha hS hend)
  refine ⟨hns, fun t ht => ?_⟩
  obtain ⟨l, hwf, hhead, hlast, -, -, hlive⟩ := hok t ht
  -- where the frame of an outstanding pointer sits among the others
  have hpos : ∀ q ∈ t.live, ∃ f ∈ l, q.1 = f + H ∧
      ∀ g ∈ l, g + H ≤ q.1 ∨ q.1 + q.2 ≤ g := by
    intro q hq
    obtain ⟨f, hfl, h1, -, h3⟩ := hlive q hq
    have hnz : (t.heap.mem f).next ≠ 0 := by rw [h3, h1]; omega
    obtain ⟨pre, g, rest, hl⟩ := IsChain.decompose hwf.2.2 hfl hnz
    subst hl
    obtain ⟨hnext, hfg, hprelt, hpostlt, hfgc⟩ := hwf.2.2.split_bounds
    refine ⟨f, hfl, h1, fun x hx => ?_⟩
    rw [hnext] at h3
    simp only [List.mem_append, List.mem_cons] at hx
    rcases hx with hx | rfl | rfl | hx
    · have := hprelt x hx; omega
    · omega
    · omega
    · have := hpostlt x hx; omega
  refine ⟨fun q hq => ?_, fun q1 hq1 q2 hq2 hne => ?_, l, hwf, fun q hq => ?_⟩
  rotate_right
  · obtain ⟨f, -, -, hall⟩ := hpos q hq
    exact hall
  · obtain ⟨f, hfl, h1, hall⟩ := hpos q hq
    obtain ⟨tl, rfl⟩ := hwf.eq_cons
    have hge := IsChain.head_le hwf.2.2 f hfl
    have hsenmem := List.mem_of_getLast?_eq_some hlast
    have := hall _ hsenmem
    have hsenge := IsChain.head_le hwf.2.2 _ hsenmem
    have hfb := hwf.2.2.bounds f hfl
    rw [hhead] at hge hsenge
    constructor
    · omega
    · rcases this with h | h
      · -- the sentinel lies above every other frame
        exfalso
        obtain ⟨hnz⟩ : Nonempty ((t.heap.mem f).next ≠ 0) := by
          obtain ⟨f', _, h1', _, h3'⟩ := hlive q hq
          have : f' = f := by omega
          subst this
          exact ⟨by rw [h3', h1']; omega⟩
        obtain ⟨pre, g, rest, hl⟩ := IsChain.decompose hwf.2.2 hfl hnz
        rw [hl] at hlast hwf
        have hm := getLast?_mem_tail pre f g rest hlast
        obtain ⟨-, hfg, -, -, hfgc⟩ := hwf.2.2.split_bounds
        have := IsChain.head_le hfgc.tail _ hm
        omega
      · exact h
  · obtain ⟨f1, hf1, h1, hall1⟩ := hpos q1 hq1
    obtain ⟨f2, hf2, h2, hall2⟩ := hpos q2 hq2
    have hA := hall1 f2 hf2
    have hB := hall2 f1 hf1
    have hf : f1 ≠ f2 := fun h => hne (by rw [h1, h2, h])
    rcases hA with hA | hA
    · rcases hB with hB | hB
      · omega
      · right; omega
    · left; omega

/-- Witness for C12: three calls and a sweep on the scenario region. -/
theorem C12_chain_invariant_witness :
    run 9 1025 { heap := minit 9 fresh_heap 4096 1024, live := [] }
      [Op.malloc 100, Op.malloc 100, Op.mfree 4105, Op.mconsolidate] ≠ Outcome.stuck ∧
    ∀ t, run 9 1025 { heap := minit 9 fresh_heap 4096 1024, live := [] }
        [Op.malloc 100, Op.malloc 100, Op.mfree 4105, Op.mconsolidate] = Outcome.ok t →
      ∃ l, WellFormed 9 t.heap l ∧ l.head? = some 4096 ∧
        l.getLast? = some (4096 + 1024 - 9) ∧
        l.Pairwise (fun x y => x < y) ∧ l.Nodup ∧
        (t.heap.mem (4096 + 1024 - 9)).is_free = false ∧
        (t.heap.mem (4096 + 1024 - 9)).next = 0 ∧
        (∀ b ∈ blocks t.heap.mem l, 9 ≤ b.size) ∧
        ((blocks t.heap.mem l).map fun b => b.size).sum = 1024 - 9 :=
  C12_chain_invariant 9 4096 1024 1025 fresh_heap
    [Op.malloc 100, Op.malloc 100, Op.mfree 4105, Op.mconsolidate] (by decide) (by decide)
    (by decide) (by decide) (by decide)

/-- Witness for C13: two outstanding blocks on the scenario region. -/
theorem C13_allocations_disjoint_witness :
    run 9 1025 { heap := minit 9 fresh_heap 4096 1024, live := [] }
      [Op.malloc 100, Op.malloc 50, Op.malloc 100, Op.mfree 4214] ≠ Outcome.stuck ∧
    ∀ t, run 9 1025 { heap := minit 9 fresh_heap 4096 1024, live := [] }
        [Op.malloc 100, Op.malloc 50, Op.malloc 100, Op.mfree 4214] = Outcome.ok t →
      (∀ q ∈ t.live, 4096 + 9 ≤ q.1 ∧ q.1 + q.2 ≤ 4096 + 1024 - 9) ∧
      (∀ q1 ∈ t.live, ∀ q2 ∈ t.live, q1.1 ≠ q2.1 →
        q1.1 + q1.2 ≤ q2.1 ∨ q2.1 + q2.2 ≤ q1.1) ∧
      ∃ l, WellFormed 9 t.heap l ∧
        ∀ q ∈ t.live, ∀ g ∈ l, g + 9 ≤ q.1 ∨ q.1 + q.2 ≤ g :=
  C13_allocations_disjoint 9 4096 1024 1025 fresh_heap
    [Op.malloc 100, Op.malloc 50, Op.malloc 100, Op.mfree 4214] (by decide) (by decide)
    (by decide) (by decide) (by decide)

/-- The run of the C13 witness, evaluated: two blocks stay outstanding. -/
theorem run_scenario_live :
    (match run 9 1025 { heap := minit 9 fresh_heap 4096 1024, live := [] }
        [Op.malloc 100, Op.malloc 50, Op.malloc 100, Op.mfree 4214] with
      | Outcome.ok t => t.live
      | _ => []) = [(4273, 100), (4105, 100)] := by
  decide


/-- Counterexample to C14 as stated: on a region that held zeros, the
sentinel frame at 5111 is in the chain after `minit`, and after a
following `malloc(100)`, but carries neither signature: `minit` writes only
`next` and `is_free` on it. -/
theorem C14_counterexample :
    WellFormed 9 (minit 9 fresh_heap 4096 1024) [4096, 5111] ∧
    ¬ valid_signatures ((minit 9 fresh_heap 4096 1024).mem 5111) ∧
    ((minit 9 fresh_heap 4096 1024).mem 5111).signature = 0 ∧
    ((minit 9 fresh_heap 4096 1024).mem 5111).signature_end = 0 ∧
    (match run 9 1025 { heap := minit 9 fresh_heap 4096 1024, live := [] } [Op.malloc 100] with
      | Outcome.ok t =>
        decide (WellFormed 9 t.heap [4096, 4205, 5111] ∧ ¬ valid_signatures (t.heap.mem 5111))
      | _ => false) = true := by
  refine ⟨by decide, by decide, by decide, by decide, by decide⟩

/-- Claim C14, as the code has it.  After a `minit` on a region of
`S ≥ 2H` bytes at `a`, and after every following sequence of `malloc(n)`
with `n + 2H < 2^32`, `mfree` of outstanding pointers and `mconsolidate()`,
every frame of the chain other than the sentinel (the head and every
remainder frame created by a split) holds `signature == 0x4a6b` and
`signature_end == 0x79`, whatever the region held before.  The signature
fields of the sentinel are never written: they are those the region held
before `minit`. -/
theorem C14_signature_invariant (H a S fuel : Nat) (s0 : Heap) (ops : List Op) (hH : 0 < H)
    (ha : a ≠ 0) (hS : 2 * H ≤ S) (hend : a + S ≤ 2 ^ 32) (hfuel : S < fuel) :
    run H fuel { heap := minit H s0 a S, live := [] } ops ≠ Outcome.stuck ∧
    ∀ t, run H fuel { heap := minit H s0 a S, live := [] } ops = Outcome.ok t →
      ∃ l, WellFormed H t.heap l ∧ l.getLast? = some (a + S - H) ∧
        (∀ f ∈ l, f ≠ a + S - H → valid_signatures (t.heap.mem f)) ∧
        (t.heap.mem (a + S - H)).signature = (s0.mem (a + S - H)).signature ∧
        (t.heap.mem (a + S - H)).signature_end = (s0.mem (a + S - H)).signature_end := by
  obtain ⟨hns, hok⟩ := run_Inv (by omega : H ≤ S) hfuel ops (Inv_minit s0 hH ha hS hend)
  refine ⟨hns, fun t ht => ?_⟩
  obtain ⟨l, hwf, -, hlast, hsen, hsig, -⟩ := hok t ht
  refine ⟨l, hwf, hlast, fun f hf hne => hsig f hf (fun hz => ?_), by rw [hsen], by rw [hsen]⟩
  have := IsChain.last_of_next_zero hwf.2.2 hf hz
  rw [hlast] at this
  injection this with this
  exact hne this.symm

/-- Witness for the amended C14: the scenario region. -/
theorem C14_signature_invariant_witness :
    run 9 1025 { heap := minit 9 fresh_heap 4096 1024, live := [] }
      [Op.malloc 100, Op.malloc 100, Op.mfree 4105, Op.mconsolidate] ≠ Outcome.stuck ∧
    ∀ t, run 9 1025 { heap := minit 9 fresh_heap 4096 1024, live := [] }
        [Op.malloc 100, Op.malloc 100, Op.mfree 4105, Op.mconsolidate] = Outcome.ok t →
      ∃ l, WellFormed 9 t.heap l ∧ l.getLast? = some (4096 + 1024 - 9) ∧
        (∀ f ∈ l, f ≠ 4096 + 1024 - 9 → valid_signatures (t.heap.mem f)) ∧
        (t.heap.mem (4096 + 1024 - 9)).signature =
          (fresh_heap.mem (4096 + 1024 - 9)).signature ∧
        (t.heap.mem (4096 + 1024 - 9)).signature_end =
          (fresh_heap.mem (4096 + 1024 - 9)).signature_end :=
  C14_signature_invariant 9 4096 1024 1025 fresh_heap
    [Op.malloc 100, Op.malloc 100, Op.mfree 4105, Op.mconsolidate] (by decide) (by decide)
    (by decide) (by decide) (by decide)


/-! ## Allocate, then free -/

/-- The round trip without overflow: on a well-formed chain whose frames
with a successor carry both signatures, and for `n + 2H < 2^32`, an
`mfree(p)` right after a `malloc(n)` that returned a non-null `p` comes
back and restores the chain: the same frames, each with the record it had
before. -/
theorem malloc_mfree_roundtrip {H n fuel : Nat} {s : Heap} {l : List Nat}
    (hwf : WellFormed H s l) (hn : n + 2 * H < 2 ^ 32) (hfuel : l.length < fuel)
    (hsig : ∀ f ∈ l, (s.mem f).next ≠ 0 → valid_signatures (s.mem f)) :
    ∃ s' p, malloc H fuel s n = some (s', p) ∧
      (p ≠ 0 → (mfree H s' p).returned = true ∧ (mfree H s' p).log = [] ∧
        WellFormed H (mfree H s' p).heap l ∧
        ∀ a ∈ l, (mfree H s' p).heap.mem a = s.mem a) := by
  have hH := hwf.1
  rcases malloc_spec hwf hn hfuel with ⟨hres, -⟩ | ⟨pre, f, g, post, hl, -, hfit, hres, hwf'⟩
  · exact ⟨s, 0, hres, fun h => absurd rfl h⟩
  · subst hl
    refine ⟨_, _, hres, fun _ => ?_⟩
    have hc : IsChain H s.mem (pre ++ f :: g :: post) := hwf.2.2
    obtain ⟨hnext, hfg, -, -, hfgc⟩ := hc.split_bounds
    have hgb := hfgc.tail.bounds g (List.mem_cons_self _ _)
    have hnotin := split_addr_not_mem hH hc hfit
    have hne : f ≠ f + H + n := by omega
    have hcur := @split_mem_cur s.mem f (f + H + n) g hne
    have hnew := @split_mem_new s.mem f (f + H + n) g hne
    have hfsig := hsig f (by simp) (by rw [hnext]; omega)
    have hsub32 : sub32 (f + H) H = f := by
      rw [sub32_of_le (by omega) (by omega)]
      omega
    rcases @mfree_occupied_spec H (f + H) f (f + H + n)
        { s with mem := split_mem s.mem f (f + H + n) g } pre (g :: post) hwf' hsub32
        (by show (split_mem s.mem f (f + H + n) g f).is_free = false; rw [hcur])
        (by show valid_signatures (split_mem s.mem f (f + H + n) g f)
            rw [hcur]; exact ⟨hfsig.1, hfsig.2⟩) with
      ⟨-, -, hres', hwf''⟩ | ⟨hocc, -, -⟩
    · rw [hres']
      refine ⟨rfl, rfl, ?_, ?_⟩
      · have e : (split_mem s.mem f (f + H + n) g (f + H + n)).next = g := by rw [hnew]
        dsimp only at hwf'' ⊢
        rw [e] at hwf'' ⊢
        exact hwf''
      · intro x hx
        show set_next (set_is_free (split_mem s.mem f (f + H + n) g) f true) f
          (split_mem s.mem f (f + H + n) g (f + H + n)).next x = s.mem x
        by_cases hxf : x = f
        · subst hxf
          have hfree := hfit.1
          simp only [set_next_apply, set_is_free_apply, if_true, hcur, hnew]
          cases hrec : s.mem x with
          | mk nx fr sg se =>
            rw [hrec] at hnext hfree
            simp only at hnext hfree
            rw [hnext, hfree]
        · have hxn : x ≠ f + H + n := fun h => hnotin (h ▸ hx)
          simp [hxf, split_mem_other hxf hxn]
    · exfalso
      have : (split_mem s.mem f (f + H + n) g (f + H + n)).is_free = false := hocc
      rw [hnew] at this
      exact Bool.noConfusion this

/-- The end-to-end scenario, evaluated: after `minit` one free block of
1015 bytes (payload 1006); `malloc(100)` returns 4105 and leaves an
occupied block of 109 bytes (payload 100) and a free remainder of 906
bytes (payload 897); `malloc(2000)` returns null; `mfree(4105)` gives back
one free block of 1015 bytes. -/
theorem scenario_end_to_end :
    blocks example_heap.mem [4096, 5111] = [⟨4096, 1015, true⟩] ∧
    (malloc 9 3 example_heap 100).map Prod.snd = some 4105 ∧
    blocks allocated_heap.mem [4096, 4205, 5111] = [⟨4096, 109, false⟩, ⟨4205, 906, true⟩] ∧
    (malloc 9 4 allocated_heap 2000).map Prod.snd = some 0 ∧
    WellFormed 9 (mfree 9 allocated_heap 4105).heap [4096, 5111] ∧
    blocks (mfree 9 allocated_heap 4105).heap.mem [4096, 5111] = [⟨4096, 1015, true⟩] := by
  refine ⟨by decide, by decide, by decide, by decide, by decide, by decide⟩

/-- Claim C15, at a failing input.  On the scenario heap `malloc(n)` with
`n = 2^32 - 9` returns the non-null pointer 4105: `n + 2H` wraps around to
`9` in `uint32_t`, the size test succeeds, and the new frame lands on the
head frame itself, which then points to itself.  The `mfree(4105)` that
follows returns, but the head frame still points to itself: the chain
`[4096, 5111]` is not restored and the sentinel is no longer reachable. -/
theorem C15_roundtrip_overflow :
    WellFormed 9 example_heap [4096, 5111] ∧
    valid_signatures (example_heap.mem 4096) ∧
    (malloc 9 3 example_heap (2 ^ 32 - 9)).map Prod.snd = some 4105 ∧
    (malloc 9 3 example_heap (2 ^ 32 - 9)).map
      (fun r => ((mfree 9 r.1 4105).returned, ((mfree 9 r.1 4105).heap.mem 4096).next,
        ((mfree 9 r.1 4105).heap.mem 4096).is_free,
        decide (WellFormed 9 (mfree 9 r.1 4105).heap [4096, 5111]))) =
      some (true, 4096, true, false) ∧
    (example_heap.mem 4096).next = 5111 := by
  refine ⟨by decide, by decide, by decide, by decide, by decide⟩


/-! ## `mfree` is forward-only -/

/-- Claim C18 (free is forward-only and one-step).  Let `f`, `g` be
consecutive frames of a well-formed chain, `f` occupied with valid
signatures, and `p - H = address(f)`.  Then `mfree(p)` returns and changes
no record other than that of `f`; of `f` it changes `is_free`, and `next`
only when `g` is free, in which case `f.next` becomes the former `g.next`
and the chain loses `g` alone; the signatures of `f`, the head pointer and
`memory_information` stay.  So the predecessor of `f` is never changed and
a free frame after `g` is not absorbed: there is a sequence of calls after
`minit`, ending in an `mfree`, that leaves the two adjacent frames 4096 and
4314 both free, and a following `mconsolidate()` merges them. -/
theorem C18_free_forward_only (H p f g : Nat) (s : Heap) (pre rest : List Nat)
    (hwf : WellFormed H s (pre ++ f :: g :: rest)) (hp : sub32 p H = f)
    (hocc : (s.mem f).is_free = false) (hsig : valid_signatures (s.mem f)) :
    ((mfree H s p).returned = true ∧
      (∀ a, a ≠ f → (mfree H s p).heap.mem a = s.mem a) ∧
      ((mfree H s p).heap.mem f).is_free = true ∧
      ((mfree H s p).heap.mem f).signature = (s.mem f).signature ∧
      ((mfree H s p).heap.mem f).signature_end = (s.mem f).signature_end ∧
      ((mfree H s p).heap.mem f).next =
        (if (s.mem g).is_free = true then (s.mem g).next else g) ∧
      WellFormed H (mfree H s p).heap
        (if (s.mem g).is_free = true then pre ++ f :: rest else pre ++ f :: g :: rest) ∧
      (mfree H s p).heap.head_frame = s.head_frame ∧
      (mfree H s p).heap.memory_information = s.memory_information) ∧
    (∃ t t', run 9 1025 { heap := minit 9 fresh_heap 4096 1024, live := [] }
        [Op.malloc 100, Op.malloc 100, Op.malloc 100, Op.mfree 4214, Op.mfree 4323,
          Op.mfree 4105] = Outcome.ok t ∧
      WellFormed 9 t.heap [4096, 4314, 5111] ∧
      (t.heap.mem 4096).is_free = true ∧ (t.heap.mem 4314).is_free = true ∧
      step 9 1025 t Op.mconsolidate = Outcome.ok t' ∧
      WellFormed 9 t'.heap [4096, 5111]) := by
  constructor
  · have hnext : (s.mem f).next = g := hwf.2.2.split_bounds.1
    rcases mfree_occupied_spec hwf hp hocc hsig with
      ⟨hgfree, -, hres, hwf'⟩ | ⟨hgocc, hres, hwf'⟩
    · rw [hres]
      rw [if_pos hgfree, if_pos hgfree]
      refine ⟨rfl, fun a ha => by simp [ha], by simp, by simp, by simp, by simp, hwf', rfl, rfl⟩
    · rw [hres]
      have hgn : ¬ (s.mem g).is_free = true := by rw [hgocc]; simp
      rw [if_neg hgn, if_neg hgn]
      refine ⟨rfl, fun a ha => by simp [ha], by simp, by simp, by simp, by simp [hnext], hwf',
        rfl, rfl⟩
  · exact ⟨_, _, rfl, by decide, by decide, by decide, rfl, by decide⟩

/-- Witness for C18: freeing the block of `allocated_heap`, whose successor
is the free remainder. -/
theorem C18_free_forward_only_witness :
    (∀ a, a ≠ 4096 → (mfree 9 allocated_heap 4105).heap.mem a = allocated_heap.mem a) ∧
    ((mfree 9 allocated_heap 4105).heap.mem 4096).next =
      (if (allocated_heap.mem 4205).is_free = true then (allocated_heap.mem 4205).next
        else 4205) ∧
    WellFormed 9 (mfree 9 allocated_heap 4105).heap
      (if (allocated_heap.mem 4205).is_free = true then [] ++ 4096 :: [5111]
        else [] ++ 4096 :: 4205 :: [5111]) :=
  ⟨(C18_free_forward_only 9 4105 4096 4205 allocated_heap [] [5111] (by decide) (by decide)
      (by decide) (by decide)).1.2.1,
    (C18_free_forward_only 9 4105 4096 4205 allocated_heap [] [5111] (by decide) (by decide)
      (by decide) (by decide)).1.2.2.2.2.2.1,
    (C18_free_forward_only 9 4105 4096 4205 allocated_heap [] [5111] (by decide) (by decide)
      (by decide) (by decide)).1.2.2.2.2.2.2.1⟩


/-! ## The inspector -/

/-- What the traversal of `mview` emits on a chain from `x` to the
sentinel `e`: one block record per block, then the end record. -/
theorem mview_loop_spec {H : Nat} (hH : 0 < H) {s : Heap} :
    ∀ {l : List Nat} {x e fuel : Nat}, IsChain H s.mem (x :: l) →
      (x :: l).getLast? = some e → (x :: l).length ≤ fuel →
      mview_loop H fuel s x =
        some (((blocks s.mem (x :: l)).map (block_record H)).flatten ++ end_record e)
  | [], x, e, fuel, hc, he, hf => by
    obtain ⟨k, rfl⟩ : ∃ k, fuel = k + 1 := ⟨fuel - 1, by simp at hf; omega⟩
    simp only [List.getLast?_singleton, Option.some.injEq] at he
    subst he
    have hx0 : x ≠ 0 := Nat.pos_iff_ne_zero.mp hc.1
    simp [mview_loop, hx0, hc.2.2.1, blocks, end_record]
  | y :: rest, x, e, fuel, hc, he, hf => by
    obtain ⟨k, rfl⟩ : ∃ k, fuel = k + 1 := ⟨fuel - 1, by simp at hf; omega⟩
    rw [List.getLast?_cons_cons] at he
    have hx0 : x ≠ 0 := Nat.pos_iff_ne_zero.mp hc.1
    have hnext : (s.mem x).next = y := hc.2.1
    have hxy : x + H ≤ y := hc.2.2.1
    have hyb := hc.bounds y (by simp)
    have hy0 : y ≠ 0 := by omega
    have hbs : block_size s.mem x = y - x := block_size_chain hH hc
    have hs : sub32 y x = y - x := by rw [← hbs, block_size, hnext]
    have hsH : sub32 (y - x) H = y - x - H := sub32_of_le (by omega) (by omega)
    have hlen : (y :: rest).length ≤ k := by simp at hf ⊢; omega
    have ih := mview_loop_spec hH hc.tail he hlen
    have hyx : x + (y - x) = y := by omega
    simp [mview_loop, hx0, hnext, hy0, hs, hsH, ih, blocks, block_record, hbs, hyx]

/-- Claim C17 (inspector).  On a well-formed chain `l` ending at the
sentinel `e`, `mview()` returns with fuel for one step per frame, leaves
the heap as it was, and emits the opening line, then one block record for
each of the `l.length - 1` frames before the sentinel, in chain order
(address, size with header, size without header, address of the next
frame, flag), then the end record with the address of the sentinel; the
sentinel gets no block record. -/
theorem C17_inspector (H fuel e : Nat) (s : Heap) (l : List Nat) (hwf : WellFormed H s l)
    (hlast : l.getLast? = some e) (hfuel : l.length ≤ fuel) :
    mview H fuel s =
      some (s, SerialCall.serial_println "=== MMAP START ===" ::
        (((blocks s.mem l).map (block_record H)).flatten ++ end_record e)) ∧
    (blocks s.mem l).length + 1 = l.length ∧
    (blocks s.mem l).map (fun b => b.addr) = l.dropLast ∧
    (∀ b ∈ blocks s.mem l, b.size = (s.mem b.addr).next - b.addr ∧
      b.addr + b.size = (s.mem b.addr).next ∧ b.is_free = (s.mem b.addr).is_free) := by
  obtain ⟨t, rfl⟩ := hwf.eq_cons
  have hchain : ∀ {l : List Nat} {x : Nat}, IsChain H s.mem (x :: l) →
      (blocks s.mem (x :: l)).length + 1 = (x :: l).length ∧
      (blocks s.mem (x :: l)).map (fun b => b.addr) = (x :: l).dropLast ∧
      (∀ b ∈ blocks s.mem (x :: l), b.size = (s.mem b.addr).next - b.addr ∧
        b.addr + b.size = (s.mem b.addr).next ∧ b.is_free = (s.mem b.addr).is_free) := by
    intro l
    induction l with
    | nil => intro x _; simp [blocks]
    | cons y rest ih =>
      intro x hc
      obtain ⟨ih1, ih2, ih3⟩ := ih hc.tail
      have hbs := block_size_chain hwf.1 hc
      have hnext : (s.mem x).next = y := hc.2.1
      have hxy := hc.2.2.1
      refine ⟨by simp only [blocks, List.length_cons] at ih1 ⊢; omega, ?_, ?_⟩
      · simp only [blocks, List.map_cons, List.dropLast_cons₂]
        rw [ih2]
      · intro b hb
        simp only [blocks, List.mem_cons] at hb
        rcases hb with rfl | hb
        · simp only [hbs, hnext]
          exact ⟨trivial, by omega, trivial⟩
        · exact ih3 b hb
  obtain ⟨h1, h2, h3⟩ := hchain hwf.2.2
  refine ⟨?_, h1, h2, h3⟩
  simp [mview, mview_loop_spec hwf.1 hwf.2.2 hlast hfuel]

/-- Witness for C17: the inspector on `allocated_heap`. -/
theorem C17_inspector_witness :
    mview 9 3 allocated_heap =
      some (allocated_heap, SerialCall.serial_println "=== MMAP START ===" ::
        (((blocks allocated_heap.mem [4096, 4205, 5111]).map (block_record 9)).flatten ++
          end_record 5111)) ∧
    (blocks allocated_heap.mem [4096, 4205, 5111]).length + 1 = [4096, 4205, 5111].length ∧
    (blocks allocated_heap.mem [4096, 4205, 5111]).map (fun b => b.addr) =
      [4096, 4205, 5111].dropLast ∧
    (∀ b ∈ blocks allocated_heap.mem [4096, 4205, 5111],
      b.size = (allocated_heap.mem b.addr).next - b.addr ∧
      b.addr + b.size = (allocated_heap.mem b.addr).next ∧
      b.is_free = (allocated_heap.mem b.addr).is_free) :=
  C17_inspector 9 3 5111 allocated_heap [4096, 4205, 5111] (by decide) (by decide) (by decide)


/-! ## The margin of the split -/

/-- The margin of `memory.cpp` without overflow: on a well-formed chain
and for `n + 2H < 2^32`, a split leaves the remainder frame `p + n` free
with `block_size > H`, so its header ends strictly before the frame that
follows it. -/
theorem split_margin_bounded {H n fuel : Nat} {s : Heap} {l : List Nat}
    (hwf : WellFormed H s l) (hn : n + 2 * H < 2 ^ 32) (hfuel : l.length < fuel) :
    ∃ s' p, malloc H fuel s n = some (s', p) ∧
      (p ≠ 0 → (s'.mem (p - H)).next = p + n ∧ (s'.mem (p + n)).is_free = true ∧
        H < block_size s'.mem (p + n) ∧ p + n + H < (s'.mem (p + n)).next) := by
  have hH := hwf.1
  rcases malloc_spec hwf hn hfuel with ⟨hres, -⟩ | ⟨pre, f, g, post, hl, -, hfit, hres, hwf'⟩
  · exact ⟨s, 0, hres, fun h => absurd rfl h⟩
  · subst hl
    refine ⟨_, _, hres, fun _ => ?_⟩
    have hc : IsChain H s.mem (pre ++ f :: g :: post) := hwf.2.2
    obtain ⟨hnext, hfg, -, -, hfgc⟩ := hc.split_bounds
    have hgb := hfgc.tail.bounds g (List.mem_cons_self _ _)
    have hbs : block_size s.mem f = g - f := block_size_chain hH hfgc
    have hbig : n + 2 * H < g - f := by rw [← hbs]; exact hfit.2
    have hne : f ≠ f + H + n := by omega
    have hcur := @split_mem_cur s.mem f (f + H + n) g hne
    have hnew := @split_mem_new s.mem f (f + H + n) g hne
    have e1 : f + H - H = f := by omega
    have hbs' : block_size (split_mem s.mem f (f + H + n) g) (f + H + n) = g - (f + H + n) := by
      unfold block_size
      rw [hnew]
      show sub32 g (f + H + n) = g - (f + H + n)
      exact sub32_of_le (by omega) (by omega)
    refine ⟨?_, ?_, ?_, ?_⟩
    · show (split_mem s.mem f (f + H + n) g (f + H - H)).next = f + H + n
      rw [e1, hcur]
    · show (split_mem s.mem f (f + H + n) g (f + H + n)).is_free = true
      rw [hnew]
    · show H < block_size (split_mem s.mem f (f + H + n) g) (f + H + n)
      rw [hbs']
      omega
    · show f + H + n + H < (split_mem s.mem f (f + H + n) g (f + H + n)).next
      rw [hnew]
      show f + H + n + H < g
      omega

/-- Claim C20, at a failing input.  The half about `include/memory.h`
holds: on the well-formed chain `[4096, 5115]` with `H = 5`, the
header-only `malloc(1013)` succeeds and places the remainder frame at 5114,
one byte before the following frame 5115, so that its header
`[5114, 5119)` runs into the header of that frame.  The half about
`memory.cpp` fails: on the scenario heap `malloc(n)` with `n = 2^32 - 9`
splits the head block (`n + 2H` wraps around to `9`, and `1015 > 9`), the
remainder frame `new_block` is computed as 4096, the head frame itself,
and after the split it points to itself: its `block_size` is `0`, not
above `H = 9`, and its header does not end before the frame that follows
it. -/
theorem C20_split_overflow :
    (∃ s', header_only.WellFormed 5 header_only.example_heap [4096, 5115] ∧
      header_only.malloc 5 3 header_only.example_heap 1013 = some (s', 4096 + 5) ∧
      (s'.mem 4096).is_free = false ∧ (s'.mem 4096).next = 5114 ∧
      (s'.mem 5114).is_free = true ∧ (s'.mem 5114).next = 5115 ∧
      5114 < 5115 ∧ 5115 < 5114 + 5 ∧ sub32 (s'.mem 5114).next 5114 < 5) ∧
    WellFormed 9 example_heap [4096, 5111] ∧
    block_size example_heap.mem 4096 = 1015 ∧
    add32 (add32 (2 ^ 32 - 9) 9) 9 = 9 ∧
    add32 (add32 4096 9) (2 ^ 32 - 9) = 4096 ∧
    (malloc 9 3 example_heap (2 ^ 32 - 9)).map Prod.snd = some 4105 ∧
    (malloc 9 3 example_heap (2 ^ 32 - 9)).map
      (fun r => ((r.1.mem 4096).next, block_size r.1.mem 4096,
        decide (4096 + 9 < (r.1.mem 4096).next))) = some (4096, 0, false) := by
  refine ⟨⟨_, by decide, rfl, by decide, by decide, by decide, by decide, by decide, by decide,
    by decide⟩, by decide, by decide, by decide, by decide, by decide, by decide⟩

/-! ## Double free after the header was absorbed -/

/-- Counterexample to C19 as stated, in the byte-level model.  After
`minit(4096, 1024)`: `p1 = malloc(100)` is 4105 and `p2 = malloc(100)` is
4214; `mfree(p2)` and `mfree(p1)` return, and the header of the block of
`p2`, at 4205, is absorbed into the one free block; a second `mfree(p2)`
would still be a no-op here.  Then `malloc(101)` returns 4105, not `p2`,
and places its remainder frame at 4206, over the bytes of the absorbed
header.  Now `mfree(p2)` reads 0x6b01 as the signature at 4205 and ends in
`panic()`. -/
theorem C19_counterexample :
    (bytes.malloc 3 bytes.heap0 100).map Prod.snd = some 4105 ∧
    (bytes.malloc 4 (bytes.heap_after_malloc 3 bytes.heap0 100) 100).map Prod.snd =
      some 4214 ∧
    (bytes.mfree bytes.heap2 4214).panicked = false ∧
    (bytes.mfree (bytes.mfree bytes.heap2 4214).heap 4105).panicked = false ∧
    bytes.get_next bytes.heap4.mem 4096 = 5111 ∧
    (bytes.mfree bytes.heap4 4214).panicked = false ∧
    (bytes.malloc 3 bytes.heap4 101).map Prod.snd = some 4105 ∧
    bytes.get_next bytes.heap5.mem 4096 = 4206 ∧
    bytes.get_signature bytes.heap5.mem (sub32 4214 bytes.H) = 0x6b01 ∧
    (bytes.mfree bytes.heap5 4214).panicked = true := by
  refine ⟨by decide, by decide, by decide, by decide, by decide, by decide, by decide,
    by decide, by decide, by decide⟩

/-- The run used in the witnesses of C12, C14, evaluated: it ends in a
state with the chain `[4096, 4205, 4314, 5111]` and the one outstanding
pointer 4214. -/
theorem run_scenario_chain :
    (match run 9 1025 { heap := minit 9 fresh_heap 4096 1024, live := [] }
        [Op.malloc 100, Op.malloc 100, Op.mfree 4105, Op.mconsolidate] with
      | Outcome.ok t =>
        decide (WellFormed 9 t.heap [4096, 4205, 4314, 5111] ∧ t.live = [(4214, 100)])
      | _ => false) = true := by
  decide

/-! ## Freed pointers whose header is intact -/

/-- Between two frames of a chain: the successor of the lower one is a
header's length above it and not above the higher one. -/
theorem IsChain.next_le_of_lt {H : Nat} {mem : Nat → nov_memory_frame} :
    ∀ {l : List Nat}, IsChain H mem l → ∀ y ∈ l, ∀ z ∈ l, y < z →
      y + H ≤ (mem y).next ∧ (mem y).next ≤ z
  | [], h, _, _, _, _, _ => absurd h (by simp [IsChain])
  | [x], _, y, hy, z, hz, hlt => by
    simp only [List.mem_singleton] at hy hz
    omega
  | x :: w :: rest, h, y, hy, z, hz, hlt => by
    have hxw := h.2.2.1
    rcases List.mem_cons.mp hy with hyx | hy'
    · rcases List.mem_cons.mp hz with hzx | hz'
      · omega
      · have := IsChain.head_le h.tail z hz'
        rw [hyx, h.2.1]
        omega
    · have hwy := IsChain.head_le h.tail y hy'
      rcases List.mem_cons.mp hz with hzx | hz'
      · omega
      · exact IsChain.next_le_of_lt h.tail y hy' z hz' hlt

/-- A free frame of a chain has a successor in the address space, a
header's length above it. -/
theorem IsChain.free_next {H : Nat} {mem : Nat → nov_memory_frame} {l : List Nat}
    (hH : 0 < H) (h : IsChain H mem l) {y : Nat} (hy : y ∈ l)
    (hfree : (mem y).is_free = true) :
    y + H ≤ (mem y).next ∧ (mem y).next < 2 ^ 32 ∧ (mem y).next ∈ l := by
  have hnz : (mem y).next ≠ 0 := by
    intro hz
    have hlast := IsChain.last_of_next_zero h hy hz
    have := (IsChain.last_sentinel h hlast).2
    rw [hfree] at this
    exact Bool.noConfusion this
  obtain ⟨pre, g, rest, hl⟩ := IsChain.decompose h hy hnz
  subst hl
  obtain ⟨hnext, hfg, -, -, hfgc⟩ := h.split_bounds
  have hgb := hfgc.tail.bounds g (List.mem_cons_self _ _)
  rw [hnext]
  exact ⟨hfg, by omega, by simp⟩

/-- A tracked freed pointer can be freed again: `mfree` does nothing. -/
theorem FreedOk.mfree_noop {H : Nat} {s : Heap} {l freed : List Nat} (hwf : WellFormed H s l)
    (hok : FreedOk H s l freed) {q : Nat} (hq : q ∈ freed) :
    mfree H s q = { heap := s, log := [], returned := true } := by
  obtain ⟨x, y, hqx, hy, hyf, hxy, hsig, hfree⟩ := hok q hq
  obtain ⟨h1, h2, -⟩ := IsChain.free_next hwf.1 hwf.2.2 hy hyf
  have hH := hwf.1
  have hsub32 : sub32 q H = x := by
    rw [hqx, sub32_of_le (by omega) (by rcases hxy with h | h <;> omega)]
    omega
  exact mfree_of_free (by rw [hsub32]; exact hsig) (by rw [hsub32]; exact hfree)


/-- The tracked freed pointers after a split: those whose header does not
meet the bytes from the split frame `f` to the end of the new header at
`f + H + n`, or is that new header, have a signed and free header. -/
theorem FreedOk.split {H n : Nat} {s : Heap} {pre post freed : List Nat} {f g : Nat}
    (hwf : WellFormed H s (pre ++ f :: g :: post)) (hfit : fits H n s.mem f)
    (hok : FreedOk H s (pre ++ f :: g :: post) freed) :
    FreedOk H { s with mem := split_mem s.mem f (f + H + n) g }
      (pre ++ f :: (f + H + n) :: g :: post)
      (freed.filter fun q => f + H + n + 2 * H ≤ q ∨ q + H ≤ f + H ∨ q = f + H + n + H) := by
  have hH := hwf.1
  have hc : IsChain H s.mem (pre ++ f :: g :: post) := hwf.2.2
  obtain ⟨hnext, hfg, -, -, hfgc⟩ := hc.split_bounds
  have hbs : block_size s.mem f = g - f := block_size_chain hH hfgc
  have hbig : n + 2 * H < g - f := by rw [← hbs]; exact hfit.2
  have hnotin := split_addr_not_mem hH hc hfit
  have hne : f ≠ f + H + n := by omega
  have hfl : f ∈ pre ++ f :: g :: post := by simp
  intro q hq
  obtain ⟨hqf, hcond⟩ := List.mem_filter.mp hq
  have hcond' : f + H + n + 2 * H ≤ q ∨ q + H ≤ f + H ∨ q = f + H + n + H := by
    simpa using hcond
  obtain ⟨x, y, hqx, hy, hyf, hxy, hsig, hfree⟩ := hok q hqf
  show ∃ x y, q = x + H ∧ y ∈ pre ++ f :: (f + H + n) :: g :: post ∧
    (split_mem s.mem f (f + H + n) g y).is_free = true ∧
    (x = y ∨ (y + H ≤ x ∧ x + H ≤ (split_mem s.mem f (f + H + n) g y).next)) ∧
    valid_signatures (split_mem s.mem f (f + H + n) g x) ∧
    (split_mem s.mem f (f + H + n) g x).is_free = true
  by_cases hyf' : y = f
  · -- the header lay in the block that is split: it is kept only beyond the new header
    rw [hyf', hnext] at hxy
    by_cases hxn : x = f + H + n
    · -- the header is the new remainder frame
      refine ⟨x, f + H + n, hqx, by simp, ?_, Or.inl hxn, ?_, ?_⟩
      · rw [split_mem_new hne]
      · rw [hxn, split_mem_new hne]
        exact ⟨rfl, rfl⟩
      · rw [hxn, split_mem_new hne]
    · have hx1 : f + H + n + H ≤ x ∧ x + H ≤ g := by
        rcases hxy with h | h
        · omega
        · omega
      have hxm : split_mem s.mem f (f + H + n) g x = s.mem x :=
        split_mem_other (by omega) (by omega)
      refine ⟨x, f + H + n, hqx, by simp, ?_, Or.inr ?_, by rw [hxm]; exact hsig,
        by rw [hxm]; exact hfree⟩
      · rw [split_mem_new hne]
      · rw [split_mem_new hne]
        exact ⟨by omega, hx1.2⟩
  · -- the header lies in another block, which the split does not touch
    have hyn : y ≠ f + H + n := fun h => hnotin (h ▸ hy)
    have hym : split_mem s.mem f (f + H + n) g y = s.mem y := split_mem_other hyf' hyn
    have hyl : y ∈ pre ++ f :: (f + H + n) :: g :: post := by
      simp only [List.mem_append, List.mem_cons] at hy ⊢
      tauto
    obtain ⟨hy1, -, -⟩ := IsChain.free_next hH hc hy hyf
    have hxout : x ≠ f ∧ x ≠ f + H + n := by
      rcases Nat.lt_or_ge y f with hlt | hge
      · have := (IsChain.next_le_of_lt hc y hy f hfl hlt).2
        rcases hxy with h | h <;> omega
      · have hlt : f < y := by omega
        have := (IsChain.next_le_of_lt hc f hfl y hy hlt).2
        rw [hnext] at this
        rcases hxy with h | h <;> omega
    have hxm : split_mem s.mem f (f + H + n) g x = s.mem x :=
      split_mem_other hxout.1 hxout.2
    exact ⟨x, y, hqx, hyl, by rw [hym]; exact hyf, by rw [hym]; exact hxy,
      by rw [hxm]; exact hsig, by rw [hxm]; exact hfree⟩

/-- The tracked freed pointers after `mfree` of the occupied, signed frame
`f` with successor `g`: the pointer `f + H` joins them, and the others keep
an intact header whether or not `g` is merged into `f`. -/
theorem FreedOk.mfree {H : Nat} {s : Heap} {pre rest freed : List Nat} {f g : Nat}
    (hwf : WellFormed H s (pre ++ f :: g :: rest)) (hocc : (s.mem f).is_free = false)
    (hsig : valid_signatures (s.mem f))
    (hok : FreedOk H s (pre ++ f :: g :: rest) freed) :
    ((s.mem g).is_free = true →
      FreedOk H { s with mem := set_next (set_is_free s.mem f true) f (s.mem g).next }
        (pre ++ f :: rest) ((f + H) :: freed)) ∧
    ((s.mem g).is_free = false →
      FreedOk H { s with mem := set_is_free s.mem f true } (pre ++ f :: g :: rest)
        ((f + H) :: freed)) := by
  have hH := hwf.1
  have hc : IsChain H s.mem (pre ++ f :: g :: rest) := hwf.2.2
  obtain ⟨hnext, hfg, -, -, hfgc⟩ := hc.split_bounds
  have hfl : f ∈ pre ++ f :: g :: rest := by simp
  have hgl : g ∈ pre ++ f :: g :: rest := by simp
  -- a tracked header is not the record of `f`
  have hxf : ∀ x y, y ∈ pre ++ f :: g :: rest → (s.mem y).is_free = true →
      (x = y ∨ (y + H ≤ x ∧ x + H ≤ (s.mem y).next)) → x ≠ f ∧ y ≠ f := by
    intro x y hy hyf hxy
    have hyf' : y ≠ f := fun h => by
      rw [h, hocc] at hyf
      exact Bool.noConfusion hyf
    refine ⟨?_, hyf'⟩
    rcases hxy with h | h
    · rw [h]; exact hyf'
    · rcases Nat.lt_or_ge y f with hlt | hge
      · have := (IsChain.next_le_of_lt hc y hy f hfl hlt).2
        omega
      · omega
  constructor
  · intro hgfree
    have hmo : ∀ a, a ≠ f →
        set_next (set_is_free s.mem f true) f (s.mem g).next a = s.mem a := by
      intro a ha; simp [ha]
    have hmf : set_next (set_is_free s.mem f true) f (s.mem g).next f =
        { s.mem f with is_free := true, next := (s.mem g).next } := by simp
    obtain ⟨hg1, -, -⟩ := IsChain.free_next hH hc hgl hgfree
    intro q hq
    show ∃ x y, q = x + H ∧ y ∈ pre ++ f :: rest ∧
      (set_next (set_is_free s.mem f true) f (s.mem g).next y).is_free = true ∧
      (x = y ∨ (y + H ≤ x ∧
        x + H ≤ (set_next (set_is_free s.mem f true) f (s.mem g).next y).next)) ∧
      valid_signatures (set_next (set_is_free s.mem f true) f (s.mem g).next x) ∧
      (set_next (set_is_free s.mem f true) f (s.mem g).next x).is_free = true
    rcases List.mem_cons.mp hq with hqf | hq'
    · refine ⟨f, f, hqf, by simp, ?_, Or.inl rfl, ?_, ?_⟩
      · rw [hmf]
      · rw [hmf]; exact ⟨hsig.1, hsig.2⟩
      · rw [hmf]
    · obtain ⟨x, y, hqx, hy, hyf, hxy, hxsig, hxfree⟩ := hok q hq'
      obtain ⟨hx1, hy1⟩ := hxf x y hy hyf hxy
      by_cases hyg : y = g
      · -- the header lay in the block of `g`, which `f` takes over
        refine ⟨x, f, hqx, by simp, by rw [hmf], Or.inr ?_, by rw [hmo x hx1]; exact hxsig,
          by rw [hmo x hx1]; exact hxfree⟩
        rw [hmf]
        show f + H ≤ x ∧ x + H ≤ (s.mem g).next
        rw [hyg] at hxy
        rcases hxy with h | h
        · rw [h]; exact ⟨hfg, hg1⟩
        · exact ⟨by omega, h.2⟩
      · have hyl : y ∈ pre ++ f :: rest := by
          simp only [List.mem_append, List.mem_cons] at hy ⊢
          tauto
        exact ⟨x, y, hqx, hyl, by rw [hmo y hy1]; exact hyf, by rw [hmo y hy1]; exact hxy,
          by rw [hmo x hx1]; exact hxsig, by rw [hmo x hx1]; exact hxfree⟩
  · intro _
    have hmo : ∀ a, a ≠ f → set_is_free s.mem f true a = s.mem a := by
      intro a ha; simp [ha]
    have hmf : set_is_free s.mem f true f = { s.mem f with is_free := true } := by simp
    intro q hq
    show ∃ x y, q = x + H ∧ y ∈ pre ++ f :: g :: rest ∧
      (set_is_free s.mem f true y).is_free = true ∧
      (x = y ∨ (y + H ≤ x ∧ x + H ≤ (set_is_free s.mem f true y).next)) ∧
      valid_signatures (set_is_free s.mem f true x) ∧
      (set_is_free s.mem f true x).is_free = true
    rcases List.mem_cons.mp hq with hqf | hq'
    · refine ⟨f, f, hqf, hfl, ?_, Or.inl rfl, ?_, ?_⟩
      · rw [hmf]
      · rw [hmf]; exact ⟨hsig.1, hsig.2⟩
      · rw [hmf]
    · obtain ⟨x, y, hqx, hy, hyf, hxy, hxsig, hxfree⟩ := hok q hq'
      obtain ⟨hx1, hy1⟩ := hxf x y hy hyf hxy
      exact ⟨x, y, hqx, hy, by rw [hmo y hy1]; exact hyf, by rw [hmo y hy1]; exact hxy,
        by rw [hmo x hx1]; exact hxsig, by rw [hmo x hx1]; exact hxfree⟩


/-- One call keeps the tracked freed pointers intact. -/
theorem step_freed_ok {H a S fuel : Nat} {r0 : nov_memory_frame} {t t' : Tracked}
    {l freed : List Nat} (hinv : Inv H a S r0 t) (hwf : WellFormed H t.heap l)
    (hok : FreedOk H t.heap l freed) (hS : H ≤ S) (hfuel : S < fuel) (op : Op)
    (hstep : step H fuel t op = Outcome.ok t') :
    ∃ l', WellFormed H t'.heap l' ∧ FreedOk H t'.heap l' (step_freed H fuel t freed op) := by
  obtain ⟨l0, hwf0, hhead, hlast, hsen, hsig, hlive⟩ := hinv
  have hl : l0 = l := WellFormed.chain_unique hwf0 hwf
  subst hl
  have hH := hwf.1
  have hlen : l0.length ≤ S := by
    obtain ⟨tl, rfl⟩ := hwf.eq_cons
    have := IsChain.length_le hH hwf.2.2 hlast
    simp only [List.length_cons]
    omega
  cases op with
  | malloc n =>
    by_cases hn : n + 2 * H < 2 ^ 32
    · rcases malloc_spec hwf hn (by omega : l0.length < fuel) with
        ⟨hres, -⟩ | ⟨pre, f, g, post, hl, -, hfit, hres, hwf'⟩
      · rw [step, if_pos hn, hres] at hstep
        injection hstep with ht
        subst ht
        refine ⟨l0, hwf, ?_⟩
        simp only [step_freed, hres, if_true]
        exact hok
      · subst hl
        have hgb := (hwf.2.2.split_bounds.2.2.2.2).tail.bounds g (List.mem_cons_self _ _)
        have hfg := hwf.2.2.split_bounds.2.1
        have hp0 : f + H ≠ 0 := by omega
        rw [step, if_pos hn, hres] at hstep
        injection hstep with ht
        subst ht
        refine ⟨_, hwf', ?_⟩
        simp only [step_freed, hres, if_neg hp0]
        exact FreedOk.split hwf hfit hok
    · rw [step, if_neg hn] at hstep
      exact Outcome.noConfusion hstep
  | mfree p =>
    by_cases hp : p ∈ t.live.map Prod.fst
    · obtain ⟨q, hq, hqp⟩ := List.mem_map.mp hp
      obtain ⟨f, hfl, hq1, hocc, hnx⟩ := hlive q hq
      have hpf : p = f + H := by rw [← hqp, hq1]
      have hnz : (t.heap.mem f).next ≠ 0 := by rw [hnx, hq1]; omega
      obtain ⟨pre, g, rest, hl⟩ := IsChain.decompose hwf.2.2 hfl hnz
      subst hl
      obtain ⟨-, hfg, -, -, hfgc⟩ := hwf.2.2.split_bounds
      have hgb := hfgc.tail.bounds g (List.mem_cons_self _ _)
      have hsub32 : sub32 p H = f := by
        rw [hpf, sub32_of_le (by omega) (by omega)]
        omega
      have hfsig := hsig f hfl hnz
      obtain ⟨hmerge, hplain⟩ := FreedOk.mfree hwf hocc hfsig hok
      rcases mfree_occupied_spec hwf hsub32 hocc hfsig with
        ⟨hgfree, -, hres, hwf'⟩ | ⟨hgocc, hres, hwf'⟩
      · rw [step, if_pos hp, hres] at hstep
        simp only [if_true] at hstep
        injection hstep with ht
        subst ht
        refine ⟨_, hwf', ?_⟩
        simp only [step_freed]
        rw [hpf]
        exact hmerge hgfree
      · rw [step, if_pos hp, hres] at hstep
        simp only [if_true] at hstep
        injection hstep with ht
        subst ht
        refine ⟨_, hwf', ?_⟩
        simp only [step_freed]
        rw [hpf]
        exact hplain hgocc
    · rw [step, if_neg hp] at hstep
      exact Outcome.noConfusion hstep
  | mconsolidate =>
    obtain ⟨tl, rfl⟩ := hwf.eq_cons
    obtain ⟨mem', l', hres, hch, -, -, -, hflag, -, -, -, -, hcov⟩ :=
      mconsolidate_loop_spec hH fuel hwf.2.2 (by omega)
    have hstep' : step H fuel t Op.mconsolidate =
        Outcome.ok { heap := { t.heap with mem := mem' }, live := t.live } := by
      simp [step, mconsolidate, hres]
    rw [hstep'] at hstep
    injection hstep with ht
    subst ht
    refine ⟨t.heap.head_frame :: l', ⟨hH, rfl, hch⟩, ?_⟩
    simp only [step_freed]
    intro q hq
    obtain ⟨x, y, hqx, hy, hyf, hxy, hxsig, hxfree⟩ := hok q hq
    obtain ⟨c, hcl, hcf, hcy, hcn⟩ := hcov y hy hyf
    obtain ⟨hy1, -, -⟩ := IsChain.free_next hH hwf.2.2 hy hyf
    obtain ⟨h1, h2, h3⟩ := hflag x
    refine ⟨x, c, hqx, hcl, hcf, ?_, ⟨by show (mem' x).signature = _; rw [h2]; exact hxsig.1,
      by show (mem' x).signature_end = _; rw [h3]; exact hxsig.2⟩,
      by show (mem' x).is_free = true; rw [h1]; exact hxfree⟩
    show x = c ∨ (c + H ≤ x ∧ x + H ≤ (mem' c).next)
    rcases hcy with hc1 | hc1
    · rcases hxy with h | h
      · left; rw [h, hc1]
      · right; subst hc1; exact ⟨h.1, by omega⟩
    · right
      rcases hxy with h | h
      · rw [h]; exact ⟨hc1, by omega⟩
      · exact ⟨by omega, by omega⟩

/-- The outcome recorded by `run_freed` is that of `run`. -/
theorem run_freed_fst (H fuel : Nat) :
    ∀ (ops : List Op) (t : Tracked) (freed : List Nat),
      (run_freed H fuel t freed ops).1 = run H fuel t ops
  | [], _, _ => rfl
  | op :: ops, t, freed => by
    rw [run_freed, run]
    cases hstep : step H fuel t op with
    | ok t1 => exact run_freed_fst H fuel ops t1 _
    | rejected => rfl
    | stuck => rfl

/-- A sequence of calls keeps the tracked freed pointers intact. -/
theorem run_freed_ok {H a S fuel : Nat} {r0 : nov_memory_frame} (hS : H ≤ S)
    (hfuel : S < fuel) :
    ∀ (ops : List Op) {t t' : Tracked} {l freed freed' : List Nat}, Inv H a S r0 t →
      WellFormed H t.heap l → FreedOk H t.heap l freed →
      run_freed H fuel t freed ops = (Outcome.ok t', freed') →
      ∃ l', WellFormed H t'.heap l' ∧ FreedOk H t'.heap l' freed'
  | [], t, t', l, freed, freed', _, hwf, hok, hrun => by
    rw [run_freed] at hrun
    injection hrun with h1 h2
    injection h1 with h1
    subst h1 h2
    exact ⟨l, hwf, hok⟩
  | op :: ops, t, t', l, freed, freed', hinv, hwf, hok, hrun => by
    rw [run_freed] at hrun
    cases hstep : step H fuel t op with
    | ok t1 =>
      rw [hstep] at hrun
      obtain ⟨l1, hwf1, hok1⟩ := step_freed_ok hinv hwf hok hS hfuel op hstep
      exact run_freed_ok hS hfuel ops ((step_Inv hinv hS hfuel op).2 t1 hstep) hwf1 hok1 hrun
    | rejected =>
      rw [hstep] at hrun
      injection hrun with h1 h2
      exact Outcome.noConfusion h1
    | stuck =>
      rw [hstep] at hrun
      injection hrun with h1 h2
      exact Outcome.noConfusion h1


/-- The three continuations of the double-free scenario after both blocks
were freed and the header at 4205 absorbed, in the byte-level model and in
the tracking of `run_freed`.  After `malloc(50)`, which does not write the
bytes of the absorbed header, and after `malloc(100)`, which writes its
remainder frame exactly there, `mfree(4214)` does not end in `panic()` and
leaves the heap as it is, and 4214 is still tracked; after `malloc(101)`,
whose remainder frame is one byte off, 4214 is struck off. -/
theorem double_free_absorbed_bytes :
    (bytes.malloc 3 bytes.heap4 50).map Prod.snd = some 4105 ∧
    bytes.get_next bytes.heap6.mem 4096 = 4155 ∧
    bytes.get_next bytes.heap6.mem 4155 = 5111 ∧
    (bytes.mfree bytes.heap6 4214).panicked = false ∧
    (bytes.mfree bytes.heap6 4214).heap = bytes.heap6 ∧
    (bytes.malloc 3 bytes.heap4 100).map Prod.snd = some 4105 ∧
    bytes.get_next bytes.heap7.mem 4096 = 4205 ∧
    (bytes.mfree bytes.heap7 4214).panicked = false ∧
    (bytes.mfree bytes.heap7 4214).heap = bytes.heap7 ∧
    (run_freed 9 1025 { heap := minit 9 fresh_heap 4096 1024, live := [] } []
      [Op.malloc 100, Op.malloc 100, Op.mfree 4214, Op.mfree 4105, Op.malloc 50]).2 = [4214] ∧
    (run_freed 9 1025 { heap := minit 9 fresh_heap 4096 1024, live := [] } []
      [Op.malloc 100, Op.malloc 100, Op.mfree 4214, Op.mfree 4105, Op.malloc 100]).2 = [4214] ∧
    (run_freed 9 1025 { heap := minit 9 fresh_heap 4096 1024, live := [] } []
      [Op.malloc 100, Op.malloc 100, Op.mfree 4214, Op.mfree 4105, Op.malloc 101]).2 = [] := by
  refine ⟨by decide, by decide, by decide, by decide, rfl, by decide, by decide, by decide, rfl,
    by decide, by decide, by decide⟩

/-- The header of a tracked freed pointer is a frame of the chain or lies
clear of every frame of the chain: no write to a header of the chain
touches one of its bytes. -/
theorem FreedOk.header_apart {H : Nat} {s : Heap} {l freed : List Nat}
    (hwf : WellFormed H s l) (hok : FreedOk H s l freed) {q : Nat} (hq : q ∈ freed) :
    ∀ z ∈ l, z + H = q ∨ z + H + H ≤ q ∨ q ≤ z := by
  intro z hz
  obtain ⟨x, y, hqx, hy, hyf, hxy, -, -⟩ := hok q hq
  obtain ⟨hy1, -, -⟩ := IsChain.free_next hwf.1 hwf.2.2 hy hyf
  rcases Nat.lt_trichotomy z y with hlt | heq | hgt
  · have := IsChain.next_le_of_lt hwf.2.2 z hz y hy hlt
    rcases hxy with h | h <;> omega
  · rcases hxy with h | h <;> omega
  · have := IsChain.next_le_of_lt hwf.2.2 y hy z hz hgt
    rcases hxy with h | h <;> omega

/-- Claim C19, as the code has it.  After a `minit` on a region of
`S ≥ 2H` bytes at `a` and every following sequence of `malloc(n)` with
`n + 2H < 2^32`, `mfree` of outstanding pointers and `mconsolidate()`, the
calls return, and a further `mfree(q)` returns without output and leaves
the heap as it is for every freed pointer `q` that `run_freed` still
tracks: `q` was passed to `mfree`, and no later `malloc` has returned `q`
or has written or handed out a byte of the header `[q - H, q)` other than
by placing its new remainder frame at exactly `q - H`.  This holds whether
the frame of `q` is still in the chain or was absorbed by a merge of
`mfree` or `mconsolidate`; the header of such a `q` is a frame of the
chain or lies clear of the header of every frame `z` of the chain.  Also
`mfree(f + H)` returns without output and leaves the heap as it is for
every free frame `f` of the chain. -/
theorem C19_double_free_intact (H a S fuel : Nat) (s0 : Heap) (ops : List Op) (hH : 0 < H)
    (ha : a ≠ 0) (hS : 2 * H ≤ S) (hend : a + S ≤ 2 ^ 32) (hfuel : S < fuel) :
    run H fuel { heap := minit H s0 a S, live := [] } ops ≠ Outcome.stuck ∧
    ∀ t fr, run_freed H fuel { heap := minit H s0 a S, live := [] } [] ops =
        (Outcome.ok t, fr) →
      (∀ q ∈ fr, mfree H t.heap q = { heap := t.heap, log := [], returned := true } ∧
        ∀ l z, WellFormed H t.heap l → z ∈ l → z + H = q ∨ z + H + H ≤ q ∨ q ≤ z) ∧
      (∀ l f, WellFormed H t.heap l → f ∈ l → (t.heap.mem f).is_free = true →
        mfree H t.heap (f + H) = { heap := t.heap, log := [], returned := true }) := by
  have hinv := Inv_minit s0 hH ha hS hend
  obtain ⟨hns, hok⟩ := run_Inv (by omega : H ≤ S) hfuel ops hinv
  refine ⟨hns, fun t fr hrun => ⟨fun q hq => ?_, fun l f hwf hf hfree => ?_⟩⟩
  · obtain ⟨l0, hwf0, -⟩ := hinv
    have hnil : FreedOk H (minit H s0 a S) l0 [] := fun q hq => absurd hq (List.not_mem_nil q)
    obtain ⟨l1, hwf1, hok1⟩ :=
      run_freed_ok (by omega : H ≤ S) hfuel ops (Inv_minit s0 hH ha hS hend) hwf0 hnil hrun
    refine ⟨FreedOk.mfree_noop hwf1 hok1 hq, fun l z hwf hz => ?_⟩
    have hl : l = l1 := WellFormed.chain_unique hwf hwf1
    subst hl
    exact FreedOk.header_apart hwf hok1 hq z hz
  · have ht : run H fuel { heap := minit H s0 a S, live := [] } ops = Outcome.ok t := by
      rw [← run_freed_fst H fuel ops _ [], hrun]
    obtain ⟨l0, hwf0, -, -, -, hsig, -⟩ := hok t ht
    have hl : l = l0 := WellFormed.chain_unique hwf hwf0
    subst hl
    have hnz : (t.heap.mem f).next ≠ 0 := by
      intro hz
      have hlast := IsChain.last_of_next_zero hwf.2.2 hf hz
      have := (IsChain.last_sentinel hwf.2.2 hlast).2
      rw [hfree] at this
      exact Bool.noConfusion this
    obtain ⟨pre, g, rest, hl⟩ := IsChain.decompose hwf.2.2 hf hnz
    subst hl
    obtain ⟨-, hfg, -, -, hfgc⟩ := hwf.2.2.split_bounds
    have hgb := hfgc.tail.bounds g (List.mem_cons_self _ _)
    have hsub32 : sub32 (f + H) H = f := by
      rw [sub32_of_le (by omega) (by omega)]
      omega
    have hfsig := hsig f hf hnz
    exact mfree_of_free (by rw [hsub32]; exact hfsig) (by rw [hsub32]; exact hfree)

/-- Witness for the amended C19, on an absorbed header.  After the calls
of `absorbed_ops` on the scenario region the chain is `[4096, 4155, 5111]`:
the frame of the freed pointer 4214, at 4205, is no longer in it.  The
pointer is still tracked, and `mfree(4214)` leaves the heap as it is. -/
theorem C19_double_free_intact_witness :
    run_freed 9 1025 { heap := minit 9 fresh_heap 4096 1024, live := [] } [] absorbed_ops =
      (Outcome.ok { heap := absorbed_heap, live := [(4105, 50)] }, [4214]) ∧
    WellFormed 9 absorbed_heap [4096, 4155, 5111] ∧
    mfree 9 absorbed_heap 4214 = { heap := absorbed_heap, log := [], returned := true } :=
  ⟨rfl, by decide,
    (((C19_double_free_intact 9 4096 1024 1025 fresh_heap absorbed_ops (by decide) (by decide)
      (by decide) (by decide) (by decide)).2
      { heap := absorbed_heap, live := [(4105, 50)] } [4214] rfl).1 4214
      (List.mem_singleton.mpr rfl)).1⟩

end nov.memory
